import Mathlib

/-!
# Red-black tree insertion (`src/red_black_tree.c`): a shallow embedding

The C program keeps its nodes in `malloc`ed records linked by `left`, `right`
and `parent` pointers.  The embedding keeps the records in a heap (a list of
records, an address being an index of the list, `NULL` being `none`) and
threads the heap through every function.  Dereferencing `NULL` or an address
outside the heap is a fault; recursion and loops that follow pointers carry a
fuel argument.
-/

namespace Rbt

/-- An `unsigned char` value. -/
abbrev Byte := Fin 256

/-- The `while (min_size > 0)` loop of `rbt_compare_data`: `some r` when the
loop executes `return r`, `none` when it runs to completion.  `*data` is the
head of the remaining buffer, `data++` drops it. -/
def rbt_compare_loop : Nat → List Byte → List Byte → Option Int
  | 0, _, _ => none
  | min_size + 1, data1, data2 =>
    if data1.headD 0 < data2.headD 0 then some (-1)
    else if data1.headD 0 > data2.headD 0 then some 1
    else rbt_compare_loop min_size data1.tail data2.tail

/-- Embedding of `rbt_compare_data(n1, data1, n2, data2)`. -/
def rbt_compare_data (n1 : Nat) (data1 : List Byte) (n2 : Nat) (data2 : List Byte) : Int :=
  let min_size := if n1 < n2 then n1 else n2
  match rbt_compare_loop min_size data1 data2 with
  | some r => r
  | none => if n1 < n2 then -1 else if n1 > n2 then 1 else 0

/-- The order of the specification, written from its words: the first
differing byte decides, and a proper prefix is smaller. -/
def refCompare : List Byte → List Byte → Int
  | [], [] => 0
  | [], _ :: _ => -1
  | _ :: _, [] => 1
  | a :: as, b :: bs => if a < b then -1 else if b < a then 1 else refCompare as bs

/-- The comparison of two keys given as byte sequences. -/
abbrev cmpKey (a b : List Byte) : Int := rbt_compare_data a.length a b.length b

/-- Strict order on keys induced by the comparator. -/
def keyLt (a b : List Byte) : Prop := cmpKey a b < 0

instance (a b : List Byte) : Decidable (keyLt a b) := by unfold keyLt; infer_instance

/-! ## Heap, nodes and pointers -/

/-- How a run of the C program can fail to return: a dereference of `NULL`
(or of an address that was never allocated), a failing `assert`, or, in the
embedding only, an exhausted fuel budget. -/
inductive Fault where
  | nullDeref
  | assertFailed
  | outOfFuel
  deriving DecidableEq, Repr

deriving instance DecidableEq for Except

/-- The type `rbt_color_t` with its two constants. -/
inductive Color where
  | RED
  | BLACK
  deriving DecidableEq, Repr

/-- A `struct node*`: `none` is `NULL`, `some a` the address `a`. -/
abbrev Ptr := Option Nat

/-- The record `struct node`; `data` holds the `data_size` bytes of the
flexible array member. -/
structure Node where
  data_size : Nat
  left : Ptr
  right : Ptr
  parent : Ptr
  color : Color
  data : List Byte
  deriving DecidableEq, Repr

/-- The allocated records; the address of a record is its index. -/
abbrev Heap := List Node

/-- Read through a pointer (`*p`, `p->field`). -/
def deref (h : Heap) (p : Ptr) : Except Fault Node :=
  match p with
  | none => .error .nullDeref
  | some a =>
    match h[a]? with
    | some nd => .ok nd
    | none => .error .nullDeref

/-- Write through a pointer (`p->field = v`), the update given as a function
on the record. -/
def store (h : Heap) (p : Ptr) (f : Node → Node) : Except Fault Heap :=
  match p with
  | none => .error .nullDeref
  | some a =>
    match h[a]? with
    | some nd => .ok (h.set a (f nd))
    | none => .error .nullDeref

/-- The C `assert`. -/
def c_assert (b : Bool) : Except Fault Unit :=
  if b then .ok () else .error .assertFailed

/-- Embedding of `rbt_alloc`: `malloc` returns the next unused address, the
fields are initialised and `data_size` bytes are copied. -/
def rbt_alloc (h : Heap) (data_size : Nat) (data : List Byte) (color : Color) : Heap × Ptr :=
  (h ++ [{ data_size := data_size, left := none, right := none, parent := none,
           color := color, data := data.take data_size }], some h.length)

/-- Embedding of `rbt_compare_nodes`. -/
def rbt_compare_nodes (h : Heap) (n1 n2 : Ptr) : Except Fault Int := do
  let d1 ← deref h n1
  let d2 ← deref h n2
  pure (rbt_compare_data d1.data_size d1.data d2.data_size d2.data)

/-- Embedding of `grandparent`. -/
def grandparent (h : Heap) (n : Ptr) : Except Fault Ptr :=
  if n = none then pure none
  else do
    let nd ← deref h n
    if nd.parent = none then pure none
    else do
      let pd ← deref h nd.parent
      pure pd.parent

/-- Embedding of `uncle`. -/
def uncle (h : Heap) (n : Ptr) : Except Fault Ptr := do
  let g ← grandparent h n
  if g = none then pure none
  else do
    let nd ← deref h n
    let gd ← deref h g
    if nd.parent = gd.left then pure gd.right else pure gd.left

/-! ## Rotations and the fixup cases -/

/-- Embedding of `rotate_right`. -/
def rotate_right (h : Heap) (g : Ptr) : Except Fault Heap := do
  let gd ← deref h g
  let old_parent := gd.parent
  let new_root := gd.left
  let nr ← deref h new_root
  let lr := nr.right
  let h ← store h new_root (fun x => { x with right := g })
  let h ← store h g (fun x => { x with left := lr })
  let h ← if lr = none then pure h else store h lr (fun x => { x with parent := g })
  let gd ← deref h g
  let h ←
    if gd.parent = none then pure h
    else do
      let gp ← deref h gd.parent
      if g = gp.left then store h gd.parent (fun x => { x with left := new_root })
      else store h gd.parent (fun x => { x with right := new_root })
  let h ← store h g (fun x => { x with parent := new_root })
  store h new_root (fun x => { x with parent := old_parent })

/-- Embedding of `rotate_left`. -/
def rotate_left (h : Heap) (g : Ptr) : Except Fault Heap := do
  let gd ← deref h g
  let old_parent := gd.parent
  let new_root := gd.right
  let nr ← deref h new_root
  let rl := nr.left
  let h ← store h new_root (fun x => { x with left := g })
  let h ← store h g (fun x => { x with right := rl })
  let h ← if rl = none then pure h else store h rl (fun x => { x with parent := g })
  let gd ← deref h g
  let h ←
    if gd.parent = none then pure h
    else do
      let gp ← deref h gd.parent
      if g = gp.left then store h gd.parent (fun x => { x with left := new_root })
      else store h gd.parent (fun x => { x with right := new_root })
  let h ← store h g (fun x => { x with parent := new_root })
  store h new_root (fun x => { x with parent := old_parent })

/-- Embedding of `insert_case5`; the second component of the state is
`*root_ptr`. -/
def insert_case5 (h : Heap) (root : Ptr) (n : Ptr) : Except Fault (Heap × Ptr) := do
  let g ← grandparent h n
  c_assert (g ≠ none)
  let nd ← deref h n
  let h ← store h nd.parent (fun x => { x with color := .BLACK })
  let h ← store h g (fun x => { x with color := .RED })
  let nd ← deref h n
  let pd ← deref h nd.parent
  if n = pd.left then do
    let root ← if g = root then (do let gd ← deref h g; pure gd.left) else pure root
    let h ← rotate_right h g
    pure (h, root)
  else do
    let root ← if g = root then (do let gd ← deref h g; pure gd.right) else pure root
    let h ← rotate_left h g
    pure (h, root)

/-- Embedding of `insert_case4`, with its two inlined rotations. -/
def insert_case4 (h : Heap) (root : Ptr) (n : Ptr) : Except Fault (Heap × Ptr) := do
  let g ← grandparent h n
  let nd ← deref h n
  let pd ← deref h nd.parent
  let bent_lr ←
    if n = pd.right then (do let gd ← deref h g; pure (decide (nd.parent = gd.left)))
    else pure false
  if bent_lr then do
    let gd ← deref h g
    let saved_p := gd.left
    let saved_left_n := nd.left
    let h ← store h g (fun x => { x with left := n })
    let h ← store h n (fun x => { x with parent := g })
    let h ← store h n (fun x => { x with left := saved_p })
    let h ← store h saved_p (fun x => { x with parent := n })
    let h ← store h saved_p (fun x => { x with right := saved_left_n })
    let h ←
      if saved_left_n = none then pure h
      else store h saved_left_n (fun x => { x with parent := saved_p })
    let nd ← deref h n
    insert_case5 h root nd.left
  else do
    let bent_rl ←
      if n = pd.left then (do let gd ← deref h g; pure (decide (nd.parent = gd.right)))
      else pure false
    if bent_rl then do
      let gd ← deref h g
      let saved_p := gd.right
      let saved_right_n := nd.right
      let h ← store h g (fun x => { x with right := n })
      let h ← store h n (fun x => { x with parent := g })
      let h ← store h n (fun x => { x with right := saved_p })
      let h ← store h saved_p (fun x => { x with parent := n })
      let h ← store h saved_p (fun x => { x with left := saved_right_n })
      let h ←
        if saved_right_n = none then pure h
        else store h saved_right_n (fun x => { x with parent := saved_p })
      let nd ← deref h n
      insert_case5 h root nd.right
    else insert_case5 h root n

mutual
/-- Embedding of `insert_case1`. -/
def insert_case1 : Nat → Heap → Ptr → Ptr → Except Fault (Heap × Ptr)
  | 0, _, _, _ => .error .outOfFuel
  | fuel + 1, h, root, n => do
    let nd ← deref h n
    if nd.parent = none then do
      let h ← store h n (fun x => { x with color := .BLACK })
      pure (h, root)
    else insert_case2 fuel h root n
/-- Embedding of `insert_case2`. -/
def insert_case2 : Nat → Heap → Ptr → Ptr → Except Fault (Heap × Ptr)
  | 0, _, _, _ => .error .outOfFuel
  | fuel + 1, h, root, n => do
    let nd ← deref h n
    let pd ← deref h nd.parent
    if pd.color = .BLACK then pure (h, root)
    else insert_case3 fuel h root n
/-- Embedding of `insert_case3`. -/
def insert_case3 : Nat → Heap → Ptr → Ptr → Except Fault (Heap × Ptr)
  | 0, _, _, _ => .error .outOfFuel
  | fuel + 1, h, root, n => do
    let u ← uncle h n
    let uncle_red ←
      if u = none then pure false
      else (do let ud ← deref h u; pure (decide (ud.color = .RED)))
    if uncle_red then do
      let nd ← deref h n
      let h ← store h nd.parent (fun x => { x with color := .BLACK })
      let h ← store h u (fun x => { x with color := .BLACK })
      let g ← grandparent h n
      let h ← store h g (fun x => { x with color := .RED })
      insert_case1 fuel h root g
    else insert_case4 h root n
end

/-! ## Insertion -/

/-- How the `while` loop of `rbt_insert` ends: by `return root` on a
duplicate, or by leaving the loop (`break`, or `node == NULL`) with the given
heap and value of `node`. -/
inductive LoopExit where
  | returned
  | exited (h : Heap) (node : Ptr)
  deriving DecidableEq, Repr

/-- The descent loop of `rbt_insert`. -/
def rbt_insert_loop :
    Nat → Heap → Ptr → Nat → List Byte → Ptr → Except Fault LoopExit
  | 0, _, _, _, _, _ => .error .outOfFuel
  | fuel + 1, h, node, data_size, data, new_node =>
    if node = none then pure (.exited h node)
    else do
      let nd ← deref h node
      let comp_result := rbt_compare_data data_size data nd.data_size nd.data
      if comp_result = 0 then pure .returned
      else if comp_result < 0 then
        if nd.left = none then do
          let h ← store h node (fun x => { x with left := new_node })
          pure (.exited h node)
        else rbt_insert_loop fuel h nd.left data_size data new_node
      else
        if nd.right = none then do
          let h ← store h node (fun x => { x with right := new_node })
          pure (.exited h node)
        else rbt_insert_loop fuel h nd.right data_size data new_node

/-- Embedding of `rbt_insert`.  The argument `inserted` is the value held by
`*inserted` when the function is called, the third component of the result
the value it holds on return. -/
def rbt_insert (fuel : Nat) (h : Heap) (root : Ptr) (data_size : Nat) (data : List Byte)
    (inserted : Bool) : Except Fault (Heap × Ptr × Bool) :=
  if root = none then
    let a := rbt_alloc h data_size data .BLACK
    pure (a.1, a.2, inserted)
  else do
    let a := rbt_alloc h data_size data .RED
    let h := a.1
    let new_node := a.2
    match ← rbt_insert_loop fuel h root data_size data new_node with
    | .returned => pure (h, root, false)
    | .exited h node => do
      let h ← store h new_node (fun x => { x with parent := node })
      let s ← insert_case1 fuel h root new_node
      pure (s.1, s.2, true)

/-! ## The validator -/

/-- Embedding of `rbt_validate_bst`. -/
def rbt_validate_bst : Nat → Heap → Ptr → Ptr → Ptr → Except Fault Unit
  | 0, _, _, _, _ => .error .outOfFuel
  | fuel + 1, h, node, min_value, max_value =>
    if node = none then pure ()
    else do
      if min_value ≠ none then
        c_assert (decide ((← rbt_compare_nodes h min_value node) < 0))
      if max_value ≠ none then
        c_assert (decide ((← rbt_compare_nodes h node max_value) < 0))
      let nd ← deref h node
      if nd.left ≠ none then
        let ld ← deref h nd.left
        c_assert (decide (ld.parent = node))
        c_assert (decide ((← rbt_compare_nodes h nd.left node) < 0))
        rbt_validate_bst fuel h nd.left min_value node
      if nd.right ≠ none then
        let rd ← deref h nd.right
        c_assert (decide (rd.parent = node))
        c_assert (decide ((← rbt_compare_nodes h node nd.right) < 0))
        rbt_validate_bst fuel h nd.right node max_value

/-- Embedding of `rbt_validate_invariants`. -/
def rbt_validate_invariants : Nat → Heap → Ptr → Except Fault Nat
  | 0, _, _ => .error .outOfFuel
  | fuel + 1, h, node =>
    if node = none then pure 0
    else do
      let nd ← deref h node
      if nd.color = .RED then
        let left_ok ←
          if nd.left = none then pure true
          else (do let ld ← deref h nd.left; pure (decide (ld.color = .BLACK)))
        c_assert left_ok
        let right_ok ←
          if nd.right = none then pure true
          else (do let rd ← deref h nd.right; pure (decide (rd.color = .BLACK)))
        c_assert right_ok
      let n_left_black ← rbt_validate_invariants fuel h nd.left
      let n_right_black ← rbt_validate_invariants fuel h nd.right
      c_assert (decide (n_left_black = n_right_black))
      pure (n_left_black + (if nd.color = .BLACK then 1 else 0))

/-- Embedding of `rbt_validate_tree`. -/
def rbt_validate_tree (fuel : Nat) (h : Heap) (root : Ptr) : Except Fault Unit :=
  if root = none then pure ()
  else do
    let rd ← deref h root
    c_assert (decide (rd.color = .BLACK))
    rbt_validate_bst fuel h root none none
    let _ ← rbt_validate_invariants fuel h root
    pure ()

/-- The value held by a C `int` for the mathematical result `x` of an
addition: 32 bits, two's complement.  Overflow of a signed addition is
undefined in C; the embedding takes the wrapped value the machine addition
gives, which in any case lies between `INT_MIN` and `INT_MAX`. -/
def c_int (x : Int) : Int := (x + 2147483648) % 4294967296 - 2147483648

/-- Embedding of `rbt_num_nodes`.  The result is a C `int`: each of the two
additions of `1 + rbt_num_nodes(n->left) + rbt_num_nodes(n->right)` is taken
in 32 bits. -/
def rbt_num_nodes : Nat → Heap → Ptr → Except Fault Int
  | 0, _, _ => .error .outOfFuel
  | fuel + 1, h, n =>
    if n = none then pure 0
    else do
      let nd ← deref h n
      let nl ← rbt_num_nodes fuel h nd.left
      let nr ← rbt_num_nodes fuel h nd.right
      pure (c_int (c_int (1 + nl) + nr))

/-- The caller's loop (as in `rbt_randomized_test`): insert the keys one at a
time, each call receiving the heap, the root and the flag left by the
previous one. -/
def insert_all (fuel : Nat) :
    List (List Byte) → Heap × Ptr × Bool → Except Fault (Heap × Ptr × Bool)
  | [], s => pure s
  | k :: ks, s => do
    let s ← rbt_insert fuel s.1 s.2.1 k.length k s.2.2
    insert_all fuel ks s

/-- The loop of `rbt_randomized_test` with validation switched on: after each
insertion `rbt_validate_tree` runs on the new root. -/
def insert_validate_all (fuel : Nat) :
    List (List Byte) → Heap × Ptr × Bool → Except Fault (Heap × Ptr × Bool)
  | [], s => pure s
  | k :: ks, s => do
    let s ← rbt_insert fuel s.1 s.2.1 k.length k s.2.2
    rbt_validate_tree fuel s.1 s.2.1
    insert_validate_all fuel ks s

/-! ## The tree a heap represents -/

/-- A finite binary tree of nodes, each with its colour, address and key. -/
inductive Tree where
  | nil
  | node (c : Color) (l : Tree) (a : Nat) (k : List Byte) (r : Tree)
  deriving DecidableEq, Repr

namespace Tree

/-- The pointer to the top node (`NULL` for the empty tree). -/
def root : Tree → Ptr
  | nil => none
  | node _ _ a _ _ => some a

/-- The colour of the top node; a null leaf counts as BLACK. -/
def color : Tree → Color
  | nil => .BLACK
  | node c _ _ _ _ => c

/-- Addresses in in-order. -/
def addrs : Tree → List Nat
  | nil => []
  | node _ l a _ r => l.addrs ++ a :: r.addrs

/-- Keys in in-order: the in-order traversal of the tree. -/
def keys : Tree → List (List Byte)
  | nil => []
  | node _ l _ k r => l.keys ++ k :: r.keys

/-- Number of nodes on the longest path from the top to a null leaf. -/
def depth : Tree → Nat
  | nil => 0
  | node _ l _ _ r => max l.depth r.depth + 1

/-- Number of nodes. -/
def size : Tree → Nat
  | nil => 0
  | node _ l _ _ r => l.size + r.size + 1

/-- The same tree with its top node coloured BLACK. -/
def blacken : Tree → Tree
  | nil => nil
  | node _ l a k r => node .BLACK l a k r

/-- Invariant 1 (BST ordering): at every node, every key of the left subtree
compares less than the node's key and every key of the right subtree greater. -/
def ordered : Tree → Prop
  | nil => True
  | node _ l _ k r =>
    (∀ x ∈ l.keys, keyLt x k) ∧ (∀ x ∈ r.keys, keyLt k x) ∧ l.ordered ∧ r.ordered

/-- Invariant 3: no RED node has a RED child. -/
def noRedRed : Tree → Prop
  | nil => True
  | node c l _ _ r =>
    (c = .RED → l.color = .BLACK ∧ r.color = .BLACK) ∧ l.noRedRed ∧ r.noRedRed

/-- The number of BLACK nodes on each path from the top down to a null leaf,
one entry per path. -/
def blackPaths : Tree → List Nat
  | nil => [0]
  | node c l _ _ r =>
    (l.blackPaths ++ r.blackPaths).map (fun n => n + (if c = .BLACK then 1 else 0))

/-- Invariant 4 (black-height consistency): at every node, all paths down to
a null leaf hold the same number of BLACK nodes. -/
def pathsAgree : Tree → Prop
  | nil => True
  | node c l a k r =>
    (∀ x ∈ (node c l a k r).blackPaths, ∀ y ∈ (node c l a k r).blackPaths, x = y) ∧
      l.pathsAgree ∧ r.pathsAgree

/-- Black-height as `rbt_validate_invariants` computes it: along the left spine. -/
def bheight : Tree → Nat
  | nil => 0
  | node c l _ _ _ => l.bheight + (if c = .BLACK then 1 else 0)

/-- At every node the left and right subtrees have equal black-height. -/
def balanced : Tree → Prop
  | nil => True
  | node _ l _ _ r => l.bheight = r.bheight ∧ l.balanced ∧ r.balanced

end Tree

/-- The heap `h` holds the tree `t` below a node (or root slot) `par`: every
node of `t` is the record at its address, with the key, colour and child
pointers of `t` and the parent pointer of its position. -/
def Rep (h : Heap) : Ptr → Tree → Prop
  | _, .nil => True
  | par, .node c l a k r =>
    h[a]? = some ⟨k.length, l.root, r.root, par, c, k⟩ ∧ Rep h (some a) l ∧ Rep h (some a) r

/-- Invariants 1 to 5 of the specification, for a tree. -/
structure RBInv (t : Tree) : Prop where
  ordered : t.ordered
  rootBlack : t.color = .BLACK
  noRedRed : t.noRedRed
  pathsAgree : t.pathsAgree
  unique : t.keys.Pairwise (fun x y => cmpKey x y ≠ 0)

/-- A well-formed tree in the heap: `root` points to a tree with consistent
child and parent links, no parent above the root, and invariants 1 to 5. -/
def WellFormed (h : Heap) (root : Ptr) : Prop :=
  ∃ t : Tree, t.root = root ∧ Rep h none t ∧ RBInv t

/-- A tree with a hole: the path from the hole up to the root, each step
recording the node passed and the sibling subtree left aside. -/
inductive Ctx where
  | top
  | left (c : Color) (a : Nat) (k : List Byte) (r : Tree) (up : Ctx)
  | right (c : Color) (l : Tree) (a : Nat) (k : List Byte) (up : Ctx)
  deriving DecidableEq, Repr

namespace Ctx

/-- Fill the hole. -/
def plug : Ctx → Tree → Tree
  | top, t => t
  | left c a k r up, t => up.plug (.node c t a k r)
  | right c l a k up, t => up.plug (.node c l a k t)

/-- The node directly above the hole. -/
def parent : Ctx → Ptr
  | top => none
  | left _ a _ _ _ => some a
  | right _ _ a _ _ => some a

/-- Number of nodes above the hole. -/
def depth : Ctx → Nat
  | top => 0
  | left _ _ _ _ up => up.depth + 1
  | right _ _ _ _ up => up.depth + 1

/-- All addresses of the context. -/
def addrs : Ctx → List Nat
  | top => []
  | left _ a _ r up => a :: r.addrs ++ up.addrs
  | right _ l a _ up => a :: l.addrs ++ up.addrs

/-- Colour of the root node of the context (BLACK when there is none). -/
def topColor : Ctx → Color
  | top => .BLACK
  | left c _ _ _ top => c
  | right c _ _ _ top => c
  | left _ _ _ _ up => up.topColor
  | right _ _ _ _ up => up.topColor

end Ctx

/-- The heap holds the context `ctx`, its hole filled by the pointer `hole`. -/
def RepCtx (h : Heap) : Ctx → Ptr → Prop
  | .top, _ => True
  | .left c a k r up, hole =>
    h[a]? = some ⟨k.length, hole, r.root, up.parent, c, k⟩ ∧ Rep h (some a) r ∧
      RepCtx h up (some a)
  | .right c l a k up, hole =>
    h[a]? = some ⟨k.length, l.root, hole, up.parent, c, k⟩ ∧ Rep h (some a) l ∧
      RepCtx h up (some a)

/-- The descent of `rbt_insert` on trees: the position where the key is
attached, or `none` when the key is met on the way. -/
def descend (key : List Byte) : Tree → Ctx → Option Ctx
  | .nil, ctx => some ctx
  | .node c l a k r, ctx =>
    if cmpKey key k = 0 then none
    else if cmpKey key k < 0 then descend key l (.left c a k r ctx)
    else descend key r (.right c l a k ctx)

/-- The heap after the loop of `rbt_insert` has stored `new_node` in the
child slot at the hole of `ctx`. -/
def attachSlot (h : Heap) (ctx : Ctx) (new_node : Ptr) : Heap :=
  match ctx with
  | .top => h
  | .left c a k r up => h.set a ⟨k.length, new_node, r.root, up.parent, c, k⟩
  | .right c l a k up => h.set a ⟨k.length, l.root, new_node, up.parent, c, k⟩

/-- The fixup `insert_case1` .. `insert_case5` on trees: `t` is the subtree
at the working node, `ctx` what lies above it. -/
def fixup : Ctx → Tree → Tree
  | .top, t => t.blacken
  | .left cp p kp s up, t =>
    if cp = .BLACK then (Ctx.left cp p kp s up).plug t
    else
      match up with
      | .top => (Ctx.left cp p kp s .top).plug t
      | .left _ g kg u up2 =>
        match u with
        | .node .RED ul ua uk ur =>
          fixup up2 (.node .RED (.node .BLACK t p kp s) g kg (.node .BLACK ul ua uk ur))
        | _ => up2.plug (.node .BLACK t p kp (.node .RED s g kg u))
      | .right cg u g kg up2 =>
        match u with
        | .node .RED ul ua uk ur =>
          fixup up2 (.node .RED (.node .BLACK ul ua uk ur) g kg (.node .BLACK t p kp s))
        | _ =>
          match t with
          | .nil => (Ctx.left cp p kp s (.right cg u g kg up2)).plug t
          | .node _ l n k r =>
            up2.plug (.node .BLACK (.node .RED u g kg l) n k (.node cp r p kp s))
  | .right cp s p kp up, t =>
    if cp = .BLACK then (Ctx.right cp s p kp up).plug t
    else
      match up with
      | .top => (Ctx.right cp s p kp .top).plug t
      | .right _ u g kg up2 =>
        match u with
        | .node .RED ul ua uk ur =>
          fixup up2 (.node .RED (.node .BLACK ul ua uk ur) g kg (.node .BLACK s p kp t))
        | _ => up2.plug (.node .BLACK (.node .RED u g kg s) p kp t)
      | .left cg g kg u up2 =>
        match u with
        | .node .RED ul ua uk ur =>
          fixup up2 (.node .RED (.node .BLACK s p kp t) g kg (.node .BLACK ul ua uk ur))
        | _ =>
          match t with
          | .nil => (Ctx.right cp s p kp (.left cg g kg u up2)).plug t
          | .node _ l n k r =>
            up2.plug (.node .BLACK (.node cp s p kp l) n k (.node .RED r g kg u))

/-! ## Auxiliary notions for the proofs -/

/-- What a rotation (or any local surgery) at the subtree `T` below `par`
leaves in the heap: the new subtree `T2` in place, the rest of the heap
untouched except the child slot of `par` that held the old top node. -/
structure Rewired (h h2 : Heap) (par : Ptr) (T T2 : Tree) : Prop where
  length_eq : h2.length = h.length
  rep : Rep h2 par T2
  frame : ∀ a, a ∉ T.addrs → some a ≠ par → h2[a]? = h[a]?
  slot : ∀ gp nd, par = some gp → h[gp]? = some nd →
    h2[gp]? = some (if nd.left = T.root then { nd with left := T2.root }
      else { nd with right := T2.root })

namespace Ctx

/-- Keys of the context that come before the hole in in-order. -/
def before : Ctx → List (List Byte)
  | top => []
  | left _ _ _ _ up => up.before
  | right _ l _ k up => up.before ++ l.keys ++ [k]

/-- Keys of the context that come after the hole in in-order. -/
def after : Ctx → List (List Byte)
  | top => []
  | left _ _ k r up => k :: r.keys ++ up.after
  | right _ _ _ _ up => up.after

end Ctx

/-- The freshly allocated RED node of `rbt_insert`, as a tree. -/
def leaf (new_node : Nat) (key : List Byte) : Tree := .node .RED .nil new_node key .nil

/-- The effect of `rbt_insert` on trees: `new_node` is the address `malloc`
returns. -/
def insertTree (key : List Byte) (new_node : Nat) (t : Tree) : Tree :=
  match t with
  | .nil => .node .BLACK .nil new_node key .nil
  | .node c l a k r =>
    match descend key (.node c l a k r) .top with
    | none => .node c l a k r
    | some ctx => fixup ctx (leaf new_node key)

/-- The value `rbt_insert` leaves in `*inserted`, given the value it held. -/
def insertFlag (key : List Byte) (t : Tree) (inserted : Bool) : Bool :=
  match t with
  | .nil => inserted
  | .node c l a k r =>
    match descend key (.node c l a k r) .top with
    | none => false
    | some _ => true

/-- Non-strict order on keys induced by the comparator. -/
def keyLe (a b : List Byte) : Prop := cmpKey a b ≤ 0

instance (a b : List Byte) : Decidable (keyLe a b) := by unfold keyLe; infer_instance

namespace Ctx

/-- The context is black-height consistent when its hole is filled by a
consistent tree of black-height `n`. -/
def balancedAt : Ctx → Nat → Prop
  | top, _ => True
  | left c _ _ r up, n =>
    n = r.bheight ∧ r.balanced ∧ up.balancedAt (n + (if c = .BLACK then 1 else 0))
  | right c l _ _ up, n =>
    l.bheight = n ∧ l.balanced ∧ up.balancedAt (n + (if c = .BLACK then 1 else 0))

/-- The context has no RED node with a RED child when its hole is filled by
a tree whose top node has colour `hc`. -/
def noRedRedAt : Ctx → Color → Prop
  | top, _ => True
  | left c _ _ r up, hc =>
    (c = .RED → hc = .BLACK ∧ r.color = .BLACK) ∧ r.noRedRed ∧ up.noRedRedAt c
  | right c l _ _ up, hc =>
    (c = .RED → l.color = .BLACK ∧ hc = .BLACK) ∧ l.noRedRed ∧ up.noRedRedAt c

end Ctx

/-- A bound pointer of `rbt_validate_bst`: absent, or a node whose key
satisfies `P`. -/
def BoundOK (h : Heap) (p : Ptr) (P : List Byte → Prop) : Prop :=
  ∀ m, p = some m → ∃ nd, h[m]? = some nd ∧ nd.data_size = nd.data.length ∧ P nd.data


/-- The key `k` is stored in the tree at `root`: some node reachable from
`root` by child links holds it. -/
def Stored (h : Heap) (root : Ptr) (k : List Byte) : Prop :=
  ∃ t : Tree, t.root = root ∧ Rep h none t ∧ k ∈ t.keys

/-- A well-formed three-node tree used as a concrete input: "b" (BLACK, the
root, at address 0) with children "a" and "c" (RED, at addresses 1 and 2). -/
def exampleHeap : Heap :=
  [⟨1, some 1, some 2, none, .BLACK, [98]⟩, ⟨1, none, none, some 0, .RED, [97]⟩,
    ⟨1, none, none, some 0, .RED, [99]⟩]

/-- The tree held by `exampleHeap`. -/
def exampleTree : Tree :=
  .node .BLACK (.node .RED .nil 1 [97] .nil) 0 [98] (.node .RED .nil 2 [99] .nil)

/-! ## The caller's count, duplicates, shapes, reachability -/

/-- The loop of `rbt_randomized_test` with its counter: after each call the
caller reads the flag and increments `expected_num_nodes` (the fourth
component of the state, a C `int`) when it reads true. -/
def insert_count_all (fuel : Nat) :
    List (List Byte) → Heap × Ptr × Bool × Int → Except Fault (Heap × Ptr × Bool × Int)
  | [], s => pure s
  | k :: ks, s => do
    let r ← rbt_insert fuel s.1 s.2.1 k.length k s.2.2.1
    let expected_num_nodes := if r.2.2 then c_int (s.2.2.2 + 1) else s.2.2.2
    insert_count_all fuel ks (r.1, r.2.1, r.2.2, expected_num_nodes)

/-- The check `assert(rbt_num_nodes(root) == expected_num_nodes)` that
`rbt_randomized_test` makes after a call. -/
def check_num_nodes (fuel : Nat) (s : Heap × Ptr × Bool × Int) : Except Fault Unit := do
  let n ← rbt_num_nodes fuel s.1 s.2.1
  c_assert (decide (n = s.2.2.2))

/-- How many keys of a list compare equal, under `rbt_compare_data`, to a key
passed earlier: `earlier` holds the keys passed before the list. -/
def countDuplicates : List (List Byte) → List (List Byte) → Nat
  | _, [] => 0
  | earlier, k :: ks =>
    (if earlier.any (fun e => decide (rbt_compare_data k.length k e.length e = 0)) then 1
      else 0) + countDuplicates (earlier ++ [k]) ks

/-- The four-byte big-endian key of a number below `2 ^ 32`. -/
def key_of_nat (i : Nat) : List Byte :=
  [⟨i / 16777216 % 256, Nat.mod_lt _ (by decide)⟩, ⟨i / 65536 % 256, Nat.mod_lt _ (by decide)⟩,
    ⟨i / 256 % 256, Nat.mod_lt _ (by decide)⟩, ⟨i % 256, Nat.mod_lt _ (by decide)⟩]

/-- A list of `2 ^ 31` distinct keys: the four-byte keys of 0, 1, ..,
`2 ^ 31 - 1`. -/
def manyKeys : List (List Byte) := (List.range 2147483648).map key_of_nat

/-- The heap holds the finite binary tree `t` along its child links: every
node of `t` is the record at its address, with the key, colour and child
pointers of `t`; nothing is asked of the parent pointers. -/
def Shape (h : Heap) : Tree → Prop
  | .nil => True
  | .node c l a k r =>
    (∃ par, h[a]? = some ⟨k.length, l.root, r.root, par, c, k⟩) ∧ Shape h l ∧ Shape h r

/-- The node at address `b` is reached from the pointer `p` by following
`left` and `right` links. -/
inductive Reachable (h : Heap) : Ptr → Nat → Prop
  | here (a : Nat) : Reachable h (some a) a
  | left {p : Ptr} {a b : Nat} {nd : Node} :
    Reachable h p a → h[a]? = some nd → nd.left = some b → Reachable h p b
  | right {p : Ptr} {a b : Nat} {nd : Node} :
    Reachable h p a → h[a]? = some nd → nd.right = some b → Reachable h p b

/-! ## The fixup with a counter of Case 3 applications -/

mutual
/-- The function `insert_case1` carrying a ghost counter, returned as third
component: the number of times the recolouring branch of `insert_case3` was
taken, added to `count`. -/
def insert_case1_counted : Nat → Heap → Ptr → Ptr → Nat → Except Fault (Heap × Ptr × Nat)
  | 0, _, _, _, _ => .error .outOfFuel
  | fuel + 1, h, root, n, count => do
    let nd ← deref h n
    if nd.parent = none then do
      let h ← store h n (fun x => { x with color := .BLACK })
      pure (h, root, count)
    else insert_case2_counted fuel h root n count
/-- The function `insert_case2` carrying the ghost counter. -/
def insert_case2_counted : Nat → Heap → Ptr → Ptr → Nat → Except Fault (Heap × Ptr × Nat)
  | 0, _, _, _, _ => .error .outOfFuel
  | fuel + 1, h, root, n, count => do
    let nd ← deref h n
    let pd ← deref h nd.parent
    if pd.color = .BLACK then pure (h, root, count)
    else insert_case3_counted fuel h root n count
/-- The function `insert_case3` carrying the ghost counter, incremented when
the uncle is RED. -/
def insert_case3_counted : Nat → Heap → Ptr → Ptr → Nat → Except Fault (Heap × Ptr × Nat)
  | 0, _, _, _, _ => .error .outOfFuel
  | fuel + 1, h, root, n, count => do
    let u ← uncle h n
    let uncle_red ←
      if u = none then pure false
      else (do let ud ← deref h u; pure (decide (ud.color = .RED)))
    if uncle_red then do
      let nd ← deref h n
      let h ← store h nd.parent (fun x => { x with color := .BLACK })
      let h ← store h u (fun x => { x with color := .BLACK })
      let g ← grandparent h n
      let h ← store h g (fun x => { x with color := .RED })
      insert_case1_counted fuel h root g (count + 1)
    else do
      let s ← insert_case4 h root n
      pure (s.1, s.2, count)
end

/-! ## Case 4 with its final call left open -/

/-- The body of `insert_case4` with its final call left open: `next` stands
for the call `insert_case5(n, root_ptr)` that ends each of the three
branches, and receives the heap, `*root_ptr` and the working node `n` as
they are at that point. -/
def insert_case4_then {α : Type} (next : Heap → Ptr → Ptr → Except Fault α)
    (h : Heap) (root : Ptr) (n : Ptr) : Except Fault α := do
  let g ← grandparent h n
  let nd ← deref h n
  let pd ← deref h nd.parent
  let bent_lr ←
    if n = pd.right then (do let gd ← deref h g; pure (decide (nd.parent = gd.left)))
    else pure false
  if bent_lr then do
    let gd ← deref h g
    let saved_p := gd.left
    let saved_left_n := nd.left
    let h ← store h g (fun x => { x with left := n })
    let h ← store h n (fun x => { x with parent := g })
    let h ← store h n (fun x => { x with left := saved_p })
    let h ← store h saved_p (fun x => { x with parent := n })
    let h ← store h saved_p (fun x => { x with right := saved_left_n })
    let h ←
      if saved_left_n = none then pure h
      else store h saved_left_n (fun x => { x with parent := saved_p })
    let nd ← deref h n
    next h root nd.left
  else do
    let bent_rl ←
      if n = pd.left then (do let gd ← deref h g; pure (decide (nd.parent = gd.right)))
      else pure false
    if bent_rl then do
      let gd ← deref h g
      let saved_p := gd.right
      let saved_right_n := nd.right
      let h ← store h g (fun x => { x with right := n })
      let h ← store h n (fun x => { x with parent := g })
      let h ← store h n (fun x => { x with right := saved_p })
      let h ← store h saved_p (fun x => { x with parent := n })
      let h ← store h saved_p (fun x => { x with left := saved_right_n })
      let h ←
        if saved_right_n = none then pure h
        else store h saved_right_n (fun x => { x with parent := saved_p })
      let nd ← deref h n
      next h root nd.right
    else next h root n

/-! ## Concrete inputs -/

/-- Three nodes with a bend: "c" (BLACK, the root, at address 0), its left
child "a" (RED, at 1) and the right child "b" of "a" (RED, at 2). -/
def bentLeftHeap : Heap :=
  [⟨1, some 1, none, none, .BLACK, [99]⟩, ⟨1, none, some 2, some 0, .RED, [97]⟩,
    ⟨1, none, none, some 1, .RED, [98]⟩]

/-- The mirror image of `bentLeftHeap`: "a" (BLACK, the root, at 0), its
right child "c" (RED, at 1) and the left child "b" of "c" (RED, at 2). -/
def bentRightHeap : Heap :=
  [⟨1, none, some 1, none, .BLACK, [97]⟩, ⟨1, some 2, none, some 0, .RED, [99]⟩,
    ⟨1, none, none, some 1, .RED, [98]⟩]

/-- Three nodes in a line to the left: "c" (BLACK, the root, at 0), its
left child "b" (RED, at 1) and the left child "a" of "b" (RED, at 2). -/
def lineLeftHeap : Heap :=
  [⟨1, some 1, none, none, .BLACK, [99]⟩, ⟨1, some 2, none, some 0, .RED, [98]⟩,
    ⟨1, none, none, some 1, .RED, [97]⟩]

/-- Three nodes in a line to the right: "a" (BLACK, the root, at 0), its
right child "b" (RED, at 1) and the right child "c" of "b" (RED, at 2). -/
def lineRightHeap : Heap :=
  [⟨1, none, some 1, none, .BLACK, [97]⟩, ⟨1, none, some 2, some 0, .RED, [98]⟩,
    ⟨1, none, none, some 1, .RED, [99]⟩]

/-- The three-node tree of `exampleHeap` with a fourth node attached: "d"
(RED, at 3), the right child of "c". -/
def attachedHeap : Heap :=
  [⟨1, some 1, some 2, none, .BLACK, [98]⟩, ⟨1, none, none, some 0, .RED, [97]⟩,
    ⟨1, none, some 3, some 0, .RED, [99]⟩, ⟨1, none, none, some 2, .RED, [100]⟩]

/-- A single RED node "b" at address 0: a tree whose root is not BLACK. -/
def redRootHeap : Heap := [⟨1, none, none, none, .RED, [98]⟩]

/-! ## The comparator -/

theorem rbt_compare_data_nil_nil : rbt_compare_data 0 [] 0 [] = 0 := by decide

theorem rbt_compare_data_nil_cons (b : Byte) (bs : List Byte) :
    rbt_compare_data 0 [] (bs.length + 1) (b :: bs) = -1 := by
  simp [rbt_compare_data, rbt_compare_loop]

theorem rbt_compare_data_cons_nil (a : Byte) (as : List Byte) :
    rbt_compare_data (as.length + 1) (a :: as) 0 [] = 1 := by
  simp [rbt_compare_data, rbt_compare_loop]

theorem rbt_compare_data_cons_cons (a b : Byte) (as bs : List Byte) :
    rbt_compare_data (as.length + 1) (a :: as) (bs.length + 1) (b :: bs)
      = if a < b then -1 else if b < a then 1
        else rbt_compare_data as.length as bs.length bs := by
  by_cases hlt : as.length < bs.length
  · simp [rbt_compare_data, rbt_compare_loop, hlt]
    split_ifs <;> rfl
  · simp [rbt_compare_data, rbt_compare_loop, hlt]
    split_ifs <;> rfl

theorem cmpKey_eq_refCompare (a b : List Byte) : cmpKey a b = refCompare a b := by
  induction a generalizing b with
  | nil =>
    cases b with
    | nil => exact rbt_compare_data_nil_nil
    | cons b bs => exact rbt_compare_data_nil_cons b bs
  | cons a as ih =>
    cases b with
    | nil => exact rbt_compare_data_cons_nil a as
    | cons b bs =>
      show rbt_compare_data (as.length + 1) (a :: as) (bs.length + 1) (b :: bs) = _
      rw [rbt_compare_data_cons_cons, refCompare]
      have := ih bs
      simp only [cmpKey] at this
      rw [this]

theorem refCompare_range (a b : List Byte) :
    refCompare a b = -1 ∨ refCompare a b = 0 ∨ refCompare a b = 1 := by
  induction a generalizing b with
  | nil => cases b <;> simp [refCompare]
  | cons a as ih =>
    cases b with
    | nil => simp [refCompare]
    | cons b bs =>
      simp only [refCompare]
      split_ifs
      · simp
      · simp
      · exact ih bs

theorem refCompare_eq_zero (a b : List Byte) : refCompare a b = 0 ↔ a = b := by
  induction a generalizing b with
  | nil => cases b <;> simp [refCompare]
  | cons a as ih =>
    cases b with
    | nil => simp [refCompare]
    | cons b bs =>
      simp only [refCompare]
      split_ifs with h1 h2
      · simp; intro h; exact absurd (h ▸ h1) (lt_irrefl _)
      · simp; intro h; exact absurd (h ▸ h2) (lt_irrefl _)
      · have : a = b := le_antisymm (not_lt.mp h2) (not_lt.mp h1)
        simp [ih bs, this]

theorem refCompare_swap (a b : List Byte) : refCompare b a = - refCompare a b := by
  induction a generalizing b with
  | nil => cases b <;> simp [refCompare]
  | cons a as ih =>
    cases b with
    | nil => simp [refCompare]
    | cons b bs =>
      simp only [refCompare]
      by_cases h1 : a < b
      · simp [h1, not_lt.mpr (le_of_lt h1)]
      · by_cases h2 : b < a
        · simp [h1, h2]
        · simp [h1, h2, ih bs]

theorem refCompare_neg_iff (a b : List Byte) : refCompare a b < 0 ↔ refCompare a b = -1 := by
  rcases refCompare_range a b with h | h | h <;> simp [h]

theorem refCompare_trans (a b c : List Byte) :
    refCompare a b < 0 → refCompare b c < 0 → refCompare a c < 0 := by
  induction a generalizing b c with
  | nil =>
    cases b with
    | nil => cases c <;> simp [refCompare]
    | cons b bs => cases c <;> simp [refCompare]
  | cons a as ih =>
    cases b with
    | nil => simp [refCompare]
    | cons b bs =>
      cases c with
      | nil =>
        intro _ h
        simp [refCompare] at h
      | cons c cs =>
        simp only [refCompare]
        by_cases hab : a < b
        · by_cases hbc : b < c
          · simp [hab, hbc, lt_trans hab hbc]
          · by_cases hcb : c < b
            · simp [hab, hbc, hcb]
            · have : b = c := le_antisymm (not_lt.mp hcb) (not_lt.mp hbc)
              subst this
              simp [hab]
        · by_cases hba : b < a
          · simp [hab, hba]
          · have : a = b := le_antisymm (not_lt.mp hba) (not_lt.mp hab)
            subst this
            simp only [lt_irrefl, if_false]
            by_cases hac : a < c
            · simp [hac]
            · by_cases hca : c < a
              · simp [hac, hca]
              · simp only [hac, hca, if_false]
                exact ih bs cs

theorem refCompare_first_diff (A B : List Byte) (i : Nat) (hA : i < A.length)
    (hB : i < B.length) (hpre : ∀ j, j < i → A[j]? = B[j]?) (hlt : A[i] < B[i]) :
    refCompare A B = -1 := by
  induction A generalizing B i with
  | nil => simp at hA
  | cons a as ih =>
    cases B with
    | nil => simp at hB
    | cons b bs =>
      cases i with
      | zero =>
        have : a < b := by simpa using hlt
        simp [refCompare, this]
      | succ k =>
        have h0 := hpre 0 (Nat.succ_pos k)
        simp only [List.getElem?_cons_zero, Option.some.injEq] at h0
        subst h0
        simp only [refCompare, lt_irrefl, if_false]
        refine ih bs k (by simpa using hA) (by simpa using hB) ?_ (by simpa using hlt)
        intro j hj
        have := hpre (j + 1) (Nat.succ_lt_succ hj)
        simpa using this

theorem refCompare_prefix_lt (A B : List Byte) (hpre : A <+: B) (hne : A ≠ B) :
    refCompare A B = -1 := by
  induction A generalizing B with
  | nil =>
    cases B with
    | nil => exact absurd rfl hne
    | cons b bs => simp [refCompare]
  | cons a as ih =>
    cases B with
    | nil => simp at hpre
    | cons b bs =>
      rw [List.cons_prefix_cons] at hpre
      obtain ⟨hab, hp⟩ := hpre
      subst hab
      simp only [refCompare, lt_irrefl, if_false]
      exact ih bs hp (fun h => hne (by rw [h]))

theorem cmpKey_swap (a b : List Byte) : cmpKey b a = - cmpKey a b := by
  rw [cmpKey_eq_refCompare, cmpKey_eq_refCompare, refCompare_swap]

theorem cmpKey_eq_zero (a b : List Byte) : cmpKey a b = 0 ↔ a = b := by
  rw [cmpKey_eq_refCompare, refCompare_eq_zero]

theorem keyLt_irrefl (a : List Byte) : ¬ keyLt a a := by
  have := (cmpKey_eq_zero a a).mpr rfl
  simp [keyLt, this]

theorem keyLt_trans {a b c : List Byte} (h1 : keyLt a b) (h2 : keyLt b c) : keyLt a c := by
  unfold keyLt at *
  rw [cmpKey_eq_refCompare] at *
  exact refCompare_trans a b c h1 h2

theorem keyLt_asymm {a b : List Byte} (h1 : keyLt a b) : ¬ keyLt b a :=
  fun h2 => keyLt_irrefl a (keyLt_trans h1 h2)

theorem keyLt_of_not {a b : List Byte} (h0 : cmpKey a b ≠ 0) (h1 : ¬ cmpKey a b < 0) :
    keyLt b a := by
  unfold keyLt
  rw [cmpKey_swap]
  omega

/-- C8: `rbt_compare_data` returns a value in {-1, 0, 1} and agrees with the
reference order on byte sequences: the first differing byte (as an unsigned
value) decides, a proper prefix is smaller, and equal sequences give 0. -/
theorem rbt_compare_data_reference (A B : List Byte) :
    (rbt_compare_data A.length A B.length B = -1 ∨
      rbt_compare_data A.length A B.length B = 0 ∨
      rbt_compare_data A.length A B.length B = 1) ∧
    rbt_compare_data A.length A B.length B = refCompare A B ∧
    (∀ i (hA : i < A.length) (hB : i < B.length),
      (∀ j, j < i → A[j]? = B[j]?) → (A[i]).val < (B[i]).val →
      rbt_compare_data A.length A B.length B = -1) ∧
    (∀ i (hA : i < A.length) (hB : i < B.length),
      (∀ j, j < i → A[j]? = B[j]?) → (B[i]).val < (A[i]).val →
      rbt_compare_data A.length A B.length B = 1) ∧
    (A <+: B → A ≠ B → rbt_compare_data A.length A B.length B = -1) ∧
    (B <+: A → A ≠ B → rbt_compare_data A.length A B.length B = 1) ∧
    (A = B → rbt_compare_data A.length A B.length B = 0) := by
  have e : rbt_compare_data A.length A B.length B = refCompare A B := cmpKey_eq_refCompare A B
  refine ⟨?_, e, ?_, ?_, ?_, ?_, ?_⟩
  · rw [e]; exact refCompare_range A B
  · intro i hA hB hpre hlt
    rw [e]
    exact refCompare_first_diff A B i hA hB hpre hlt
  · intro i hA hB hpre hlt
    rw [e, refCompare_swap B A,
      refCompare_first_diff B A i hB hA (fun j hj => (hpre j hj).symm) hlt]
    rfl
  · intro hp hne
    rw [e]; exact refCompare_prefix_lt A B hp hne
  · intro hp hne
    rw [e, refCompare_swap B A, refCompare_prefix_lt B A hp (Ne.symm hne)]
    rfl
  · intro h
    rw [e]; exact (refCompare_eq_zero A B).mpr h

/-- The eight assertions of `test_suite`, and C8 applied to the keys
"123\x7f" and "123\x80" at their first differing index 3. -/
theorem rbt_compare_data_reference_witness :
    rbt_compare_data 3 [97, 98, 99] 3 [98, 99, 100] = -1 ∧
    rbt_compare_data 3 [97, 98, 99] 2 [97, 98] = 1 ∧
    rbt_compare_data 2 [97, 98] 3 [97, 98, 99] = -1 ∧
    rbt_compare_data 2 [97, 98] 2 [97, 98] = 0 ∧
    rbt_compare_data 4 [49, 50, 51, 0x7f] 4 [49, 50, 51, 0x80] = -1 ∧
    rbt_compare_data 4 [49, 50, 51, 0x80] 4 [49, 50, 51, 0x7f] = 1 ∧
    rbt_compare_data 1 [74] 1 [55] = 1 ∧
    rbt_compare_data 1 [55] 1 [74] = -1 ∧
    rbt_compare_data 4 [49, 50, 51, 0x7f] 4 [49, 50, 51, 0x80] = -1 :=
  ⟨by decide, by decide, by decide, by decide, by decide, by decide, by decide, by decide,
    (rbt_compare_data_reference [49, 50, 51, 0x7f] [49, 50, 51, 0x80]).2.2.1 3
      (by decide) (by decide) (by decide) (by decide)⟩

/-- C9: `rbt_compare_data` is a total order on arbitrary byte sequences:
it returns 0 exactly on equal sequences, swapping the arguments negates the
result, and "less than" is transitive. -/
theorem rbt_compare_data_total_order (A B C : List Byte) :
    (rbt_compare_data A.length A B.length B = 0 ↔ A = B) ∧
    rbt_compare_data B.length B A.length A = - rbt_compare_data A.length A B.length B ∧
    (rbt_compare_data A.length A B.length B < 0 →
      rbt_compare_data B.length B C.length C < 0 →
      rbt_compare_data A.length A C.length C < 0) :=
  ⟨cmpKey_eq_zero A B, cmpKey_swap A B, fun h1 h2 => @keyLt_trans A B C h1 h2⟩

/-- C9 at keys with embedded and trailing zero bytes: "a\0" < "a\0\0" < "a\0b". -/
theorem rbt_compare_data_total_order_witness :
    rbt_compare_data 2 [97, 0] 3 [97, 0, 0] < 0 ∧
    rbt_compare_data 3 [97, 0, 0] 3 [97, 0, 98] < 0 ∧
    rbt_compare_data 2 [97, 0] 3 [97, 0, 98] < 0 :=
  ⟨by decide, by decide,
    (rbt_compare_data_total_order [97, 0] [97, 0, 0] [97, 0, 98]).2.2 (by decide) (by decide)⟩

/-! ## Heap reads and writes -/

theorem heap_get_set (h : Heap) (a b : Nat) (nd : Node) :
    (h.set a nd)[b]? = if b = a then (h[b]?).map (fun _ => nd) else h[b]? := by
  rw [List.getElem?_set]
  by_cases hab : b = a
  · subst hab
    by_cases hl : b < h.length
    · simp [hl, List.getElem?_eq_getElem hl]
    · simp [hl, List.getElem?_eq_none (Nat.le_of_not_lt hl)]
  · simp [hab, Ne.symm hab]

theorem heap_lt_of_get {h : Heap} {a : Nat} {nd : Node} (hg : h[a]? = some nd) :
    a < h.length := by
  by_contra hc
  rw [List.getElem?_eq_none (Nat.le_of_not_lt hc)] at hg
  cases hg

theorem deref_some {h : Heap} {a : Nat} {nd : Node} (hg : h[a]? = some nd) :
    deref h (some a) = .ok nd := by
  simp [deref, hg]

theorem store_some {h : Heap} {a : Nat} {nd : Node} (hg : h[a]? = some nd) (f : Node → Node) :
    store h (some a) f = .ok (h.set a (f nd)) := by
  simp [store, hg]

/-! ## Representation lemmas -/

theorem Tree.root_eq_none {t : Tree} : t.root = none ↔ t = .nil := by
  cases t <;> simp [Tree.root]

theorem Tree.root_mem_addrs {t : Tree} {a : Nat} (hr : t.root = some a) : a ∈ t.addrs := by
  cases t with
  | nil => simp [Tree.root] at hr
  | node c l b k r =>
    simp only [Tree.root, Option.some.injEq] at hr
    simp [Tree.addrs, hr]

theorem Rep.frame {h h2 : Heap} {par : Ptr} {t : Tree} (hr : Rep h par t)
    (hf : ∀ a ∈ t.addrs, h2[a]? = h[a]?) : Rep h2 par t := by
  induction t generalizing par with
  | nil => trivial
  | node c l a k r ihl ihr =>
    obtain ⟨h1, hl, hrr⟩ := hr
    refine ⟨?_, ihl hl ?_, ihr hrr ?_⟩
    · rw [hf a (by simp [Tree.addrs])]; exact h1
    · intro b hb; exact hf b (by simp [Tree.addrs, hb])
    · intro b hb; exact hf b (by simp [Tree.addrs, hb])

theorem Rep.set {h : Heap} {par : Ptr} {t : Tree} (hr : Rep h par t) {a : Nat}
    (ha : a ∉ t.addrs) (nd : Node) : Rep (h.set a nd) par t := by
  refine hr.frame ?_
  intro b hb
  rw [heap_get_set, if_neg]
  rintro rfl
  exact ha hb

theorem Rep.lt_length {h : Heap} {par : Ptr} {t : Tree} (hr : Rep h par t) :
    ∀ a ∈ t.addrs, a < h.length := by
  induction t generalizing par with
  | nil => intro a ha; simp [Tree.addrs] at ha
  | node c l a k r ihl ihr =>
    obtain ⟨h1, hl, hrr⟩ := hr
    intro b hb
    simp only [Tree.addrs, List.mem_append, List.mem_cons] at hb
    rcases hb with hb | hb | hb
    · exact ihl hl b hb
    · subst hb; exact heap_lt_of_get h1
    · exact ihr hrr b hb

theorem Rep.append {h : Heap} {par : Ptr} {t : Tree} (hr : Rep h par t) (ext : List Node) :
    Rep (h ++ ext) par t := by
  refine hr.frame ?_
  intro a ha
  exact List.getElem?_append_left (hr.lt_length a ha)

/-- Changing the parent pointer of the top node. -/
theorem Rep.reparent {h h2 : Heap} {par par2 : Ptr} {t : Tree} (hr : Rep h par t)
    (htop : ∀ a nd, t.root = some a → h[a]? = some nd →
      h2[a]? = some { nd with parent := par2 })
    (hrest : ∀ a ∈ t.addrs, t.root ≠ some a → h2[a]? = h[a]?)
    (hnd : t.addrs.Nodup) : Rep h2 par2 t := by
  cases t with
  | nil => trivial
  | node c l a k r =>
    obtain ⟨h1, hl, hrr⟩ := hr
    simp only [Tree.addrs] at hnd
    have hal : a ∉ l.addrs := fun hm =>
      (List.nodup_append.mp hnd).2.2 hm (List.mem_cons_self a _) 
    have har : a ∉ r.addrs := (List.nodup_cons.mp (List.nodup_append.mp hnd).2.1).1
    refine ⟨?_, hl.frame ?_, hrr.frame ?_⟩
    · rw [htop a _ rfl h1]
    · intro b hb
      refine hrest b (by simp [Tree.addrs, hb]) ?_
      simp only [Tree.root, ne_eq, Option.some.injEq]
      rintro rfl; exact hal hb
    · intro b hb
      refine hrest b (by simp [Tree.addrs, hb]) ?_
      simp only [Tree.root, ne_eq, Option.some.injEq]
      rintro rfl; exact har hb

/-- The key stored in the heap at an address. -/
theorem Rep.keys_eq {h : Heap} {par : Ptr} {t : Tree} (hr : Rep h par t) :
    t.keys = t.addrs.map (fun a => ((h[a]?).map Node.data).getD []) := by
  induction t generalizing par with
  | nil => rfl
  | node c l a k r ihl ihr =>
    obtain ⟨h1, hl, hrr⟩ := hr
    simp [Tree.keys, Tree.addrs, ihl hl, ihr hrr, h1]

theorem Rep.addrs_nodup {h : Heap} {par : Ptr} {t : Tree} (hr : Rep h par t)
    (hk : t.keys.Nodup) : t.addrs.Nodup := by
  rw [hr.keys_eq] at hk
  exact List.Nodup.of_map _ hk

theorem Rep.unique {h : Heap} {par : Ptr} {t t2 : Tree} (hr : Rep h par t)
    (hr2 : Rep h par t2) (hroot : t.root = t2.root) : t = t2 := by
  induction t generalizing par t2 with
  | nil =>
    symm
    exact Tree.root_eq_none.mp (by rw [← hroot]; rfl)
  | node c l a k r ihl ihr =>
    cases t2 with
    | nil => simp [Tree.root] at hroot
    | node c2 l2 a2 k2 r2 =>
      simp only [Tree.root, Option.some.injEq] at hroot
      subst hroot
      obtain ⟨h1, hl, hrr⟩ := hr
      obtain ⟨h2, hl2, hrr2⟩ := hr2
      rw [h1] at h2
      simp only [Option.some.injEq, Node.mk.injEq] at h2
      obtain ⟨-, e1, e2, -, e3, e4⟩ := h2
      rw [ihl hl hl2 e1, ihr hrr hrr2 e2, e3, e4]

/-! ## Contexts -/

theorem Ctx.plug_root_top (t : Tree) : (Ctx.top.plug t).root = t.root := rfl

theorem RepCtx.frame_ctx {h h2 : Heap} {ctx : Ctx} {hole : Ptr} (hr : RepCtx h ctx hole)
    (hf : ∀ a ∈ ctx.addrs, h2[a]? = h[a]?) : RepCtx h2 ctx hole := by
  induction ctx generalizing hole with
  | top => trivial
  | left c a k r up ih =>
    obtain ⟨h1, hs, hu⟩ := hr
    refine ⟨?_, hs.frame ?_, ih hu ?_⟩
    · rw [hf a (by simp [Ctx.addrs])]; exact h1
    · intro b hb; exact hf b (by simp [Ctx.addrs, hb])
    · intro b hb; exact hf b (by simp [Ctx.addrs, hb])
  | right c l a k up ih =>
    obtain ⟨h1, hs, hu⟩ := hr
    refine ⟨?_, hs.frame ?_, ih hu ?_⟩
    · rw [hf a (by simp [Ctx.addrs])]; exact h1
    · intro b hb; exact hf b (by simp [Ctx.addrs, hb])
    · intro b hb; exact hf b (by simp [Ctx.addrs, hb])

theorem rep_plug {h : Heap} {ctx : Ctx} {t : Tree} :
    Rep h none (ctx.plug t) ↔ RepCtx h ctx t.root ∧ Rep h ctx.parent t := by
  induction ctx generalizing t with
  | top => simp [Ctx.plug, RepCtx, Ctx.parent]
  | left c a k r up ih =>
    simp only [Ctx.plug, ih, RepCtx, Ctx.parent, Tree.root, Rep]
    tauto
  | right c l a k up ih =>
    simp only [Ctx.plug, ih, RepCtx, Ctx.parent, Tree.root, Rep]
    tauto

theorem Ctx.addrs_plug (ctx : Ctx) (t : Tree) :
    (ctx.plug t).addrs.Perm (t.addrs ++ ctx.addrs) := by
  induction ctx generalizing t with
  | top => simp [Ctx.plug, Ctx.addrs]
  | left c a k r up ih =>
    refine (ih _).trans ?_
    simp only [Tree.addrs, Ctx.addrs, List.append_assoc, List.cons_append]
    exact List.Perm.refl _
  | right c l a k up ih =>
    refine (ih _).trans ?_
    simp only [Tree.addrs, Ctx.addrs, List.append_assoc, List.cons_append]
    refine List.perm_middle.trans (List.Perm.trans (List.Perm.cons a ?_) List.perm_middle.symm)
    rw [← List.append_assoc, ← List.append_assoc]
    exact List.Perm.append_right _ List.perm_append_comm

/-! ## Rotations on the heap -/

@[simp]
theorem Tree.root_nil : Tree.nil.root = none := rfl
@[simp]
theorem Tree.root_node (c : Color) (l : Tree) (a : Nat) (k : List Byte) (r : Tree) :
    (Tree.node c l a k r).root = some a := rfl
@[simp]
theorem Tree.addrs_nil : Tree.nil.addrs = [] := rfl
@[simp]
theorem Tree.addrs_node (c : Color) (l : Tree) (a : Nat) (k : List Byte) (r : Tree) :
    (Tree.node c l a k r).addrs = l.addrs ++ a :: r.addrs := rfl
@[simp]
theorem Rep_nil (h : Heap) (par : Ptr) : Rep h par .nil = True := rfl
theorem Rep_node (h : Heap) (par : Ptr) (c : Color) (l : Tree) (a : Nat) (k : List Byte)
    (r : Tree) :
    Rep h par (.node c l a k r) =
      (h[a]? = some ⟨k.length, l.root, r.root, par, c, k⟩ ∧ Rep h (some a) l ∧
        Rep h (some a) r) := rfl

set_option maxHeartbeats 1600000 in
theorem rotate_right_spec {h : Heap} {par : Ptr} {cg cp : Color} {A B C : Tree} {g p : Nat}
    {kg kp : List Byte}
    (hr : Rep h par (.node cg (.node cp A p kp B) g kg C))
    (hnd : (Tree.node cg (.node cp A p kp B) g kg C).addrs.Nodup)
    (hpar : ∀ gp, par = some gp →
      gp ∉ (Tree.node cg (.node cp A p kp B) g kg C).addrs ∧ ∃ nd, h[gp]? = some nd) :
    ∃ h2, rotate_right h (some g) = .ok h2 ∧
      Rewired h h2 par (.node cg (.node cp A p kp B) g kg C)
        (.node cp A p kp (.node cg B g kg C)) := by
  obtain ⟨hg, ⟨hp, hA, hB⟩, hC⟩ := hr
  cases B with
  | nil =>
    cases par with
    | none =>
      simp only [Tree.root_node, Tree.root_nil] at hg hp
      simp only [Tree.addrs_node, Tree.addrs_nil, List.nodup_append, List.nodup_cons,
        List.mem_append, List.mem_cons, not_or, List.disjoint_cons_right,
        List.disjoint_append_left, List.disjoint_cons_left, List.disjoint_append_right]
        at hnd
      have n1 : g ≠ p := by tauto
      simp [rotate_right, deref, store, hg, hp, bind, Except.bind, pure, Except.pure,
        heap_get_set, n1, n1.symm]
      refine ⟨by simp, ?_, ?_, ?_⟩
      · simp only [Rep_node, Rep_nil, Tree.root_node, Tree.root_nil, heap_get_set, hg, hp,
          n1, n1.symm, if_true, if_false, Option.map_some', true_and, and_true]
        repeat' apply And.intro
        all_goals (repeat (first | assumption | apply Rep.set))
        all_goals tauto
      · intro a ha hap
        simp only [Tree.addrs_node, Tree.addrs_nil, List.mem_append, List.mem_cons, not_or,
          ne_eq, Option.some.injEq, List.not_mem_nil, not_false_eq_true, and_true, true_and]
          at ha hap
        simp [heap_get_set, ha, hap]
      · intro gp2 nd e
        cases e
    | some gp =>
      obtain ⟨hgpn, ndp, hgp⟩ := hpar gp rfl
      simp only [Tree.root_node, Tree.root_nil] at hg hp
      simp only [Tree.addrs_node, Tree.addrs_nil, List.nodup_append, List.nodup_cons,
        List.mem_append, List.mem_cons, not_or, List.disjoint_cons_right,
        List.disjoint_append_left, List.disjoint_cons_left, List.disjoint_append_right]
        at hnd hgpn
      have n1 : g ≠ p := by tauto
      have n4 : gp ≠ g := by tauto
      have n5 : gp ≠ p := by tauto
      by_cases hl : ndp.left = some g
      · simp [rotate_right, deref, store, hg, hp, hgp, bind, Except.bind, pure, Except.pure,
          heap_get_set, n1, n1.symm, n4, n4.symm, n5, n5.symm, hl]
        refine ⟨by simp, ?_, ?_, ?_⟩
        · simp only [Rep_node, Rep_nil, Tree.root_node, Tree.root_nil, heap_get_set, hg, hp, hgp,
            n1, n1.symm, n4, n4.symm, n5, n5.symm, if_true, if_false, Option.map_some', true_and, and_true]
          repeat' apply And.intro
          all_goals (repeat (first | assumption | apply Rep.set))
          all_goals tauto
        · intro a ha hap
          simp only [Tree.addrs_node, Tree.addrs_nil, List.mem_append, List.mem_cons, not_or,
            ne_eq, Option.some.injEq, List.not_mem_nil, not_false_eq_true, and_true, true_and]
            at ha hap
          simp [heap_get_set, ha, hap]
        · intro gp2 nd e hnd2
          cases e
          rw [hgp] at hnd2
          cases hnd2
          simp [heap_get_set, hgp, n1, n1.symm, n4, n4.symm, n5, n5.symm, hl]
      · simp [rotate_right, deref, store, hg, hp, hgp, bind, Except.bind, pure, Except.pure,
          heap_get_set, n1, n1.symm, n4, n4.symm, n5, n5.symm, hl, Ne.symm hl]
        refine ⟨by simp, ?_, ?_, ?_⟩
        · simp only [Rep_node, Rep_nil, Tree.root_node, Tree.root_nil, heap_get_set, hg, hp, hgp,
            n1, n1.symm, n4, n4.symm, n5, n5.symm, if_true, if_false, Option.map_some', true_and, and_true]
          repeat' apply And.intro
          all_goals (repeat (first | assumption | apply Rep.set))
          all_goals tauto
        · intro a ha hap
          simp only [Tree.addrs_node, Tree.addrs_nil, List.mem_append, List.mem_cons, not_or,
            ne_eq, Option.some.injEq, List.not_mem_nil, not_false_eq_true, and_true, true_and]
            at ha hap
          simp [heap_get_set, ha, hap]
        · intro gp2 nd e hnd2
          cases e
          rw [hgp] at hnd2
          cases hnd2
          simp [heap_get_set, hgp, n1, n1.symm, n4, n4.symm, n5, n5.symm, hl, Ne.symm hl]
  | node cb Bl b kb Br =>
    cases par with
    | none =>
      obtain ⟨hb, hBl, hBr⟩ := hB
      simp only [Tree.root_node, Tree.root_nil] at hg hp hb
      simp only [Tree.addrs_node, Tree.addrs_nil, List.nodup_append, List.nodup_cons,
        List.mem_append, List.mem_cons, not_or, List.disjoint_cons_right,
        List.disjoint_append_left, List.disjoint_cons_left, List.disjoint_append_right]
        at hnd
      have n1 : g ≠ p := by tauto
      have n2 : g ≠ b := by tauto
      have n3 : p ≠ b := by tauto
      simp [rotate_right, deref, store, hg, hp, hb, bind, Except.bind, pure, Except.pure,
        heap_get_set, n1, n1.symm, n2, n2.symm, n3, n3.symm]
      refine ⟨by simp, ?_, ?_, ?_⟩
      · simp only [Rep_node, Rep_nil, Tree.root_node, Tree.root_nil, heap_get_set, hg, hp, hb,
          n1, n1.symm, n2, n2.symm, n3, n3.symm, if_true, if_false, Option.map_some', true_and, and_true]
        repeat' apply And.intro
        all_goals (repeat (first | assumption | apply Rep.set))
        all_goals tauto
      · intro a ha hap
        simp only [Tree.addrs_node, Tree.addrs_nil, List.mem_append, List.mem_cons, not_or,
          ne_eq, Option.some.injEq, List.not_mem_nil, not_false_eq_true, and_true, true_and]
          at ha hap
        simp [heap_get_set, ha, hap]
      · intro gp2 nd e
        cases e
    | some gp =>
      obtain ⟨hgpn, ndp, hgp⟩ := hpar gp rfl
      obtain ⟨hb, hBl, hBr⟩ := hB
      simp only [Tree.root_node, Tree.root_nil] at hg hp hb
      simp only [Tree.addrs_node, Tree.addrs_nil, List.nodup_append, List.nodup_cons,
        List.mem_append, List.mem_cons, not_or, List.disjoint_cons_right,
        List.disjoint_append_left, List.disjoint_cons_left, List.disjoint_append_right]
        at hnd hgpn
      have n1 : g ≠ p := by tauto
      have n2 : g ≠ b := by tauto
      have n3 : p ≠ b := by tauto
      have n4 : gp ≠ g := by tauto
      have n5 : gp ≠ p := by tauto
      have n6 : gp ≠ b := by tauto
      by_cases hl : ndp.left = some g
      · simp [rotate_right, deref, store, hg, hp, hb, hgp, bind, Except.bind, pure, Except.pure,
          heap_get_set, n1, n1.symm, n2, n2.symm, n3, n3.symm, n4, n4.symm, n5, n5.symm, n6, n6.symm, hl]
        refine ⟨by simp, ?_, ?_, ?_⟩
        · simp only [Rep_node, Rep_nil, Tree.root_node, Tree.root_nil, heap_get_set, hg, hp, hb, hgp,
            n1, n1.symm, n2, n2.symm, n3, n3.symm, n4, n4.symm, n5, n5.symm, n6, n6.symm, if_true, if_false, Option.map_some', true_and, and_true]
          repeat' apply And.intro
          all_goals (repeat (first | assumption | apply Rep.set))
          all_goals tauto
        · intro a ha hap
          simp only [Tree.addrs_node, Tree.addrs_nil, List.mem_append, List.mem_cons, not_or,
            ne_eq, Option.some.injEq, List.not_mem_nil, not_false_eq_true, and_true, true_and]
            at ha hap
          simp [heap_get_set, ha, hap]
        · intro gp2 nd e hnd2
          cases e
          rw [hgp] at hnd2
          cases hnd2
          simp [heap_get_set, hgp, n1, n1.symm, n2, n2.symm, n3, n3.symm, n4, n4.symm, n5, n5.symm, n6, n6.symm, hl]
      · simp [rotate_right, deref, store, hg, hp, hb, hgp, bind, Except.bind, pure, Except.pure,
          heap_get_set, n1, n1.symm, n2, n2.symm, n3, n3.symm, n4, n4.symm, n5, n5.symm, n6, n6.symm, hl, Ne.symm hl]
        refine ⟨by simp, ?_, ?_, ?_⟩
        · simp only [Rep_node, Rep_nil, Tree.root_node, Tree.root_nil, heap_get_set, hg, hp, hb, hgp,
            n1, n1.symm, n2, n2.symm, n3, n3.symm, n4, n4.symm, n5, n5.symm, n6, n6.symm, if_true, if_false, Option.map_some', true_and, and_true]
          repeat' apply And.intro
          all_goals (repeat (first | assumption | apply Rep.set))
          all_goals tauto
        · intro a ha hap
          simp only [Tree.addrs_node, Tree.addrs_nil, List.mem_append, List.mem_cons, not_or,
            ne_eq, Option.some.injEq, List.not_mem_nil, not_false_eq_true, and_true, true_and]
            at ha hap
          simp [heap_get_set, ha, hap]
        · intro gp2 nd e hnd2
          cases e
          rw [hgp] at hnd2
          cases hnd2
          simp [heap_get_set, hgp, n1, n1.symm, n2, n2.symm, n3, n3.symm, n4, n4.symm, n5, n5.symm, n6, n6.symm, hl, Ne.symm hl]

set_option maxHeartbeats 1600000 in
theorem rotate_left_spec {h : Heap} {par : Ptr} {cg cp : Color} {A B C : Tree} {g p : Nat}
    {kg kp : List Byte}
    (hr : Rep h par (.node cg C g kg (.node cp B p kp A)))
    (hnd : (Tree.node cg C g kg (.node cp B p kp A)).addrs.Nodup)
    (hpar : ∀ gp, par = some gp →
      gp ∉ (Tree.node cg C g kg (.node cp B p kp A)).addrs ∧ ∃ nd, h[gp]? = some nd) :
    ∃ h2, rotate_left h (some g) = .ok h2 ∧
      Rewired h h2 par (.node cg C g kg (.node cp B p kp A))
        (.node cp (.node cg C g kg B) p kp A) := by
  obtain ⟨hg, hC, ⟨hp, hB, hA⟩⟩ := hr
  cases B with
  | nil =>
    cases par with
    | none =>
      simp only [Tree.root_node, Tree.root_nil] at hg hp
      simp only [Tree.addrs_node, Tree.addrs_nil, List.nodup_append, List.nodup_cons,
        List.mem_append, List.mem_cons, not_or, List.disjoint_cons_right,
        List.disjoint_append_left, List.disjoint_cons_left, List.disjoint_append_right]
        at hnd
      have n1 : g ≠ p := by tauto
      simp [rotate_left, deref, store, hg, hp, bind, Except.bind, pure, Except.pure,
        heap_get_set, n1, n1.symm]
      refine ⟨by simp, ?_, ?_, ?_⟩
      · simp only [Rep_node, Rep_nil, Tree.root_node, Tree.root_nil, heap_get_set, hg, hp,
          n1, n1.symm, if_true, if_false, Option.map_some', true_and, and_true]
        repeat' apply And.intro
        all_goals (repeat (first | assumption | apply Rep.set))
        all_goals tauto
      · intro a ha hap
        simp only [Tree.addrs_node, Tree.addrs_nil, List.mem_append, List.mem_cons, not_or,
          ne_eq, Option.some.injEq, List.not_mem_nil, not_false_eq_true, and_true, true_and]
          at ha hap
        simp [heap_get_set, ha, hap]
      · intro gp2 nd e
        cases e
    | some gp =>
      obtain ⟨hgpn, ndp, hgp⟩ := hpar gp rfl
      simp only [Tree.root_node, Tree.root_nil] at hg hp
      simp only [Tree.addrs_node, Tree.addrs_nil, List.nodup_append, List.nodup_cons,
        List.mem_append, List.mem_cons, not_or, List.disjoint_cons_right,
        List.disjoint_append_left, List.disjoint_cons_left, List.disjoint_append_right]
        at hnd hgpn
      have n1 : g ≠ p := by tauto
      have n4 : gp ≠ g := by tauto
      have n5 : gp ≠ p := by tauto
      by_cases hl : ndp.left = some g
      · simp [rotate_left, deref, store, hg, hp, hgp, bind, Except.bind, pure, Except.pure,
          heap_get_set, n1, n1.symm, n4, n4.symm, n5, n5.symm, hl]
        refine ⟨by simp, ?_, ?_, ?_⟩
        · simp only [Rep_node, Rep_nil, Tree.root_node, Tree.root_nil, heap_get_set, hg, hp, hgp,
            n1, n1.symm, n4, n4.symm, n5, n5.symm, if_true, if_false, Option.map_some', true_and, and_true]
          repeat' apply And.intro
          all_goals (repeat (first | assumption | apply Rep.set))
          all_goals tauto
        · intro a ha hap
          simp only [Tree.addrs_node, Tree.addrs_nil, List.mem_append, List.mem_cons, not_or,
            ne_eq, Option.some.injEq, List.not_mem_nil, not_false_eq_true, and_true, true_and]
            at ha hap
          simp [heap_get_set, ha, hap]
        · intro gp2 nd e hnd2
          cases e
          rw [hgp] at hnd2
          cases hnd2
          simp [heap_get_set, hgp, n1, n1.symm, n4, n4.symm, n5, n5.symm, hl]
      · simp [rotate_left, deref, store, hg, hp, hgp, bind, Except.bind, pure, Except.pure,
          heap_get_set, n1, n1.symm, n4, n4.symm, n5, n5.symm, hl, Ne.symm hl]
        refine ⟨by simp, ?_, ?_, ?_⟩
        · simp only [Rep_node, Rep_nil, Tree.root_node, Tree.root_nil, heap_get_set, hg, hp, hgp,
            n1, n1.symm, n4, n4.symm, n5, n5.symm, if_true, if_false, Option.map_some', true_and, and_true]
          repeat' apply And.intro
          all_goals (repeat (first | assumption | apply Rep.set))
          all_goals tauto
        · intro a ha hap
          simp only [Tree.addrs_node, Tree.addrs_nil, List.mem_append, List.mem_cons, not_or,
            ne_eq, Option.some.injEq, List.not_mem_nil, not_false_eq_true, and_true, true_and]
            at ha hap
          simp [heap_get_set, ha, hap]
        · intro gp2 nd e hnd2
          cases e
          rw [hgp] at hnd2
          cases hnd2
          simp [heap_get_set, hgp, n1, n1.symm, n4, n4.symm, n5, n5.symm, hl, Ne.symm hl]
  | node cb Bl b kb Br =>
    cases par with
    | none =>
      obtain ⟨hb, hBl, hBr⟩ := hB
      simp only [Tree.root_node, Tree.root_nil] at hg hp hb
      simp only [Tree.addrs_node, Tree.addrs_nil, List.nodup_append, List.nodup_cons,
        List.mem_append, List.mem_cons, not_or, List.disjoint_cons_right,
        List.disjoint_append_left, List.disjoint_cons_left, List.disjoint_append_right]
        at hnd
      have n1 : g ≠ p := by tauto
      have n2 : g ≠ b := by tauto
      have n3 : p ≠ b := by tauto
      simp [rotate_left, deref, store, hg, hp, hb, bind, Except.bind, pure, Except.pure,
        heap_get_set, n1, n1.symm, n2, n2.symm, n3, n3.symm]
      refine ⟨by simp, ?_, ?_, ?_⟩
      · simp only [Rep_node, Rep_nil, Tree.root_node, Tree.root_nil, heap_get_set, hg, hp, hb,
          n1, n1.symm, n2, n2.symm, n3, n3.symm, if_true, if_false, Option.map_some', true_and, and_true]
        repeat' apply And.intro
        all_goals (repeat (first | assumption | apply Rep.set))
        all_goals tauto
      · intro a ha hap
        simp only [Tree.addrs_node, Tree.addrs_nil, List.mem_append, List.mem_cons, not_or,
          ne_eq, Option.some.injEq, List.not_mem_nil, not_false_eq_true, and_true, true_and]
          at ha hap
        simp [heap_get_set, ha, hap]
      · intro gp2 nd e
        cases e
    | some gp =>
      obtain ⟨hgpn, ndp, hgp⟩ := hpar gp rfl
      obtain ⟨hb, hBl, hBr⟩ := hB
      simp only [Tree.root_node, Tree.root_nil] at hg hp hb
      simp only [Tree.addrs_node, Tree.addrs_nil, List.nodup_append, List.nodup_cons,
        List.mem_append, List.mem_cons, not_or, List.disjoint_cons_right,
        List.disjoint_append_left, List.disjoint_cons_left, List.disjoint_append_right]
        at hnd hgpn
      have n1 : g ≠ p := by tauto
      have n2 : g ≠ b := by tauto
      have n3 : p ≠ b := by tauto
      have n4 : gp ≠ g := by tauto
      have n5 : gp ≠ p := by tauto
      have n6 : gp ≠ b := by tauto
      by_cases hl : ndp.left = some g
      · simp [rotate_left, deref, store, hg, hp, hb, hgp, bind, Except.bind, pure, Except.pure,
          heap_get_set, n1, n1.symm, n2, n2.symm, n3, n3.symm, n4, n4.symm, n5, n5.symm, n6, n6.symm, hl]
        refine ⟨by simp, ?_, ?_, ?_⟩
        · simp only [Rep_node, Rep_nil, Tree.root_node, Tree.root_nil, heap_get_set, hg, hp, hb, hgp,
            n1, n1.symm, n2, n2.symm, n3, n3.symm, n4, n4.symm, n5, n5.symm, n6, n6.symm, if_true, if_false, Option.map_some', true_and, and_true]
          repeat' apply And.intro
          all_goals (repeat (first | assumption | apply Rep.set))
          all_goals tauto
        · intro a ha hap
          simp only [Tree.addrs_node, Tree.addrs_nil, List.mem_append, List.mem_cons, not_or,
            ne_eq, Option.some.injEq, List.not_mem_nil, not_false_eq_true, and_true, true_and]
            at ha hap
          simp [heap_get_set, ha, hap]
        · intro gp2 nd e hnd2
          cases e
          rw [hgp] at hnd2
          cases hnd2
          simp [heap_get_set, hgp, n1, n1.symm, n2, n2.symm, n3, n3.symm, n4, n4.symm, n5, n5.symm, n6, n6.symm, hl]
      · simp [rotate_left, deref, store, hg, hp, hb, hgp, bind, Except.bind, pure, Except.pure,
          heap_get_set, n1, n1.symm, n2, n2.symm, n3, n3.symm, n4, n4.symm, n5, n5.symm, n6, n6.symm, hl, Ne.symm hl]
        refine ⟨by simp, ?_, ?_, ?_⟩
        · simp only [Rep_node, Rep_nil, Tree.root_node, Tree.root_nil, heap_get_set, hg, hp, hb, hgp,
            n1, n1.symm, n2, n2.symm, n3, n3.symm, n4, n4.symm, n5, n5.symm, n6, n6.symm, if_true, if_false, Option.map_some', true_and, and_true]
          repeat' apply And.intro
          all_goals (repeat (first | assumption | apply Rep.set))
          all_goals tauto
        · intro a ha hap
          simp only [Tree.addrs_node, Tree.addrs_nil, List.mem_append, List.mem_cons, not_or,
            ne_eq, Option.some.injEq, List.not_mem_nil, not_false_eq_true, and_true, true_and]
            at ha hap
          simp [heap_get_set, ha, hap]
        · intro gp2 nd e hnd2
          cases e
          rw [hgp] at hnd2
          cases hnd2
          simp [heap_get_set, hgp, n1, n1.symm, n2, n2.symm, n3, n3.symm, n4, n4.symm, n5, n5.symm, n6, n6.symm, hl, Ne.symm hl]


/-! ## Case 5 on the heap -/

theorem Tree.root_ne_of_not_mem {t : Tree} {a : Nat} (h : a ∉ t.addrs) : t.root ≠ some a :=
  fun e => h (Tree.root_mem_addrs e)

theorem Rewired.of_frame {h h1 h2 : Heap} {par : Ptr} {T T1 T2 : Tree}
    (hrw : Rewired h1 h2 par T1 T2) (hlen : h1.length = h.length)
    (hf : ∀ a, a ∉ T.addrs → h1[a]? = h[a]?) (haddr : T1.addrs = T.addrs)
    (hroot : T1.root = T.root) (hpar : ∀ gp, par = some gp → gp ∉ T.addrs) :
    Rewired h h2 par T T2 := by
  refine ⟨hrw.length_eq.trans hlen, hrw.rep, ?_, ?_⟩
  · intro a ha hap
    rw [hrw.frame a (by rw [haddr]; exact ha) hap, hf a ha]
  · intro gp nd e hgp
    rw [← hroot]
    exact hrw.slot gp nd e (by rw [hf gp (hpar gp e)]; exact hgp)

set_option maxHeartbeats 1600000 in
theorem insert_case5_LL {h : Heap} {par : Ptr} (root : Ptr) {cg cp cn : Color} {l r S U : Tree}
    {g p n : Nat} {kg kp k : List Byte}
    (hr : Rep h par (.node cg (.node cp (.node cn l n k r) p kp S) g kg U))
    (hnd : (Tree.node cg (.node cp (.node cn l n k r) p kp S) g kg U).addrs.Nodup)
    (hpar : ∀ gp, par = some gp →
      gp ∉ (Tree.node cg (.node cp (.node cn l n k r) p kp S) g kg U).addrs ∧
        ∃ nd, h[gp]? = some nd) :
    ∃ h2, insert_case5 h root (some n) = .ok (h2, if some g = root then some p else root) ∧
      Rewired h h2 par (.node cg (.node cp (.node cn l n k r) p kp S) g kg U)
        (.node .BLACK (.node cn l n k r) p kp (.node .RED S g kg U)) := by
  have hr0 := hr
  obtain ⟨hg, ⟨hp, ⟨hn, hl, hrr⟩, hS⟩, hU⟩ := hr
  have hnd0 := hnd
  simp only [Tree.root_node, Tree.root_nil] at hg hp hn
  simp only [Tree.addrs_node, Tree.addrs_nil, List.nodup_append, List.nodup_cons,
    List.mem_append, List.mem_cons, not_or, List.disjoint_cons_right,
    List.disjoint_append_left, List.disjoint_cons_left, List.disjoint_append_right]
    at hnd
  have n1 : g ≠ p := by tauto
  have n2 : g ≠ n := by tauto
  have n3 : p ≠ n := by tauto
  have hrep1 : Rep ((h.set p ⟨kp.length, some n, S.root, some g, .BLACK, kp⟩).set g
      ⟨kg.length, some p, U.root, par, .RED, kg⟩) par
      (.node .RED (.node .BLACK (.node cn l n k r) p kp S) g kg U) := by
    simp only [Rep_node, Rep_nil, Tree.root_node, Tree.root_nil, heap_get_set, hg, hp, hn,
      n1, n2, n3, n1.symm, n2.symm, n3.symm, if_true, if_false, Option.map_some', true_and,
      and_true]
    repeat' apply And.intro
    all_goals (repeat (first | assumption | apply Rep.set))
    all_goals tauto
  have hpar1 : ∀ gp, par = some gp →
      gp ∉ (Tree.node .RED (.node .BLACK (.node cn l n k r) p kp S) g kg U).addrs ∧
        ∃ nd, ((h.set p ⟨kp.length, some n, S.root, some g, .BLACK, kp⟩).set g
          ⟨kg.length, some p, U.root, par, .RED, kg⟩)[gp]? = some nd := by
    intro gp e
    obtain ⟨h1, nd, h2⟩ := hpar gp e
    refine ⟨h1, nd, ?_⟩
    simp only [Tree.addrs_node, List.mem_append, List.mem_cons, not_or] at h1
    simp [heap_get_set, h1, h2]
  obtain ⟨h2, e, hrw⟩ := rotate_right_spec hrep1 hnd0 hpar1
  refine ⟨h2, ?_, ?_⟩
  · simp [insert_case5, grandparent, c_assert, deref, store, hg, hp, hn, bind, Except.bind,
      pure, Except.pure, heap_get_set, n1, n2, n3, n1.symm, n2.symm, n3.symm, e]
    split <;> rfl
  · refine hrw.of_frame (by simp) ?_ rfl rfl (fun gp e => (hpar gp e).1)
    intro a ha
    simp only [Tree.addrs_node, List.mem_append, List.mem_cons, not_or] at ha
    simp [heap_get_set, ha]

set_option maxHeartbeats 1600000 in
theorem insert_case5_RR {h : Heap} {par : Ptr} (root : Ptr) {cg cp cn : Color} {l r S U : Tree}
    {g p n : Nat} {kg kp k : List Byte}
    (hr : Rep h par (.node cg U g kg (.node cp S p kp (.node cn l n k r))))
    (hnd : (Tree.node cg U g kg (.node cp S p kp (.node cn l n k r))).addrs.Nodup)
    (hpar : ∀ gp, par = some gp →
      gp ∉ (Tree.node cg U g kg (.node cp S p kp (.node cn l n k r))).addrs ∧
        ∃ nd, h[gp]? = some nd) :
    ∃ h2, insert_case5 h root (some n) = .ok (h2, if some g = root then some p else root) ∧
      Rewired h h2 par (.node cg U g kg (.node cp S p kp (.node cn l n k r)))
        (.node .BLACK (.node .RED U g kg S) p kp (.node cn l n k r)) := by
  have hr0 := hr
  obtain ⟨hg, hU, ⟨hp, hS, ⟨hn, hl, hrr⟩⟩⟩ := hr
  have hnd0 := hnd
  simp only [Tree.root_node, Tree.root_nil] at hg hp hn
  simp only [Tree.addrs_node, Tree.addrs_nil, List.nodup_append, List.nodup_cons,
    List.mem_append, List.mem_cons, not_or, List.disjoint_cons_right,
    List.disjoint_append_left, List.disjoint_cons_left, List.disjoint_append_right]
    at hnd
  have n1 : g ≠ p := by tauto
  have n2 : g ≠ n := by tauto
  have n3 : p ≠ n := by tauto
  have n7 : S.root ≠ some n := Tree.root_ne_of_not_mem (by tauto)
  have hrep1 : Rep ((h.set p ⟨kp.length, S.root, some n, some g, .BLACK, kp⟩).set g
      ⟨kg.length, U.root, some p, par, .RED, kg⟩) par
      (.node .RED U g kg (.node .BLACK S p kp (.node cn l n k r))) := by
    simp only [Rep_node, Rep_nil, Tree.root_node, Tree.root_nil, heap_get_set, hg, hp, hn,
      n1, n2, n3, n1.symm, n2.symm, n3.symm, if_true, if_false, Option.map_some', true_and,
      and_true]
    repeat' apply And.intro
    all_goals (repeat (first | assumption | apply Rep.set))
    all_goals tauto
  have hpar1 : ∀ gp, par = some gp →
      gp ∉ (Tree.node .RED U g kg (.node .BLACK S p kp (.node cn l n k r))).addrs ∧
        ∃ nd, ((h.set p ⟨kp.length, S.root, some n, some g, .BLACK, kp⟩).set g
          ⟨kg.length, U.root, some p, par, .RED, kg⟩)[gp]? = some nd := by
    intro gp e
    obtain ⟨h1, nd, h2⟩ := hpar gp e
    refine ⟨h1, nd, ?_⟩
    simp only [Tree.addrs_node, List.mem_append, List.mem_cons, not_or] at h1
    simp [heap_get_set, h1, h2]
  obtain ⟨h2, e, hrw⟩ := rotate_left_spec hrep1 hnd0 hpar1
  refine ⟨h2, ?_, ?_⟩
  · simp [insert_case5, grandparent, c_assert, deref, store, hg, hp, hn, bind, Except.bind,
      pure, Except.pure, heap_get_set, n1, n2, n3, n1.symm, n2.symm, n3.symm, e, n7, n7.symm]
    split <;> rfl
  · refine hrw.of_frame (by simp) ?_ rfl rfl (fun gp e => (hpar gp e).1)
    intro a ha
    simp only [Tree.addrs_node, List.mem_append, List.mem_cons, not_or] at ha
    simp [heap_get_set, ha]

/-! ## Case 4 on the heap -/

set_option maxHeartbeats 1600000 in
theorem insert_case4_LR_surgery {h : Heap} {par : Ptr} (root : Ptr) {cg cp cn : Color}
    {l r S U : Tree} {g p n : Nat} {kg kp k : List Byte}
    (hr : Rep h par (.node cg (.node cp S p kp (.node cn l n k r)) g kg U))
    (hnd : (Tree.node cg (.node cp S p kp (.node cn l n k r)) g kg U).addrs.Nodup) :
    ∃ h1, insert_case4 h root (some n) = insert_case5 h1 root (some p) ∧
      h1.length = h.length ∧
      Rep h1 par (.node cg (.node cn (.node cp S p kp l) n k r) g kg U) ∧
      ∀ a, a ∉ (Tree.node cg (.node cp S p kp (.node cn l n k r)) g kg U).addrs →
        h1[a]? = h[a]? := by
  obtain ⟨hg, ⟨hp, hS, ⟨hn, hl, hrr⟩⟩, hU⟩ := hr
  cases l with
  | nil =>
    simp only [Tree.root_node, Tree.root_nil] at hg hp hn
    simp only [Tree.addrs_node, Tree.addrs_nil, List.nodup_append, List.nodup_cons,
      List.mem_append, List.mem_cons, not_or, List.disjoint_cons_right,
      List.disjoint_append_left, List.disjoint_cons_left, List.disjoint_append_right]
      at hnd
    have n1 : g ≠ p := by tauto
    have n2 : g ≠ n := by tauto
    have n3 : p ≠ n := by tauto
    simp [insert_case4, grandparent, deref, store, hg, hp, hn, bind, Except.bind,
      pure, Except.pure, heap_get_set, n1, n2, n3, n1.symm, n2.symm, n3.symm]
    refine ⟨_, rfl, by simp, ?_, ?_⟩
    · simp only [Rep_node, Rep_nil, Tree.root_node, Tree.root_nil, heap_get_set, hg, hp, hn,
        n1, n2, n3, n1.symm, n2.symm, n3.symm, if_true, if_false, Option.map_some', true_and,
        and_true]
      repeat' apply And.intro
      all_goals (repeat (first | assumption | apply Rep.set))
      all_goals tauto
    · intro a
      intros
      simp only [heap_get_set]
      simp only [*, if_false]
  | node cb Bl b kb Br =>
    obtain ⟨hb, hBl, hBr⟩ := hl
    simp only [Tree.root_node, Tree.root_nil] at hg hp hn hb
    simp only [Tree.addrs_node, Tree.addrs_nil, List.nodup_append, List.nodup_cons,
      List.mem_append, List.mem_cons, not_or, List.disjoint_cons_right,
      List.disjoint_append_left, List.disjoint_cons_left, List.disjoint_append_right]
      at hnd
    have n1 : g ≠ p := by tauto
    have n2 : g ≠ n := by tauto
    have n3 : p ≠ n := by tauto
    have n4 : g ≠ b := by tauto
    have n5 : p ≠ b := by tauto
    have n6 : n ≠ b := by tauto
    simp [insert_case4, grandparent, deref, store, hg, hp, hn, hb, bind, Except.bind,
      pure, Except.pure, heap_get_set, n1, n2, n3, n1.symm, n2.symm, n3.symm,
      n4, n5, n6, n4.symm, n5.symm, n6.symm]
    refine ⟨_, rfl, by simp, ?_, ?_⟩
    · simp only [Rep_node, Rep_nil, Tree.root_node, Tree.root_nil, heap_get_set, hg, hp, hn, hb,
        n1, n2, n3, n1.symm, n2.symm, n3.symm, n4, n5, n6, n4.symm, n5.symm, n6.symm,
        if_true, if_false, Option.map_some', true_and, and_true]
      repeat' apply And.intro
      all_goals (repeat (first | assumption | apply Rep.set))
      all_goals tauto
    · intro a
      intros
      simp only [heap_get_set]
      simp only [*, if_false]

set_option maxHeartbeats 1600000 in
theorem insert_case4_RL_surgery {h : Heap} {par : Ptr} (root : Ptr) {cg cp cn : Color}
    {l r S U : Tree} {g p n : Nat} {kg kp k : List Byte}
    (hr : Rep h par (.node cg U g kg (.node cp (.node cn l n k r) p kp S)))
    (hnd : (Tree.node cg U g kg (.node cp (.node cn l n k r) p kp S)).addrs.Nodup) :
    ∃ h1, insert_case4 h root (some n) = insert_case5 h1 root (some p) ∧
      h1.length = h.length ∧
      Rep h1 par (.node cg U g kg (.node cn l n k (.node cp r p kp S))) ∧
      ∀ a, a ∉ (Tree.node cg U g kg (.node cp (.node cn l n k r) p kp S)).addrs →
        h1[a]? = h[a]? := by
  obtain ⟨hg, hU, ⟨hp, ⟨hn, hrr, hl⟩, hS⟩⟩ := hr
  cases r with
  | nil =>
    simp only [Tree.root_node, Tree.root_nil] at hg hp hn
    simp only [Tree.addrs_node, Tree.addrs_nil, List.nodup_append, List.nodup_cons,
      List.mem_append, List.mem_cons, not_or, List.disjoint_cons_right,
      List.disjoint_append_left, List.disjoint_cons_left, List.disjoint_append_right]
      at hnd
    have n1 : g ≠ p := by tauto
    have n2 : g ≠ n := by tauto
    have n3 : p ≠ n := by tauto
    have n7 : S.root ≠ some n := Tree.root_ne_of_not_mem (by tauto)
    simp [insert_case4, grandparent, deref, store, hg, hp, hn, bind, Except.bind,
      pure, Except.pure, heap_get_set, n1, n2, n3, n1.symm, n2.symm, n3.symm, n7, n7.symm]
    refine ⟨_, rfl, by simp, ?_, ?_⟩
    · simp only [Rep_node, Rep_nil, Tree.root_node, Tree.root_nil, heap_get_set, hg, hp, hn,
        n1, n2, n3, n1.symm, n2.symm, n3.symm, if_true, if_false, Option.map_some', true_and,
        and_true]
      repeat' apply And.intro
      all_goals (repeat (first | assumption | apply Rep.set))
      all_goals tauto
    · intro a
      intros
      simp only [heap_get_set]
      simp only [*, if_false]
  | node cb Bl b kb Br =>
    obtain ⟨hb, hBl, hBr⟩ := hl
    simp only [Tree.root_node, Tree.root_nil] at hg hp hn hb
    simp only [Tree.addrs_node, Tree.addrs_nil, List.nodup_append, List.nodup_cons,
      List.mem_append, List.mem_cons, not_or, List.disjoint_cons_right,
      List.disjoint_append_left, List.disjoint_cons_left, List.disjoint_append_right]
      at hnd
    have n1 : g ≠ p := by tauto
    have n2 : g ≠ n := by tauto
    have n3 : p ≠ n := by tauto
    have n7 : S.root ≠ some n := Tree.root_ne_of_not_mem (by tauto)
    have n4 : g ≠ b := by tauto
    have n5 : p ≠ b := by tauto
    have n6 : n ≠ b := by tauto
    simp [insert_case4, grandparent, deref, store, hg, hp, hn, hb, bind, Except.bind,
      pure, Except.pure, heap_get_set, n1, n2, n3, n1.symm, n2.symm, n3.symm,
      n4, n5, n6, n4.symm, n5.symm, n6.symm, n7, n7.symm]
    refine ⟨_, rfl, by simp, ?_, ?_⟩
    · simp only [Rep_node, Rep_nil, Tree.root_node, Tree.root_nil, heap_get_set, hg, hp, hn, hb,
        n1, n2, n3, n1.symm, n2.symm, n3.symm, n4, n5, n6, n4.symm, n5.symm, n6.symm,
        if_true, if_false, Option.map_some', true_and, and_true]
      repeat' apply And.intro
      all_goals (repeat (first | assumption | apply Rep.set))
      all_goals tauto
    · intro a
      intros
      simp only [heap_get_set]
      simp only [*, if_false]

theorem insert_case4_LR {h : Heap} {par : Ptr} (root : Ptr) {cg cp cn : Color} {l r S U : Tree}
    {g p n : Nat} {kg kp k : List Byte}
    (hr : Rep h par (.node cg (.node cp S p kp (.node cn l n k r)) g kg U))
    (hnd : (Tree.node cg (.node cp S p kp (.node cn l n k r)) g kg U).addrs.Nodup)
    (hpar : ∀ gp, par = some gp →
      gp ∉ (Tree.node cg (.node cp S p kp (.node cn l n k r)) g kg U).addrs ∧
        ∃ nd, h[gp]? = some nd) :
    ∃ h2, insert_case4 h root (some n) = .ok (h2, if some g = root then some n else root) ∧
      Rewired h h2 par (.node cg (.node cp S p kp (.node cn l n k r)) g kg U)
        (.node .BLACK (.node cp S p kp l) n k (.node .RED r g kg U)) := by
  obtain ⟨h1, e1, hlen, hrep1, hf⟩ := insert_case4_LR_surgery root hr hnd
  have haddr : (Tree.node cg (.node cn (.node cp S p kp l) n k r) g kg U).addrs =
      (Tree.node cg (.node cp S p kp (.node cn l n k r)) g kg U).addrs := by
    simp [List.append_assoc]
  have hpar1 : ∀ gp, par = some gp →
      gp ∉ (Tree.node cg (.node cn (.node cp S p kp l) n k r) g kg U).addrs ∧
        ∃ nd, h1[gp]? = some nd := by
    intro gp e
    obtain ⟨hm, nd, hgp⟩ := hpar gp e
    exact ⟨by rw [haddr]; exact hm, nd, by rw [hf gp hm]; exact hgp⟩
  obtain ⟨h2, e2, hrw⟩ := insert_case5_LL root hrep1 (by rw [haddr]; exact hnd) hpar1
  exact ⟨h2, by rw [e1, e2], hrw.of_frame hlen hf haddr rfl (fun gp e => (hpar gp e).1)⟩

theorem insert_case4_RL {h : Heap} {par : Ptr} (root : Ptr) {cg cp cn : Color} {l r S U : Tree}
    {g p n : Nat} {kg kp k : List Byte}
    (hr : Rep h par (.node cg U g kg (.node cp (.node cn l n k r) p kp S)))
    (hnd : (Tree.node cg U g kg (.node cp (.node cn l n k r) p kp S)).addrs.Nodup)
    (hpar : ∀ gp, par = some gp →
      gp ∉ (Tree.node cg U g kg (.node cp (.node cn l n k r) p kp S)).addrs ∧
        ∃ nd, h[gp]? = some nd) :
    ∃ h2, insert_case4 h root (some n) = .ok (h2, if some g = root then some n else root) ∧
      Rewired h h2 par (.node cg U g kg (.node cp (.node cn l n k r) p kp S))
        (.node .BLACK (.node .RED U g kg l) n k (.node cp r p kp S)) := by
  obtain ⟨h1, e1, hlen, hrep1, hf⟩ := insert_case4_RL_surgery root hr hnd
  have haddr : (Tree.node cg U g kg (.node cn l n k (.node cp r p kp S))).addrs =
      (Tree.node cg U g kg (.node cp (.node cn l n k r) p kp S)).addrs := by
    simp [List.append_assoc]
  have hpar1 : ∀ gp, par = some gp →
      gp ∉ (Tree.node cg U g kg (.node cn l n k (.node cp r p kp S))).addrs ∧
        ∃ nd, h1[gp]? = some nd := by
    intro gp e
    obtain ⟨hm, nd, hgp⟩ := hpar gp e
    exact ⟨by rw [haddr]; exact hm, nd, by rw [hf gp hm]; exact hgp⟩
  obtain ⟨h2, e2, hrw⟩ := insert_case5_RR root hrep1 (by rw [haddr]; exact hnd) hpar1
  exact ⟨h2, by rw [e1, e2], hrw.of_frame hlen hf haddr rfl (fun gp e => (hpar gp e).1)⟩

theorem insert_case4_LL {h : Heap} {par : Ptr} (root : Ptr) {cg cp cn : Color} {l r S U : Tree}
    {g p n : Nat} {kg kp k : List Byte}
    (hr : Rep h par (.node cg (.node cp (.node cn l n k r) p kp S) g kg U))
    (hnd : (Tree.node cg (.node cp (.node cn l n k r) p kp S) g kg U).addrs.Nodup)
    (hpar : ∀ gp, par = some gp →
      gp ∉ (Tree.node cg (.node cp (.node cn l n k r) p kp S) g kg U).addrs ∧
        ∃ nd, h[gp]? = some nd) :
    ∃ h2, insert_case4 h root (some n) = .ok (h2, if some g = root then some p else root) ∧
      Rewired h h2 par (.node cg (.node cp (.node cn l n k r) p kp S) g kg U)
        (.node .BLACK (.node cn l n k r) p kp (.node .RED S g kg U)) := by
  have e : insert_case4 h root (some n) = insert_case5 h root (some n) := by
    obtain ⟨hg, ⟨hp, ⟨hn, hl, hrr⟩, hS⟩, hU⟩ := hr
    simp only [Tree.root_node, Tree.root_nil] at hg hp hn
    simp only [Tree.addrs_node, Tree.addrs_nil, List.nodup_append, List.nodup_cons,
      List.mem_append, List.mem_cons, not_or, List.disjoint_cons_right,
      List.disjoint_append_left, List.disjoint_cons_left, List.disjoint_append_right]
      at hnd
    have n7 : S.root ≠ some n := Tree.root_ne_of_not_mem (by tauto)
    have n8 : U.root ≠ some p := Tree.root_ne_of_not_mem (by tauto)
    simp [insert_case4, grandparent, deref, hg, hp, hn, bind, Except.bind,
      pure, Except.pure, n7, n7.symm, n8, n8.symm]
  rw [e]
  exact insert_case5_LL root hr hnd hpar

theorem insert_case4_RR {h : Heap} {par : Ptr} (root : Ptr) {cg cp cn : Color} {l r S U : Tree}
    {g p n : Nat} {kg kp k : List Byte}
    (hr : Rep h par (.node cg U g kg (.node cp S p kp (.node cn l n k r))))
    (hnd : (Tree.node cg U g kg (.node cp S p kp (.node cn l n k r))).addrs.Nodup)
    (hpar : ∀ gp, par = some gp →
      gp ∉ (Tree.node cg U g kg (.node cp S p kp (.node cn l n k r))).addrs ∧
        ∃ nd, h[gp]? = some nd) :
    ∃ h2, insert_case4 h root (some n) = .ok (h2, if some g = root then some p else root) ∧
      Rewired h h2 par (.node cg U g kg (.node cp S p kp (.node cn l n k r)))
        (.node .BLACK (.node .RED U g kg S) p kp (.node cn l n k r)) := by
  have e : insert_case4 h root (some n) = insert_case5 h root (some n) := by
    obtain ⟨hg, hU, ⟨hp, hS, ⟨hn, hl, hrr⟩⟩⟩ := hr
    simp only [Tree.root_node, Tree.root_nil] at hg hp hn
    simp only [Tree.addrs_node, Tree.addrs_nil, List.nodup_append, List.nodup_cons,
      List.mem_append, List.mem_cons, not_or, List.disjoint_cons_right,
      List.disjoint_append_left, List.disjoint_cons_left, List.disjoint_append_right]
      at hnd
    have n7 : S.root ≠ some n := Tree.root_ne_of_not_mem (by tauto)
    have n8 : U.root ≠ some p := Tree.root_ne_of_not_mem (by tauto)
    simp [insert_case4, grandparent, deref, hg, hp, hn, bind, Except.bind,
      pure, Except.pure, n7, n7.symm, n8, n8.symm]
  rw [e]
  exact insert_case5_RR root hr hnd hpar

/-! ## Cases 1 to 3 on the heap -/

theorem insert_case1_root {h : Heap} {n : Nat} {nd : Node} (root : Ptr) (fuel : Nat)
    (hn : h[n]? = some nd) (hp : nd.parent = none) :
    insert_case1 (fuel + 1) h root (some n) =
      .ok (h.set n { nd with color := .BLACK }, root) := by
  simp [insert_case1, deref, store, hn, hp, bind, Except.bind, pure, Except.pure]

theorem insert_case1_black_parent {h : Heap} {n p : Nat} {nd pd : Node} (root : Ptr)
    (fuel : Nat) (hn : h[n]? = some nd) (hnp : nd.parent = some p) (hp : h[p]? = some pd)
    (hc : pd.color = .BLACK) :
    insert_case1 (fuel + 2) h root (some n) = .ok (h, root) := by
  simp [insert_case1, insert_case2, deref, hn, hnp, hp, hc, bind, Except.bind, pure,
    Except.pure]

theorem insert_case1_red_parent {h : Heap} {n p : Nat} {nd pd : Node} (root : Ptr)
    (fuel : Nat) (hn : h[n]? = some nd) (hnp : nd.parent = some p) (hp : h[p]? = some pd)
    (hc : pd.color = .RED) :
    insert_case1 (fuel + 2) h root (some n) = insert_case3 fuel h root (some n) := by
  simp [insert_case1, insert_case2, deref, hn, hnp, hp, hc, bind, Except.bind, pure,
    Except.pure]

theorem uncle_eval {h : Heap} {n p g : Nat} {nd pd gd : Node}
    (hn : h[n]? = some nd) (hnp : nd.parent = some p) (hp : h[p]? = some pd)
    (hpg : pd.parent = some g) (hg : h[g]? = some gd) :
    uncle h (some n) = .ok (if some p = gd.left then gd.right else gd.left) := by
  simp [uncle, grandparent, deref, hn, hnp, hp, hpg, hg, bind, Except.bind, pure,
    Except.pure]
  split <;> rfl

theorem insert_case3_no_red_uncle {h : Heap} {n p g : Nat} {nd pd gd : Node} (root : Ptr)
    (fuel : Nat)
    (hn : h[n]? = some nd) (hnp : nd.parent = some p) (hp : h[p]? = some pd)
    (hpg : pd.parent = some g) (hg : h[g]? = some gd)
    (hu : ∀ ua, (if some p = gd.left then gd.right else gd.left) = some ua →
      ∃ ud, h[ua]? = some ud ∧ ud.color = .BLACK) :
    insert_case3 (fuel + 1) h root (some n) = insert_case4 h root (some n) := by
  rw [insert_case3, uncle_eval hn hnp hp hpg hg]
  cases hq : (if some p = gd.left then gd.right else gd.left) with
  | none => simp [bind, Except.bind, pure, Except.pure]
  | some ua =>
    obtain ⟨ud, hua, huc⟩ := hu ua hq
    simp [bind, Except.bind, pure, Except.pure, deref, hua, huc]

theorem insert_case3_red_uncle {h : Heap} {n p g ua : Nat} {nd pd gd ud : Node} (root : Ptr)
    (fuel : Nat)
    (hn : h[n]? = some nd) (hnp : nd.parent = some p) (hp : h[p]? = some pd)
    (hpg : pd.parent = some g) (hg : h[g]? = some gd)
    (hq : (if some p = gd.left then gd.right else gd.left) = some ua)
    (hua : h[ua]? = some ud) (huc : ud.color = .RED)
    (n1 : n ≠ p) (n2 : n ≠ ua) (n3 : p ≠ ua) (n4 : g ≠ p) (n5 : g ≠ ua) :
    insert_case3 (fuel + 1) h root (some n) =
      insert_case1 fuel
        (((h.set p { pd with color := .BLACK }).set ua { ud with color := .BLACK }).set g
          { gd with color := .RED }) root (some g) := by
  rw [insert_case3, uncle_eval hn hnp hp hpg hg, hq]
  simp [bind, Except.bind, pure, Except.pure, deref, store, grandparent, hua, huc, hn, hnp, hp,
    hpg, hg, heap_get_set, n1, n2, n3, n4, n5, n1.symm, n2.symm, n3.symm, n4.symm, n5.symm]

/-! ## Contexts: roots, parents and rewiring -/

theorem Ctx.plug_root_congr (ctx : Ctx) {T T2 : Tree} (hroot : T.root = T2.root) :
    (ctx.plug T).root = (ctx.plug T2).root := by
  induction ctx generalizing T T2 with
  | top => exact hroot
  | left c a k r up ih => exact ih rfl
  | right c l a k up ih => exact ih rfl

theorem Ctx.plug_addrs_congr (ctx : Ctx) {T T2 : Tree} (haddr : T.addrs = T2.addrs) :
    (ctx.plug T).addrs = (ctx.plug T2).addrs := by
  induction ctx generalizing T T2 with
  | top => exact haddr
  | left c a k r up ih => exact ih (by simp [haddr])
  | right c l a k up ih => exact ih (by simp [haddr])

theorem Ctx.plug_root_mem (ctx : Ctx) (hne : ctx ≠ .top) :
    ∃ ra ∈ ctx.addrs, ∀ T : Tree, (ctx.plug T).root = some ra := by
  induction ctx with
  | top => exact absurd rfl hne
  | left c a k r up ih =>
    by_cases hu : up = .top
    · subst hu
      exact ⟨a, by simp [Ctx.addrs], fun T => rfl⟩
    · obtain ⟨ra, hm, hra⟩ := ih hu
      exact ⟨ra, List.mem_cons_of_mem _ (List.mem_append_right _ hm), fun T => hra _⟩
  | right c l a k up ih =>
    by_cases hu : up = .top
    · subst hu
      exact ⟨a, by simp [Ctx.addrs], fun T => rfl⟩
    · obtain ⟨ra, hm, hra⟩ := ih hu
      exact ⟨ra, List.mem_cons_of_mem _ (List.mem_append_right _ hm), fun T => hra _⟩

theorem Ctx.nodup_plug {ctx : Ctx} {T : Tree} :
    (ctx.plug T).addrs.Nodup ↔ (T.addrs ++ ctx.addrs).Nodup :=
  (Ctx.addrs_plug ctx T).nodup_iff

theorem Ctx.mem_plug {ctx : Ctx} {T : Tree} {a : Nat} :
    a ∈ (ctx.plug T).addrs ↔ a ∈ T.addrs ∨ a ∈ ctx.addrs := by
  rw [(Ctx.addrs_plug ctx T).mem_iff, List.mem_append]

/-- The root pointer written by case 5 when the rotated node was the root. -/
theorem Ctx.root_after_rotation (ctx : Ctx) {T T2 : Tree} {g : Nat} (hg : T.root = some g)
    (hnd : (ctx.plug T).addrs.Nodup) :
    (if some g = (ctx.plug T).root then T2.root else (ctx.plug T).root) =
      (ctx.plug T2).root := by
  by_cases hc : ctx = .top
  · subst hc
    simp [Ctx.plug, hg]
  · obtain ⟨ra, hm, hra⟩ := Ctx.plug_root_mem ctx hc
    rw [hra T, hra T2]
    rw [Ctx.nodup_plug, List.nodup_append] at hnd
    have : g ≠ ra := by
      rintro rfl
      exact hnd.2.2 (Tree.root_mem_addrs hg) hm
    simp [this]

theorem Ctx.parent_mem {ctx : Ctx} {gp : Nat} (h : ctx.parent = some gp) : gp ∈ ctx.addrs := by
  cases ctx with
  | top => simp [Ctx.parent] at h
  | left c a k r up =>
    simp only [Ctx.parent, Option.some.injEq] at h
    simp [Ctx.addrs, h]
  | right c l a k up =>
    simp only [Ctx.parent, Option.some.injEq] at h
    simp [Ctx.addrs, h]

theorem RepCtx.parent_valid {h : Heap} {ctx : Ctx} {hole : Ptr} (hc : RepCtx h ctx hole)
    {gp : Nat} (hp : ctx.parent = some gp) : ∃ nd, h[gp]? = some nd := by
  cases ctx with
  | top => simp [Ctx.parent] at hp
  | left c a k r up =>
    simp only [Ctx.parent, Option.some.injEq] at hp
    subst hp
    exact ⟨_, hc.1⟩
  | right c l a k up =>
    simp only [Ctx.parent, Option.some.injEq] at hp
    subst hp
    exact ⟨_, hc.1⟩

/-- The side condition of the rotation lemmas, from a represented context. -/
theorem RepCtx.hpar {h : Heap} {ctx : Ctx} {T : Tree} (hc : RepCtx h ctx T.root)
    (hnd : (ctx.plug T).addrs.Nodup) :
    ∀ gp, ctx.parent = some gp → gp ∉ T.addrs ∧ ∃ nd, h[gp]? = some nd := by
  intro gp hp
  rw [Ctx.nodup_plug, List.nodup_append] at hnd
  exact ⟨fun hm => hnd.2.2 hm (Ctx.parent_mem hp), hc.parent_valid hp⟩

/-- A rewired subtree fits back into its context. -/
theorem RepCtx.rewire {h h2 : Heap} {ctx : Ctx} {T T2 : Tree} (hc : RepCtx h ctx T.root)
    (hrw : Rewired h h2 ctx.parent T T2) (hnd : (ctx.plug T).addrs.Nodup)
    (hT : T.root ≠ none) : RepCtx h2 ctx T2.root := by
  rw [Ctx.nodup_plug, List.nodup_append] at hnd
  obtain ⟨-, hcn, hdis⟩ := hnd
  cases ctx with
  | top => trivial
  | left c a k r up =>
    obtain ⟨h1, hs, hu⟩ := hc
    simp only [Ctx.addrs, List.cons_append, List.nodup_cons, List.mem_append, not_or,
      List.nodup_append] at hcn
    have hdis2 : ∀ b, b ∈ r.addrs ∨ b ∈ up.addrs → b ∉ T.addrs ∧ some b ≠ some a := by
      intro b hb
      refine ⟨fun hm => hdis hm (by simp only [Ctx.addrs]; simp; tauto), ?_⟩
      simp only [ne_eq, Option.some.injEq]
      rintro rfl
      tauto
    refine ⟨?_, hs.frame ?_, hu.frame_ctx ?_⟩
    · have := hrw.slot a _ rfl h1
      simpa using this
    · intro b hb
      exact hrw.frame b (hdis2 b (Or.inl hb)).1 (hdis2 b (Or.inl hb)).2
    · intro b hb
      exact hrw.frame b (hdis2 b (Or.inr hb)).1 (hdis2 b (Or.inr hb)).2
  | right c l a k up =>
    obtain ⟨h1, hs, hu⟩ := hc
    simp only [Ctx.addrs, List.cons_append, List.nodup_cons, List.mem_append, not_or,
      List.nodup_append] at hcn
    have hdis2 : ∀ b, b ∈ l.addrs ∨ b ∈ up.addrs → b ∉ T.addrs ∧ some b ≠ some a := by
      intro b hb
      refine ⟨fun hm => hdis hm (by simp only [Ctx.addrs]; simp; tauto), ?_⟩
      simp only [ne_eq, Option.some.injEq]
      rintro rfl
      tauto
    have hlT : l.root ≠ T.root := by
      intro e
      cases hT' : T.root with
      | none => exact hT hT'
      | some g =>
        rw [hT'] at e
        exact (hdis2 g (Or.inl (Tree.root_mem_addrs e))).1 (Tree.root_mem_addrs hT')
    refine ⟨?_, hs.frame ?_, hu.frame_ctx ?_⟩
    · have := hrw.slot a _ rfl h1
      simpa [hlT] using this
    · intro b hb
      exact hrw.frame b (hdis2 b (Or.inl hb)).1 (hdis2 b (Or.inl hb)).2
    · intro b hb
      exact hrw.frame b (hdis2 b (Or.inr hb)).1 (hdis2 b (Or.inr hb)).2

theorem Ctx.topColor_up_left {c : Color} {a : Nat} {k : List Byte} {r : Tree} {up : Ctx}
    (h : (Ctx.left c a k r up).topColor = .BLACK) : up.topColor = .BLACK := by
  cases up <;> first | rfl | exact h

theorem Ctx.topColor_up_right {c : Color} {a : Nat} {k : List Byte} {l : Tree} {up : Ctx}
    (h : (Ctx.right c l a k up).topColor = .BLACK) : up.topColor = .BLACK := by
  cases up <;> first | rfl | exact h

/-! ## The fixup on the heap computes `fixup` -/

theorem case3_rep_L {h : Heap} {par : Ptr} {cg cp cu : Color} {X Y ul ur : Tree}
    {g p ua : Nat} {kg kp uk : List Byte}
    (hr : Rep h par (.node cg (.node cp X p kp Y) g kg (.node cu ul ua uk ur)))
    (hnd : (Tree.node cg (.node cp X p kp Y) g kg (.node cu ul ua uk ur)).addrs.Nodup) :
    Rep (((h.set p ⟨kp.length, X.root, Y.root, some g, .BLACK, kp⟩).set ua
        ⟨uk.length, ul.root, ur.root, some g, .BLACK, uk⟩).set g
        ⟨kg.length, some p, some ua, par, .RED, kg⟩) par
      (.node .RED (.node .BLACK X p kp Y) g kg (.node .BLACK ul ua uk ur)) := by
  obtain ⟨hg, ⟨hp, hX, hY⟩, ⟨hu, hul, hur⟩⟩ := hr
  simp only [Tree.root_node, Tree.root_nil] at hg hp hu
  simp only [Tree.addrs_node, Tree.addrs_nil, List.nodup_append, List.nodup_cons,
    List.mem_append, List.mem_cons, not_or, List.disjoint_cons_right,
    List.disjoint_append_left, List.disjoint_cons_left, List.disjoint_append_right]
    at hnd
  have n1 : g ≠ p := by tauto
  have n2 : g ≠ ua := by tauto
  have n3 : p ≠ ua := by tauto
  simp only [Rep_node, Rep_nil, Tree.root_node, Tree.root_nil, heap_get_set, hg, hp, hu,
    n1, n2, n3, n1.symm, n2.symm, n3.symm, if_true, if_false, Option.map_some', true_and,
    and_true]
  repeat' apply And.intro
  all_goals (repeat (first | assumption | apply Rep.set))
  all_goals tauto

theorem case3_rep_R {h : Heap} {par : Ptr} {cg cp cu : Color} {X Y ul ur : Tree}
    {g p ua : Nat} {kg kp uk : List Byte}
    (hr : Rep h par (.node cg (.node cu ul ua uk ur) g kg (.node cp X p kp Y)))
    (hnd : (Tree.node cg (.node cu ul ua uk ur) g kg (.node cp X p kp Y)).addrs.Nodup) :
    Rep (((h.set p ⟨kp.length, X.root, Y.root, some g, .BLACK, kp⟩).set ua
        ⟨uk.length, ul.root, ur.root, some g, .BLACK, uk⟩).set g
        ⟨kg.length, some ua, some p, par, .RED, kg⟩) par
      (.node .RED (.node .BLACK ul ua uk ur) g kg (.node .BLACK X p kp Y)) := by
  obtain ⟨hg, ⟨hu, hul, hur⟩, ⟨hp, hX, hY⟩⟩ := hr
  simp only [Tree.root_node, Tree.root_nil] at hg hp hu
  simp only [Tree.addrs_node, Tree.addrs_nil, List.nodup_append, List.nodup_cons,
    List.mem_append, List.mem_cons, not_or, List.disjoint_cons_right,
    List.disjoint_append_left, List.disjoint_cons_left, List.disjoint_append_right]
    at hnd
  have n1 : g ≠ p := by tauto
  have n2 : g ≠ ua := by tauto
  have n3 : p ≠ ua := by tauto
  simp only [Rep_node, Rep_nil, Tree.root_node, Tree.root_nil, heap_get_set, hg, hp, hu,
    n1, n2, n3, n1.symm, n2.symm, n3.symm, if_true, if_false, Option.map_some', true_and,
    and_true]
  repeat' apply And.intro
  all_goals (repeat (first | assumption | apply Rep.set))
  all_goals tauto

/-- Finishing a terminal case 4/5 step: the rewired subtree, put back in its
context, is the tree the heap now holds. -/
theorem rewired_finish {h h2 : Heap} {ctx : Ctx} {T T2 : Tree} {g : Nat}
    (hrep : Rep h none (ctx.plug T)) (hnd : (ctx.plug T).addrs.Nodup)
    (hg : T.root = some g) (hrw : Rewired h h2 ctx.parent T T2) :
    Rep h2 none (ctx.plug T2) ∧ h2.length = h.length ∧
      (∀ a, a ∉ (ctx.plug T).addrs → h2[a]? = h[a]?) ∧
      (if some g = (ctx.plug T).root then T2.root else (ctx.plug T).root) =
        (ctx.plug T2).root := by
  obtain ⟨hc, -⟩ := rep_plug.mp hrep
  refine ⟨rep_plug.mpr ⟨hc.rewire hrw hnd (by simp [hg]), hrw.rep⟩, hrw.length_eq, ?_,
    Ctx.root_after_rotation ctx hg hnd⟩
  intro a ha
  rw [Ctx.mem_plug, not_or] at ha
  refine hrw.frame a ha.1 ?_
  intro e
  exact ha.2 (Ctx.parent_mem e.symm)

/-- Finishing a case 3 step: the recoloured subtree in its context. -/
theorem recolor_finish {h h2 : Heap} {ctx : Ctx} {T T2 : Tree}
    (hrep : Rep h none (ctx.plug T)) (hrep2 : Rep h2 ctx.parent T2)
    (hroot : T.root = T2.root) (hf : ∀ a, a ∉ T.addrs → h2[a]? = h[a]?)
    (hnd : (ctx.plug T).addrs.Nodup) : Rep h2 none (ctx.plug T2) := by
  obtain ⟨hc, -⟩ := rep_plug.mp hrep
  rw [Ctx.nodup_plug, List.nodup_append] at hnd
  refine rep_plug.mpr ⟨?_, hrep2⟩
  rw [← hroot]
  refine hc.frame_ctx ?_
  intro a ha
  exact hf a (fun hm => hnd.2.2 hm ha)

theorem fixup_left_black (p : Nat) (kp : List Byte) (s : Tree) (up : Ctx) (t : Tree) :
    fixup (.left .BLACK p kp s up) t = (Ctx.left .BLACK p kp s up).plug t := by
  cases up <;> simp [fixup]

theorem fixup_right_black (p : Nat) (kp : List Byte) (s : Tree) (up : Ctx) (t : Tree) :
    fixup (.right .BLACK s p kp up) t = (Ctx.right .BLACK s p kp up).plug t := by
  cases up <;> simp [fixup]

theorem Tree.not_red_cases {u : Tree} (hu : ¬ ∃ ul ua uk ur, u = .node .RED ul ua uk ur) :
    u = .nil ∨ ∃ ul ua uk ur, u = .node .BLACK ul ua uk ur := by
  cases u with
  | nil => exact Or.inl rfl
  | node cu ul ua uk ur =>
    cases cu with
    | RED => exact absurd ⟨ul, ua, uk, ur, rfl⟩ hu
    | BLACK => exact Or.inr ⟨ul, ua, uk, ur, rfl⟩

theorem Rep.black_uncle {h : Heap} {par : Ptr} {u : Tree} (hr : Rep h par u)
    (hu : ¬ ∃ ul ua uk ur, u = .node .RED ul ua uk ur) :
    ∀ ua, u.root = some ua → ∃ ud, h[ua]? = some ud ∧ ud.color = .BLACK := by
  intro ua hua
  rcases Tree.not_red_cases hu with rfl | ⟨ul, ua2, uk, ur, rfl⟩
  · simp at hua
  · simp only [Tree.root_node, Option.some.injEq] at hua
    subst hua
    exact ⟨_, hr.1, rfl⟩

set_option maxHeartbeats 3200000 in
theorem insert_case1_spec : ∀ (d : Nat) (ctx : Ctx), ctx.depth = d →
    ∀ (h : Heap) (fuel : Nat) (cn : Color) (l : Tree) (n : Nat) (k : List Byte) (r : Tree),
    Rep h none (ctx.plug (.node cn l n k r)) →
    (ctx.plug (.node cn l n k r)).addrs.Nodup →
    ctx.topColor = .BLACK →
    2 * ctx.depth + 3 ≤ fuel →
    ∃ h2, insert_case1 fuel h (ctx.plug (.node cn l n k r)).root (some n)
        = .ok (h2, (fixup ctx (.node cn l n k r)).root) ∧
      Rep h2 none (fixup ctx (.node cn l n k r)) ∧ h2.length = h.length ∧
      ∀ a, a ∉ (ctx.plug (.node cn l n k r)).addrs → h2[a]? = h[a]? := by
  intro d
  induction d using Nat.strong_induction_on with
  | _ d ih =>
  intro ctx hd h fuel cn l n k r hrep hnd htop hfuel
  cases ctx with
  | top =>
    obtain ⟨f, rfl⟩ : ∃ f, fuel = f + 1 := ⟨fuel - 1, by omega⟩
    obtain ⟨hn, hl, hr⟩ := hrep
    simp only [Ctx.plug, Tree.addrs_node, List.nodup_append, List.nodup_cons,
      List.disjoint_cons_right] at hnd
    rw [insert_case1_root _ f hn rfl]
    refine ⟨_, rfl, ?_, by simp, ?_⟩
    · simp only [fixup, Tree.blacken, Rep_node, heap_get_set, hn, if_true, Option.map_some',
        true_and]
      exact ⟨hl.set (by tauto) _, hr.set (by tauto) _⟩
    · intro a ha
      simp only [Ctx.plug, Tree.addrs_node, List.mem_append, List.mem_cons, not_or] at ha
      simp [heap_get_set, ha]
  | left cp p kp s up =>
    have hrepP : Rep h none (up.plug (.node cp (.node cn l n k r) p kp s)) := hrep
    obtain ⟨hcp, hp, ⟨hn, hl, hr⟩, hs⟩ := rep_plug.mp hrepP
    simp only [Tree.root_node] at hp
    cases cp with
    | BLACK =>
      obtain ⟨f, rfl⟩ : ∃ f, fuel = f + 2 := ⟨fuel - 2, by omega⟩
      rw [insert_case1_black_parent _ f hn rfl hp rfl, fixup_left_black]
      exact ⟨h, rfl, hrep, rfl, fun _ _ => rfl⟩
    | RED =>
      cases up with
      | top => simp [Ctx.topColor] at htop
      | left cg g kg u up2 =>
        obtain ⟨f, rfl⟩ : ∃ f, fuel = f + 3 := ⟨fuel - 3, by omega⟩
        have hrepT : Rep h none (up2.plug
          (.node cg (.node .RED (.node cn l n k r) p kp s) g kg u)) := hrep
        have hndP : (up2.plug
          (.node cg (.node .RED (.node cn l n k r) p kp s) g kg u)).addrs.Nodup := hnd
        obtain ⟨hcg, hrT⟩ := rep_plug.mp hrepT
        have hg := hrT.1
        simp only [Tree.root_node] at hg
        have hndT := (List.nodup_append.mp (Ctx.nodup_plug.mp hndP)).1
        simp only [Ctx.parent] at hp
        rw [insert_case1_red_parent _ (f + 1) hn rfl hp rfl]
        by_cases hu : ∃ ul ua uk ur, u = .node .RED ul ua uk ur
        · obtain ⟨ul, ua, uk, ur, rfl⟩ := hu
          have hua := hrT.2.2.1
          have hndT2 := hndT
          simp only [Tree.addrs_node, Tree.addrs_nil, List.nodup_append, List.nodup_cons,
            List.mem_append, List.mem_cons, not_or, List.disjoint_cons_right,
            List.disjoint_append_left, List.disjoint_cons_left, List.disjoint_append_right]
            at hndT2
          have hroot : ((Ctx.left .RED p kp s (.left cg g kg (.node .RED ul ua uk ur) up2)).plug
              (.node cn l n k r)).root = (up2.plug (.node .RED (.node .BLACK (.node cn l n k r) p kp s) g kg (.node .BLACK ul ua uk ur))).root :=
            Ctx.plug_root_congr up2 rfl
          have haddr : ((Ctx.left .RED p kp s (.left cg g kg (.node .RED ul ua uk ur) up2)).plug
              (.node cn l n k r)).addrs = (up2.plug (.node .RED (.node .BLACK (.node cn l n k r) p kp s) g kg (.node .BLACK ul ua uk ur))).addrs :=
            Ctx.plug_addrs_congr up2 rfl
          rw [insert_case3_red_uncle _ f hn rfl hp rfl hg (by simp) hua rfl
            (by tauto) (by tauto) (by tauto) (by tauto) (by tauto), hroot]
          have hrep1 := recolor_finish hrepT (case3_rep_L hrT hndT) rfl (by
            intro a ha
            simp only [Tree.addrs_node, List.mem_append, List.mem_cons, not_or] at ha
            simp [heap_get_set, ha]) hndP
          obtain ⟨h2, e, hr2, hlen, hf⟩ := ih up2.depth (by simp [Ctx.depth] at hd; omega) up2 rfl
            _ f .RED (.node .BLACK (.node cn l n k r) p kp s) g kg (.node .BLACK ul ua uk ur)
            hrep1 (by rw [← haddr]; exact hnd) (Ctx.topColor_up_left (Ctx.topColor_up_left htop))
            (by simp only [Ctx.depth] at hfuel; omega)
          have hfix : fixup (Ctx.left .RED p kp s (.left cg g kg (.node .RED ul ua uk ur) up2))
              (.node cn l n k r) = fixup up2 (.node .RED (.node .BLACK (.node cn l n k r) p kp s) g kg (.node .BLACK ul ua uk ur)) := by
            simp [fixup]
          rw [hfix]
          refine ⟨h2, e, hr2, by simpa using hlen, ?_⟩
          intro a ha
          rw [hf a (by rw [← haddr]; exact ha)]
          rw [haddr, Ctx.mem_plug, not_or] at ha
          have := ha.1
          simp only [Tree.addrs_node, List.mem_append, List.mem_cons, not_or] at this
          simp [heap_get_set, this]
        · have hndT2 := hndT
          simp only [Tree.addrs_node, Tree.addrs_nil, List.nodup_append, List.nodup_cons,
            List.mem_append, List.mem_cons, not_or, List.disjoint_cons_right,
            List.disjoint_append_left, List.disjoint_cons_left, List.disjoint_append_right]
            at hndT2
          have hup : u.root ≠ some p := Tree.root_ne_of_not_mem (by tauto)
          rw [insert_case3_no_red_uncle _ f hn rfl hp rfl hg
            (by simpa using hrT.2.2.black_uncle hu)]
          obtain ⟨h2, e, hrw⟩ := insert_case4_LL ((Ctx.plug up2
            (.node cg (.node .RED (.node cn l n k r) p kp s) g kg u)).root) hrT hndT
            (hcg.hpar hndP)
          obtain ⟨hr2, hlen, hf, hroot⟩ := rewired_finish hrepT hndP rfl hrw
          have hfix : fixup (Ctx.left .RED p kp s (.left cg g kg u up2)) (.node cn l n k r) =
              up2.plug (.node .BLACK (.node cn l n k r) p kp (.node .RED s g kg u)) := by
            rcases Tree.not_red_cases hu with rfl | ⟨ul, ua2, uk, ur, rfl⟩ <;> simp [fixup]
          rw [hfix]
          refine ⟨h2, ?_, hr2, hlen, hf⟩
          rw [← hroot]
          exact e
      | right cg u g kg up2 =>
        obtain ⟨f, rfl⟩ : ∃ f, fuel = f + 3 := ⟨fuel - 3, by omega⟩
        have hrepT : Rep h none (up2.plug
          (.node cg u g kg (.node .RED (.node cn l n k r) p kp s))) := hrep
        have hndP : (up2.plug
          (.node cg u g kg (.node .RED (.node cn l n k r) p kp s))).addrs.Nodup := hnd
        obtain ⟨hcg, hrT⟩ := rep_plug.mp hrepT
        have hg := hrT.1
        simp only [Tree.root_node] at hg
        have hndT := (List.nodup_append.mp (Ctx.nodup_plug.mp hndP)).1
        simp only [Ctx.parent] at hp
        rw [insert_case1_red_parent _ (f + 1) hn rfl hp rfl]
        by_cases hu : ∃ ul ua uk ur, u = .node .RED ul ua uk ur
        · obtain ⟨ul, ua, uk, ur, rfl⟩ := hu
          have hua := hrT.2.1.1
          have hndT2 := hndT
          simp only [Tree.addrs_node, Tree.addrs_nil, List.nodup_append, List.nodup_cons,
            List.mem_append, List.mem_cons, not_or, List.disjoint_cons_right,
            List.disjoint_append_left, List.disjoint_cons_left, List.disjoint_append_right]
            at hndT2
          have hroot : ((Ctx.left .RED p kp s (.right cg (.node .RED ul ua uk ur) g kg up2)).plug
              (.node cn l n k r)).root = (up2.plug (.node .RED (.node .BLACK ul ua uk ur) g kg (.node .BLACK (.node cn l n k r) p kp s))).root :=
            Ctx.plug_root_congr up2 rfl
          have haddr : ((Ctx.left .RED p kp s (.right cg (.node .RED ul ua uk ur) g kg up2)).plug
              (.node cn l n k r)).addrs = (up2.plug (.node .RED (.node .BLACK ul ua uk ur) g kg (.node .BLACK (.node cn l n k r) p kp s))).addrs :=
            Ctx.plug_addrs_congr up2 rfl
          rw [insert_case3_red_uncle _ f hn rfl hp rfl hg (by simp [show p ≠ ua by tauto]) hua rfl
            (by tauto) (by tauto) (by tauto) (by tauto) (by tauto), hroot]
          have hrep1 := recolor_finish hrepT (case3_rep_R hrT hndT) rfl (by
            intro a ha
            simp only [Tree.addrs_node, List.mem_append, List.mem_cons, not_or] at ha
            simp [heap_get_set, ha]) hndP
          obtain ⟨h2, e, hr2, hlen, hf⟩ := ih up2.depth (by simp [Ctx.depth] at hd; omega) up2 rfl
            _ f .RED (.node .BLACK ul ua uk ur) g kg (.node .BLACK (.node cn l n k r) p kp s)
            hrep1 (by rw [← haddr]; exact hnd) (Ctx.topColor_up_right (Ctx.topColor_up_left htop))
            (by simp only [Ctx.depth] at hfuel; omega)
          have hfix : fixup (Ctx.left .RED p kp s (.right cg (.node .RED ul ua uk ur) g kg up2))
              (.node cn l n k r) = fixup up2 (.node .RED (.node .BLACK ul ua uk ur) g kg (.node .BLACK (.node cn l n k r) p kp s)) := by
            simp [fixup]
          rw [hfix]
          refine ⟨h2, e, hr2, by simpa using hlen, ?_⟩
          intro a ha
          rw [hf a (by rw [← haddr]; exact ha)]
          rw [haddr, Ctx.mem_plug, not_or] at ha
          have := ha.1
          simp only [Tree.addrs_node, List.mem_append, List.mem_cons, not_or] at this
          simp [heap_get_set, this]
        · have hndT2 := hndT
          simp only [Tree.addrs_node, Tree.addrs_nil, List.nodup_append, List.nodup_cons,
            List.mem_append, List.mem_cons, not_or, List.disjoint_cons_right,
            List.disjoint_append_left, List.disjoint_cons_left, List.disjoint_append_right]
            at hndT2
          have hup : u.root ≠ some p := Tree.root_ne_of_not_mem (by tauto)
          rw [insert_case3_no_red_uncle _ f hn rfl hp rfl hg
            (by simpa [hup, hup.symm] using hrT.2.1.black_uncle hu)]
          obtain ⟨h2, e, hrw⟩ := insert_case4_RL ((Ctx.plug up2
            (.node cg u g kg (.node .RED (.node cn l n k r) p kp s))).root) hrT hndT
            (hcg.hpar hndP)
          obtain ⟨hr2, hlen, hf, hroot⟩ := rewired_finish hrepT hndP rfl hrw
          have hfix : fixup (Ctx.left .RED p kp s (.right cg u g kg up2)) (.node cn l n k r) =
              up2.plug (.node .BLACK (.node .RED u g kg l) n k (.node .RED r p kp s)) := by
            rcases Tree.not_red_cases hu with rfl | ⟨ul, ua2, uk, ur, rfl⟩ <;> simp [fixup]
          rw [hfix]
          refine ⟨h2, ?_, hr2, hlen, hf⟩
          rw [← hroot]
          exact e
  | right cp s p kp up =>
    have hrepP : Rep h none (up.plug (.node cp s p kp (.node cn l n k r))) := hrep
    obtain ⟨hcp, hp, hs, ⟨hn, hl, hr⟩⟩ := rep_plug.mp hrepP
    simp only [Tree.root_node] at hp
    cases cp with
    | BLACK =>
      obtain ⟨f, rfl⟩ : ∃ f, fuel = f + 2 := ⟨fuel - 2, by omega⟩
      rw [insert_case1_black_parent _ f hn rfl hp rfl, fixup_right_black]
      exact ⟨h, rfl, hrep, rfl, fun _ _ => rfl⟩
    | RED =>
      cases up with
      | top => simp [Ctx.topColor] at htop
      | left cg g kg u up2 =>
        obtain ⟨f, rfl⟩ : ∃ f, fuel = f + 3 := ⟨fuel - 3, by omega⟩
        have hrepT : Rep h none (up2.plug
          (.node cg (.node .RED s p kp (.node cn l n k r)) g kg u)) := hrep
        have hndP : (up2.plug
          (.node cg (.node .RED s p kp (.node cn l n k r)) g kg u)).addrs.Nodup := hnd
        obtain ⟨hcg, hrT⟩ := rep_plug.mp hrepT
        have hg := hrT.1
        simp only [Tree.root_node] at hg
        have hndT := (List.nodup_append.mp (Ctx.nodup_plug.mp hndP)).1
        simp only [Ctx.parent] at hp
        rw [insert_case1_red_parent _ (f + 1) hn rfl hp rfl]
        by_cases hu : ∃ ul ua uk ur, u = .node .RED ul ua uk ur
        · obtain ⟨ul, ua, uk, ur, rfl⟩ := hu
          have hua := hrT.2.2.1
          have hndT2 := hndT
          simp only [Tree.addrs_node, Tree.addrs_nil, List.nodup_append, List.nodup_cons,
            List.mem_append, List.mem_cons, not_or, List.disjoint_cons_right,
            List.disjoint_append_left, List.disjoint_cons_left, List.disjoint_append_right]
            at hndT2
          have hroot : ((Ctx.right .RED s p kp (.left cg g kg (.node .RED ul ua uk ur) up2)).plug
              (.node cn l n k r)).root = (up2.plug (.node .RED (.node .BLACK s p kp (.node cn l n k r)) g kg (.node .BLACK ul ua uk ur))).root :=
            Ctx.plug_root_congr up2 rfl
          have haddr : ((Ctx.right .RED s p kp (.left cg g kg (.node .RED ul ua uk ur) up2)).plug
              (.node cn l n k r)).addrs = (up2.plug (.node .RED (.node .BLACK s p kp (.node cn l n k r)) g kg (.node .BLACK ul ua uk ur))).addrs :=
            Ctx.plug_addrs_congr up2 rfl
          rw [insert_case3_red_uncle _ f hn rfl hp rfl hg (by simp) hua rfl
            (by tauto) (by tauto) (by tauto) (by tauto) (by tauto), hroot]
          have hrep1 := recolor_finish hrepT (case3_rep_L hrT hndT) rfl (by
            intro a ha
            simp only [Tree.addrs_node, List.mem_append, List.mem_cons, not_or] at ha
            simp [heap_get_set, ha]) hndP
          obtain ⟨h2, e, hr2, hlen, hf⟩ := ih up2.depth (by simp [Ctx.depth] at hd; omega) up2 rfl
            _ f .RED (.node .BLACK s p kp (.node cn l n k r)) g kg (.node .BLACK ul ua uk ur)
            hrep1 (by rw [← haddr]; exact hnd) (Ctx.topColor_up_left (Ctx.topColor_up_right htop))
            (by simp only [Ctx.depth] at hfuel; omega)
          have hfix : fixup (Ctx.right .RED s p kp (.left cg g kg (.node .RED ul ua uk ur) up2))
              (.node cn l n k r) = fixup up2 (.node .RED (.node .BLACK s p kp (.node cn l n k r)) g kg (.node .BLACK ul ua uk ur)) := by
            simp [fixup]
          rw [hfix]
          refine ⟨h2, e, hr2, by simpa using hlen, ?_⟩
          intro a ha
          rw [hf a (by rw [← haddr]; exact ha)]
          rw [haddr, Ctx.mem_plug, not_or] at ha
          have := ha.1
          simp only [Tree.addrs_node, List.mem_append, List.mem_cons, not_or] at this
          simp [heap_get_set, this]
        · have hndT2 := hndT
          simp only [Tree.addrs_node, Tree.addrs_nil, List.nodup_append, List.nodup_cons,
            List.mem_append, List.mem_cons, not_or, List.disjoint_cons_right,
            List.disjoint_append_left, List.disjoint_cons_left, List.disjoint_append_right]
            at hndT2
          have hup : u.root ≠ some p := Tree.root_ne_of_not_mem (by tauto)
          rw [insert_case3_no_red_uncle _ f hn rfl hp rfl hg
            (by simpa using hrT.2.2.black_uncle hu)]
          obtain ⟨h2, e, hrw⟩ := insert_case4_LR ((Ctx.plug up2
            (.node cg (.node .RED s p kp (.node cn l n k r)) g kg u)).root) hrT hndT
            (hcg.hpar hndP)
          obtain ⟨hr2, hlen, hf, hroot⟩ := rewired_finish hrepT hndP rfl hrw
          have hfix : fixup (Ctx.right .RED s p kp (.left cg g kg u up2)) (.node cn l n k r) =
              up2.plug (.node .BLACK (.node .RED s p kp l) n k (.node .RED r g kg u)) := by
            rcases Tree.not_red_cases hu with rfl | ⟨ul, ua2, uk, ur, rfl⟩ <;> simp [fixup]
          rw [hfix]
          refine ⟨h2, ?_, hr2, hlen, hf⟩
          rw [← hroot]
          exact e
      | right cg u g kg up2 =>
        obtain ⟨f, rfl⟩ : ∃ f, fuel = f + 3 := ⟨fuel - 3, by omega⟩
        have hrepT : Rep h none (up2.plug
          (.node cg u g kg (.node .RED s p kp (.node cn l n k r)))) := hrep
        have hndP : (up2.plug
          (.node cg u g kg (.node .RED s p kp (.node cn l n k r)))).addrs.Nodup := hnd
        obtain ⟨hcg, hrT⟩ := rep_plug.mp hrepT
        have hg := hrT.1
        simp only [Tree.root_node] at hg
        have hndT := (List.nodup_append.mp (Ctx.nodup_plug.mp hndP)).1
        simp only [Ctx.parent] at hp
        rw [insert_case1_red_parent _ (f + 1) hn rfl hp rfl]
        by_cases hu : ∃ ul ua uk ur, u = .node .RED ul ua uk ur
        · obtain ⟨ul, ua, uk, ur, rfl⟩ := hu
          have hua := hrT.2.1.1
          have hndT2 := hndT
          simp only [Tree.addrs_node, Tree.addrs_nil, List.nodup_append, List.nodup_cons,
            List.mem_append, List.mem_cons, not_or, List.disjoint_cons_right,
            List.disjoint_append_left, List.disjoint_cons_left, List.disjoint_append_right]
            at hndT2
          have hroot : ((Ctx.right .RED s p kp (.right cg (.node .RED ul ua uk ur) g kg up2)).plug
              (.node cn l n k r)).root = (up2.plug (.node .RED (.node .BLACK ul ua uk ur) g kg (.node .BLACK s p kp (.node cn l n k r)))).root :=
            Ctx.plug_root_congr up2 rfl
          have haddr : ((Ctx.right .RED s p kp (.right cg (.node .RED ul ua uk ur) g kg up2)).plug
              (.node cn l n k r)).addrs = (up2.plug (.node .RED (.node .BLACK ul ua uk ur) g kg (.node .BLACK s p kp (.node cn l n k r)))).addrs :=
            Ctx.plug_addrs_congr up2 rfl
          rw [insert_case3_red_uncle _ f hn rfl hp rfl hg (by simp [show p ≠ ua by tauto]) hua rfl
            (by tauto) (by tauto) (by tauto) (by tauto) (by tauto), hroot]
          have hrep1 := recolor_finish hrepT (case3_rep_R hrT hndT) rfl (by
            intro a ha
            simp only [Tree.addrs_node, List.mem_append, List.mem_cons, not_or] at ha
            simp [heap_get_set, ha]) hndP
          obtain ⟨h2, e, hr2, hlen, hf⟩ := ih up2.depth (by simp [Ctx.depth] at hd; omega) up2 rfl
            _ f .RED (.node .BLACK ul ua uk ur) g kg (.node .BLACK s p kp (.node cn l n k r))
            hrep1 (by rw [← haddr]; exact hnd) (Ctx.topColor_up_right (Ctx.topColor_up_right htop))
            (by simp only [Ctx.depth] at hfuel; omega)
          have hfix : fixup (Ctx.right .RED s p kp (.right cg (.node .RED ul ua uk ur) g kg up2))
              (.node cn l n k r) = fixup up2 (.node .RED (.node .BLACK ul ua uk ur) g kg (.node .BLACK s p kp (.node cn l n k r))) := by
            simp [fixup]
          rw [hfix]
          refine ⟨h2, e, hr2, by simpa using hlen, ?_⟩
          intro a ha
          rw [hf a (by rw [← haddr]; exact ha)]
          rw [haddr, Ctx.mem_plug, not_or] at ha
          have := ha.1
          simp only [Tree.addrs_node, List.mem_append, List.mem_cons, not_or] at this
          simp [heap_get_set, this]
        · have hndT2 := hndT
          simp only [Tree.addrs_node, Tree.addrs_nil, List.nodup_append, List.nodup_cons,
            List.mem_append, List.mem_cons, not_or, List.disjoint_cons_right,
            List.disjoint_append_left, List.disjoint_cons_left, List.disjoint_append_right]
            at hndT2
          have hup : u.root ≠ some p := Tree.root_ne_of_not_mem (by tauto)
          rw [insert_case3_no_red_uncle _ f hn rfl hp rfl hg
            (by simpa [hup, hup.symm] using hrT.2.1.black_uncle hu)]
          obtain ⟨h2, e, hrw⟩ := insert_case4_RR ((Ctx.plug up2
            (.node cg u g kg (.node .RED s p kp (.node cn l n k r)))).root) hrT hndT
            (hcg.hpar hndP)
          obtain ⟨hr2, hlen, hf, hroot⟩ := rewired_finish hrepT hndP rfl hrw
          have hfix : fixup (Ctx.right .RED s p kp (.right cg u g kg up2)) (.node cn l n k r) =
              up2.plug (.node .BLACK (.node .RED u g kg s) p kp (.node cn l n k r)) := by
            rcases Tree.not_red_cases hu with rfl | ⟨ul, ua2, uk, ur, rfl⟩ <;> simp [fixup]
          rw [hfix]
          refine ⟨h2, ?_, hr2, hlen, hf⟩
          rw [← hroot]
          exact e

/-! ## The descent loop -/

theorem descend_plug {key : List Byte} {sub : Tree} {ctx ctx2 : Ctx}
    (h : descend key sub ctx = some ctx2) : ctx2.plug .nil = ctx.plug sub := by
  induction sub generalizing ctx with
  | nil =>
    simp only [descend, Option.some.injEq] at h
    rw [h]
  | node c l a k r ihl ihr =>
    simp only [descend] at h
    split_ifs at h with h0 h1
    · exact ihl h
    · exact ihr h

theorem descend_depth {key : List Byte} {sub : Tree} {ctx ctx2 : Ctx}
    (h : descend key sub ctx = some ctx2) : ctx2.depth ≤ ctx.depth + sub.depth := by
  induction sub generalizing ctx with
  | nil =>
    simp only [descend, Option.some.injEq] at h
    rw [h]; simp
  | node c l a k r ihl ihr =>
    simp only [descend] at h
    split_ifs at h with h0 h1
    · have := ihl h
      simp only [Ctx.depth, Tree.depth] at this ⊢
      omega
    · have := ihr h
      simp only [Ctx.depth, Tree.depth] at this ⊢
      omega

theorem rbt_insert_loop_spec (key : List Byte) (nw : Nat) :
    ∀ (sub : Tree) (ctx : Ctx) (h : Heap) (fuel : Nat), sub ≠ .nil →
      Rep h ctx.parent sub → sub.depth ≤ fuel →
      rbt_insert_loop fuel h sub.root key.length key (some nw) =
        .ok (match descend key sub ctx with
          | none => .returned
          | some ctx2 => .exited (attachSlot h ctx2 (some nw)) ctx2.parent) := by
  intro sub
  induction sub with
  | nil => intro ctx h fuel hne; exact absurd rfl hne
  | node c l a k r ihl ihr =>
    intro ctx h fuel _ hrep hfuel
    obtain ⟨f, rfl⟩ : ∃ f, fuel = f + 1 := ⟨fuel - 1, by simp [Tree.depth] at hfuel; omega⟩
    obtain ⟨ha, hl, hr⟩ := hrep
    simp only [Tree.depth] at hfuel
    have hc : rbt_compare_data key.length key k.length k = cmpKey key k := rfl
    by_cases h0 : cmpKey key k = 0
    · simp [rbt_insert_loop, deref, ha, descend, h0, hc, bind, Except.bind, pure, Except.pure]
    · by_cases h1 : cmpKey key k < 0
      · cases l with
        | nil =>
          simp [rbt_insert_loop, deref, store, ha, descend, h0, h1, hc, bind, Except.bind, pure,
            Except.pure, attachSlot, Ctx.parent]
        | node c2 l2 a2 k2 r2 =>
          have := ihl (.left c a k r ctx) h f (by simp) hl
            (by simp only [Tree.depth] at hfuel ⊢; omega)
          simp only [Tree.root_node] at this
          simp [rbt_insert_loop, deref, store, ha, h0, h1, hc, bind, Except.bind, pure,
            Except.pure, this]
          simp [descend, h0, h1]
      · cases r with
        | nil =>
          simp [rbt_insert_loop, deref, store, ha, descend, h0, h1, hc, bind, Except.bind, pure,
            Except.pure, attachSlot, Ctx.parent]
        | node c2 l2 a2 k2 r2 =>
          have := ihr (.right c l a k ctx) h f (by simp) hr
            (by simp only [Tree.depth] at hfuel ⊢; omega)
          simp only [Tree.root_node] at this
          simp [rbt_insert_loop, deref, store, ha, h0, h1, hc, bind, Except.bind, pure,
            Except.pure, this]
          simp [descend, h0, h1]

/-! ## `rbt_insert` on the heap computes `insertTree` -/

theorem Ctx.plug_color (ctx : Ctx) (hne : ctx ≠ .top) (T : Tree) :
    (ctx.plug T).color = ctx.topColor := by
  induction ctx generalizing T with
  | top => exact absurd rfl hne
  | left c a k r up ih =>
    cases up with
    | top => rfl
    | left c2 a2 k2 r2 up2 => exact ih (by simp) _
    | right c2 l2 a2 k2 up2 => exact ih (by simp) _
  | right c l a k up ih =>
    cases up with
    | top => rfl
    | left c2 a2 k2 r2 up2 => exact ih (by simp) _
    | right c2 l2 a2 k2 up2 => exact ih (by simp) _

theorem RepCtx.set_ctx {h : Heap} {ctx : Ctx} {hole : Ptr} (hc : RepCtx h ctx hole) {a : Nat}
    (ha : a ∉ ctx.addrs) (nd : Node) : RepCtx (h.set a nd) ctx hole := by
  refine hc.frame_ctx ?_
  intro b hb
  rw [heap_get_set, if_neg]
  rintro rfl
  exact ha hb

theorem RepCtx.attach {h : Heap} {ctx : Ctx} {hole : Ptr} (hc : RepCtx h ctx hole)
    (hnd : ctx.addrs.Nodup) {nw : Nat} (hnw : nw ∉ ctx.addrs) (q : Ptr) (nd : Node) :
    RepCtx ((attachSlot h ctx q).set nw nd) ctx q := by
  cases ctx with
  | top => trivial
  | left c a k r up =>
    obtain ⟨h1, hs, hu⟩ := hc
    simp only [Ctx.addrs, List.cons_append, List.nodup_cons, List.mem_append, not_or,
      List.nodup_append, List.mem_cons] at hnd hnw
    refine ⟨?_, (hs.set (by tauto) _).set (by tauto) _, (hu.set_ctx (by tauto) _).set_ctx (by tauto) _⟩
    simp [attachSlot, heap_get_set, h1, hnw.1, Ne.symm hnw.1]
  | right c l a k up =>
    obtain ⟨h1, hs, hu⟩ := hc
    simp only [Ctx.addrs, List.cons_append, List.nodup_cons, List.mem_append, not_or,
      List.nodup_append, List.mem_cons] at hnd hnw
    refine ⟨?_, (hs.set (by tauto) _).set (by tauto) _, (hu.set_ctx (by tauto) _).set_ctx (by tauto) _⟩
    simp [attachSlot, heap_get_set, h1, hnw.1, Ne.symm hnw.1]

theorem attachSlot_length (h : Heap) (ctx : Ctx) (q : Ptr) :
    (attachSlot h ctx q).length = h.length := by
  cases ctx <;> simp [attachSlot]

theorem attachSlot_frame (h : Heap) (ctx : Ctx) (q : Ptr) (a : Nat) (ha : a ∉ ctx.addrs) :
    (attachSlot h ctx q)[a]? = h[a]? := by
  cases ctx with
  | top => rfl
  | left c b k r up =>
    simp only [Ctx.addrs, List.cons_append, List.mem_cons, not_or] at ha
    simp [attachSlot, heap_get_set, ha.1]
  | right c l b k up =>
    simp only [Ctx.addrs, List.cons_append, List.mem_cons, not_or] at ha
    simp [attachSlot, heap_get_set, ha.1]

theorem rbt_insert_spec {h : Heap} {t : Tree} (key : List Byte) (ins : Bool) (fuel : Nat)
    (hrep : Rep h none t) (hnd : t.addrs.Nodup) (hblack : t.color = .BLACK)
    (hfuel : 2 * t.depth + 3 ≤ fuel) :
    ∃ h2, rbt_insert fuel h t.root key.length key ins =
        .ok (h2, (insertTree key h.length t).root, insertFlag key t ins) ∧
      Rep h2 none (insertTree key h.length t) ∧ h2.length = h.length + 1 ∧
      (∀ a, a < h.length → a ∉ t.addrs → h2[a]? = h[a]?) ∧
      (insertFlag key t ins = false → ∀ a, a < h.length → h2[a]? = h[a]?) := by
  cases t with
  | nil =>
    refine ⟨h ++ [⟨key.length, none, none, none, .BLACK, key⟩], ?_, ?_, ?_, ?_, ?_⟩
    · simp [rbt_insert, rbt_alloc, insertTree, insertFlag, pure, Except.pure]
    · simp [insertTree, Rep_node]
    · simp
    · intro a ha _
      exact List.getElem?_append_left ha
    · intro _ a ha
      exact List.getElem?_append_left ha
  | node c l a k r =>
    have hrep1 := hrep.append [⟨key.length, none, none, none, .RED, key⟩]
    have hloop := rbt_insert_loop_spec key h.length (.node c l a k r) .top _ fuel (by simp)
      hrep1 (by omega)
    simp only [Tree.root_node] at hloop
    cases hd : descend key (.node c l a k r) .top with
    | none =>
      refine ⟨h ++ [⟨key.length, none, none, none, .RED, key⟩], ?_, ?_, by simp, ?_, ?_⟩
      · simp [rbt_insert, rbt_alloc, hloop, hd, insertTree, insertFlag, bind, Except.bind, pure,
          Except.pure]
      · simpa [insertTree, hd] using hrep1
      · intro b hb _
        exact List.getElem?_append_left hb
      · intro _ b hb
        exact List.getElem?_append_left hb
    | some ctx2 =>
      have hplug := descend_plug hd
      simp only [Ctx.plug] at hplug
      have hne : ctx2 ≠ .top := by
        rintro rfl
        simp [Ctx.plug] at hplug
      have hlt := hrep.lt_length
      have hperm := Ctx.addrs_plug ctx2 .nil
      rw [hplug] at hperm
      simp only [Tree.addrs_nil, List.nil_append] at hperm
      have hnw : h.length ∉ ctx2.addrs := by
        intro hm
        exact Nat.lt_irrefl _ (hlt _ (hperm.mem_iff.mpr hm))
      have hcnd : ctx2.addrs.Nodup := hperm.nodup_iff.mp hnd
      have hc : RepCtx (h ++ [⟨key.length, none, none, none, .RED, key⟩]) ctx2 none := by
        have := hrep1
        rw [← hplug] at this
        exact (rep_plug.mp this).1
      have hrep2 : Rep ((attachSlot (h ++ [⟨key.length, none, none, none, .RED, key⟩]) ctx2
            (some h.length)).set h.length ⟨key.length, none, none, ctx2.parent, .RED, key⟩) none
          (ctx2.plug (leaf h.length key)) := by
        refine rep_plug.mpr ⟨hc.attach hcnd hnw _ _, ?_⟩
        simp only [leaf, Rep_node, Rep_nil, Tree.root_nil, and_true]
        rw [heap_get_set, if_pos rfl, attachSlot_frame _ _ _ _ hnw]
        simp
      have hnd2 : (ctx2.plug (leaf h.length key)).addrs.Nodup := by
        rw [Ctx.nodup_plug]
        simp only [leaf, Tree.addrs_node, Tree.addrs_nil, List.nil_append, List.singleton_append,
          List.nodup_cons]
        exact ⟨hnw, hcnd⟩
      have htop : ctx2.topColor = .BLACK := by
        rw [← Ctx.plug_color ctx2 hne .nil, hplug]
        exact hblack
      have hdep := descend_depth hd
      simp only [Ctx.depth, Nat.zero_add] at hdep
      obtain ⟨h2, e, hr2, hlen, hf⟩ := insert_case1_spec ctx2.depth ctx2 rfl _ fuel .RED .nil
        h.length key .nil hrep2 hnd2 htop (by omega)
      obtain ⟨ra, -, hra⟩ := Ctx.plug_root_mem ctx2 hne
      have hroot : (ctx2.plug (leaf h.length key)).root = some a := by
        have h1 := hra (leaf h.length key)
        have h2 := hra .nil
        rw [hplug] at h2
        rw [h1, ← h2]
        rfl
      simp only [leaf] at hroot
      rw [hroot] at e
      refine ⟨h2, ?_, ?_, ?_, ?_, ?_⟩
      · simp [rbt_insert, rbt_alloc, hloop, hd, insertTree, insertFlag, bind, Except.bind, pure,
          Except.pure, store, attachSlot_length, heap_get_set, attachSlot_frame _ _ _ _ hnw]
        simp only [leaf] at e ⊢
        simp [e]
      · simpa [insertTree, hd] using hr2
      · simpa [attachSlot_length] using hlen
      · intro b hb hbt
        rw [hf b ?_]
        · rw [heap_get_set, if_neg (Nat.ne_of_lt hb), attachSlot_frame]
          · exact List.getElem?_append_left hb
          · intro hm
            exact hbt (hperm.mem_iff.mpr hm)
        · rw [Ctx.mem_plug, not_or]
          refine ⟨?_, fun hm => hbt (hperm.mem_iff.mpr hm)⟩
          simp only [leaf, Tree.addrs_node, Tree.addrs_nil, List.nil_append, List.mem_singleton]
          exact Nat.ne_of_lt hb
      · intro hfl
        simp [insertFlag, hd] at hfl

/-! ## The fixup on trees: equations -/

@[simp]
theorem Tree.keys_nil : Tree.nil.keys = [] := rfl
@[simp]
theorem Tree.keys_node (c : Color) (l : Tree) (a : Nat) (k : List Byte) (r : Tree) :
    (Tree.node c l a k r).keys = l.keys ++ k :: r.keys := rfl

theorem fixup_top (t : Tree) : fixup .top t = t.blacken := by
  simp [fixup]

theorem fixup_LL_red (p g ua : Nat) (kp kg uk : List Byte) (s ul ur t : Tree) (cg : Color)
    (up2 : Ctx) :
    fixup (.left .RED p kp s (.left cg g kg (.node .RED ul ua uk ur) up2)) t =
      fixup up2 (.node .RED (.node .BLACK t p kp s) g kg (.node .BLACK ul ua uk ur)) := by
  simp [fixup]

theorem fixup_LR_red (p g ua : Nat) (kp kg uk : List Byte) (s ul ur t : Tree) (cg : Color)
    (up2 : Ctx) :
    fixup (.right .RED s p kp (.left cg g kg (.node .RED ul ua uk ur) up2)) t =
      fixup up2 (.node .RED (.node .BLACK s p kp t) g kg (.node .BLACK ul ua uk ur)) := by
  simp [fixup]

theorem fixup_RL_red (p g ua : Nat) (kp kg uk : List Byte) (s ul ur t : Tree) (cg : Color)
    (up2 : Ctx) :
    fixup (.left .RED p kp s (.right cg (.node .RED ul ua uk ur) g kg up2)) t =
      fixup up2 (.node .RED (.node .BLACK ul ua uk ur) g kg (.node .BLACK t p kp s)) := by
  simp [fixup]

theorem fixup_RR_red (p g ua : Nat) (kp kg uk : List Byte) (s ul ur t : Tree) (cg : Color)
    (up2 : Ctx) :
    fixup (.right .RED s p kp (.right cg (.node .RED ul ua uk ur) g kg up2)) t =
      fixup up2 (.node .RED (.node .BLACK ul ua uk ur) g kg (.node .BLACK s p kp t)) := by
  simp [fixup]

theorem fixup_LL_rot (p g : Nat) (kp kg : List Byte) (s u t : Tree) (cg : Color) (up2 : Ctx)
    (hu : ¬ ∃ ul ua uk ur, u = .node .RED ul ua uk ur) :
    fixup (.left .RED p kp s (.left cg g kg u up2)) t =
      up2.plug (.node .BLACK t p kp (.node .RED s g kg u)) := by
  rcases Tree.not_red_cases hu with rfl | ⟨ul, ua2, uk, ur, rfl⟩ <;> simp [fixup]

theorem fixup_RR_rot (p g : Nat) (kp kg : List Byte) (s u t : Tree) (cg : Color) (up2 : Ctx)
    (hu : ¬ ∃ ul ua uk ur, u = .node .RED ul ua uk ur) :
    fixup (.right .RED s p kp (.right cg u g kg up2)) t =
      up2.plug (.node .BLACK (.node .RED u g kg s) p kp t) := by
  rcases Tree.not_red_cases hu with rfl | ⟨ul, ua2, uk, ur, rfl⟩ <;> simp [fixup]

theorem fixup_LR_rot (p g n : Nat) (kp kg k : List Byte) (s u l r : Tree) (cg cn : Color)
    (up2 : Ctx) (hu : ¬ ∃ ul ua uk ur, u = .node .RED ul ua uk ur) :
    fixup (.right .RED s p kp (.left cg g kg u up2)) (.node cn l n k r) =
      up2.plug (.node .BLACK (.node .RED s p kp l) n k (.node .RED r g kg u)) := by
  rcases Tree.not_red_cases hu with rfl | ⟨ul, ua2, uk, ur, rfl⟩ <;> simp [fixup]

theorem fixup_RL_rot (p g n : Nat) (kp kg k : List Byte) (s u l r : Tree) (cg cn : Color)
    (up2 : Ctx) (hu : ¬ ∃ ul ua uk ur, u = .node .RED ul ua uk ur) :
    fixup (.left .RED p kp s (.right cg u g kg up2)) (.node cn l n k r) =
      up2.plug (.node .BLACK (.node .RED u g kg l) n k (.node .RED r p kp s)) := by
  rcases Tree.not_red_cases hu with rfl | ⟨ul, ua2, uk, ur, rfl⟩ <;> simp [fixup]

/-- Case analysis and induction along the fixup, for a working subtree that
is a node. -/
theorem fixup_cases (motive : Ctx → Tree → Prop)
    (top : ∀ t, motive .top t)
    (lblack : ∀ p kp s up t, motive (.left .BLACK p kp s up) t)
    (rblack : ∀ p kp s up t, motive (.right .BLACK s p kp up) t)
    (lredtop : ∀ p kp s t, motive (.left .RED p kp s .top) t)
    (rredtop : ∀ p kp s t, motive (.right .RED s p kp .top) t)
    (llred : ∀ p g ua kp kg uk s ul ur cg up2 t,
      motive up2 (.node .RED (.node .BLACK t p kp s) g kg (.node .BLACK ul ua uk ur)) →
      motive (.left .RED p kp s (.left cg g kg (.node .RED ul ua uk ur) up2)) t)
    (lrred : ∀ p g ua kp kg uk s ul ur cg up2 t,
      motive up2 (.node .RED (.node .BLACK s p kp t) g kg (.node .BLACK ul ua uk ur)) →
      motive (.right .RED s p kp (.left cg g kg (.node .RED ul ua uk ur) up2)) t)
    (rlred : ∀ p g ua kp kg uk s ul ur cg up2 t,
      motive up2 (.node .RED (.node .BLACK ul ua uk ur) g kg (.node .BLACK t p kp s)) →
      motive (.left .RED p kp s (.right cg (.node .RED ul ua uk ur) g kg up2)) t)
    (rrred : ∀ p g ua kp kg uk s ul ur cg up2 t,
      motive up2 (.node .RED (.node .BLACK ul ua uk ur) g kg (.node .BLACK s p kp t)) →
      motive (.right .RED s p kp (.right cg (.node .RED ul ua uk ur) g kg up2)) t)
    (llrot : ∀ p g kp kg s u cg up2 t, (¬ ∃ ul ua uk ur, u = .node .RED ul ua uk ur) →
      motive (.left .RED p kp s (.left cg g kg u up2)) t)
    (lrrot : ∀ p g kp kg s u cg up2 t, (¬ ∃ ul ua uk ur, u = .node .RED ul ua uk ur) →
      motive (.right .RED s p kp (.left cg g kg u up2)) t)
    (rlrot : ∀ p g kp kg s u cg up2 t, (¬ ∃ ul ua uk ur, u = .node .RED ul ua uk ur) →
      motive (.left .RED p kp s (.right cg u g kg up2)) t)
    (rrrot : ∀ p g kp kg s u cg up2 t, (¬ ∃ ul ua uk ur, u = .node .RED ul ua uk ur) →
      motive (.right .RED s p kp (.right cg u g kg up2)) t) :
    ∀ ctx t, motive ctx t := by
  suffices hmain : ∀ (d : Nat) (ctx : Ctx), ctx.depth = d → ∀ t, motive ctx t from
    fun ctx t => hmain ctx.depth ctx rfl t
  intro d
  induction d using Nat.strong_induction_on with
  | _ d ih =>
  intro ctx hd t
  cases ctx with
  | top => exact top t
  | left cp p kp s up =>
    cases cp with
    | BLACK => exact lblack _ _ _ _ _
    | RED =>
      cases up with
      | top => exact lredtop _ _ _ _
      | left cg g kg u up2 =>
        by_cases hu : ∃ ul ua uk ur, u = .node .RED ul ua uk ur
        · obtain ⟨ul, ua, uk, ur, rfl⟩ := hu
          exact llred _ _ _ _ _ _ _ _ _ _ _ _
            (ih up2.depth (by simp [Ctx.depth] at hd; omega) up2 rfl _)
        · exact llrot _ _ _ _ _ _ _ _ _ hu
      | right cg u g kg up2 =>
        by_cases hu : ∃ ul ua uk ur, u = .node .RED ul ua uk ur
        · obtain ⟨ul, ua, uk, ur, rfl⟩ := hu
          exact rlred _ _ _ _ _ _ _ _ _ _ _ _
            (ih up2.depth (by simp [Ctx.depth] at hd; omega) up2 rfl _)
        · exact rlrot _ _ _ _ _ _ _ _ _ hu
  | right cp s p kp up =>
    cases cp with
    | BLACK => exact rblack _ _ _ _ _
    | RED =>
      cases up with
      | top => exact rredtop _ _ _ _
      | left cg g kg u up2 =>
        by_cases hu : ∃ ul ua uk ur, u = .node .RED ul ua uk ur
        · obtain ⟨ul, ua, uk, ur, rfl⟩ := hu
          exact lrred _ _ _ _ _ _ _ _ _ _ _ _
            (ih up2.depth (by simp [Ctx.depth] at hd; omega) up2 rfl _)
        · exact lrrot _ _ _ _ _ _ _ _ _ hu
      | right cg u g kg up2 =>
        by_cases hu : ∃ ul ua uk ur, u = .node .RED ul ua uk ur
        · obtain ⟨ul, ua, uk, ur, rfl⟩ := hu
          exact rrred _ _ _ _ _ _ _ _ _ _ _ _
            (ih up2.depth (by simp [Ctx.depth] at hd; omega) up2 rfl _)
        · exact rrrot _ _ _ _ _ _ _ _ _ hu

/-! ## Keys are preserved -/

theorem Ctx.keys_plug (ctx : Ctx) (t : Tree) :
    (ctx.plug t).keys = ctx.before ++ t.keys ++ ctx.after := by
  induction ctx generalizing t with
  | top => simp [Ctx.plug, Ctx.before, Ctx.after]
  | left c a k r up ih => simp [Ctx.plug, Ctx.before, Ctx.after, ih, List.append_assoc]
  | right c l a k up ih => simp [Ctx.plug, Ctx.before, Ctx.after, ih, List.append_assoc]

theorem Tree.keys_blacken (t : Tree) : t.blacken.keys = t.keys := by
  cases t <;> rfl

theorem fixup_keys : ∀ (ctx : Ctx) (t : Tree), t ≠ .nil →
    (fixup ctx t).keys = (ctx.plug t).keys := by
  refine fixup_cases (fun ctx t => t ≠ .nil → (fixup ctx t).keys = (ctx.plug t).keys)
    ?_ ?_ ?_ ?_ ?_ ?_ ?_ ?_ ?_ ?_ ?_ ?_ ?_
  · intro t _
    rw [fixup_top, Tree.keys_blacken]; rfl
  · intro p kp s up t _
    rw [fixup_left_black]
  · intro p kp s up t _
    rw [fixup_right_black]
  · intro p kp s t _
    simp [fixup]
  · intro p kp s t _
    simp [fixup]
  · intro p g ua kp kg uk s ul ur cg up2 t ih _
    rw [fixup_LL_red, ih (by simp)]
    simp [Ctx.plug, Ctx.keys_plug]
  · intro p g ua kp kg uk s ul ur cg up2 t ih _
    rw [fixup_LR_red, ih (by simp)]
    simp [Ctx.plug, Ctx.keys_plug]
  · intro p g ua kp kg uk s ul ur cg up2 t ih _
    rw [fixup_RL_red, ih (by simp)]
    simp [Ctx.plug, Ctx.keys_plug]
  · intro p g ua kp kg uk s ul ur cg up2 t ih _
    rw [fixup_RR_red, ih (by simp)]
    simp [Ctx.plug, Ctx.keys_plug]
  · intro p g kp kg s u cg up2 t hu _
    rw [fixup_LL_rot _ _ _ _ _ _ _ _ _ hu]
    simp [Ctx.plug, Ctx.keys_plug]
  · intro p g kp kg s u cg up2 t hu ht
    cases t with
    | nil => exact absurd rfl ht
    | node cn l n k r =>
      rw [fixup_LR_rot _ _ _ _ _ _ _ _ _ _ _ _ _ hu]
      simp [Ctx.plug, Ctx.keys_plug]
  · intro p g kp kg s u cg up2 t hu ht
    cases t with
    | nil => exact absurd rfl ht
    | node cn l n k r =>
      rw [fixup_RL_rot _ _ _ _ _ _ _ _ _ _ _ _ _ hu]
      simp [Ctx.plug, Ctx.keys_plug]
  · intro p g kp kg s u cg up2 t hu _
    rw [fixup_RR_rot _ _ _ _ _ _ _ _ _ hu]
    simp [Ctx.plug, Ctx.keys_plug]

/-! ## The fixup restores the colour invariants -/

@[simp]
theorem Tree.color_nil : Tree.nil.color = .BLACK := rfl
@[simp]
theorem Tree.color_node (c : Color) (l : Tree) (a : Nat) (k : List Byte) (r : Tree) :
    (Tree.node c l a k r).color = c := rfl
@[simp]
theorem Tree.bheight_nil : Tree.nil.bheight = 0 := rfl
@[simp]
theorem Tree.bheight_node (c : Color) (l : Tree) (a : Nat) (k : List Byte) (r : Tree) :
    (Tree.node c l a k r).bheight = l.bheight + (if c = .BLACK then 1 else 0) := rfl
@[simp]
theorem Tree.balanced_nil : Tree.nil.balanced = True := rfl
@[simp]
theorem Tree.balanced_node (c : Color) (l : Tree) (a : Nat) (k : List Byte) (r : Tree) :
    (Tree.node c l a k r).balanced = (l.bheight = r.bheight ∧ l.balanced ∧ r.balanced) := rfl
@[simp]
theorem Tree.noRedRed_nil : Tree.nil.noRedRed = True := rfl
@[simp]
theorem Tree.noRedRed_node (c : Color) (l : Tree) (a : Nat) (k : List Byte) (r : Tree) :
    (Tree.node c l a k r).noRedRed =
      ((c = .RED → l.color = .BLACK ∧ r.color = .BLACK) ∧ l.noRedRed ∧ r.noRedRed) := rfl

theorem Color.eq_black_of_ne_red {c : Color} (h : c ≠ .RED) : c = .BLACK := by
  cases c
  · exact absurd rfl h
  · rfl

theorem Tree.color_of_not_red {u : Tree} (hu : ¬ ∃ ul ua uk ur, u = .node .RED ul ua uk ur) :
    u.color = .BLACK := by
  rcases Tree.not_red_cases hu with rfl | ⟨ul, ua, uk, ur, rfl⟩ <;> rfl

theorem balanced_plug {ctx : Ctx} {T : Tree} :
    (ctx.plug T).balanced ↔ T.balanced ∧ ctx.balancedAt T.bheight := by
  induction ctx generalizing T with
  | top => simp [Ctx.plug, Ctx.balancedAt]
  | left c a k r up ih =>
    simp only [Ctx.plug, ih, Ctx.balancedAt, Tree.balanced_node, Tree.bheight_node]
    tauto
  | right c l a k up ih =>
    simp only [Ctx.plug, ih, Ctx.balancedAt, Tree.balanced_node, Tree.bheight_node]
    constructor
    · rintro ⟨⟨h1, h2, h3⟩, h4⟩
      exact ⟨h3, h1, h2, h1 ▸ h4⟩
    · rintro ⟨h3, h1, h2, h4⟩
      exact ⟨⟨h1, h2, h3⟩, h1 ▸ h4⟩

theorem noRedRed_plug {ctx : Ctx} {T : Tree} :
    (ctx.plug T).noRedRed ↔ T.noRedRed ∧ ctx.noRedRedAt T.color := by
  induction ctx generalizing T with
  | top => simp [Ctx.plug, Ctx.noRedRedAt]
  | left c a k r up ih =>
    simp only [Ctx.plug, ih, Ctx.noRedRedAt, Tree.noRedRed_node, Tree.color_node]
    tauto
  | right c l a k up ih =>
    simp only [Ctx.plug, ih, Ctx.noRedRedAt, Tree.noRedRed_node, Tree.color_node]
    tauto

theorem Ctx.plug_color_black (ctx : Ctx) {T : Tree} (htop : ctx.topColor = .BLACK)
    (hT : T.color = .BLACK) : (ctx.plug T).color = .BLACK := by
  by_cases hc : ctx = .top
  · subst hc; exact hT
  · rw [Ctx.plug_color ctx hc]; exact htop

set_option linter.unusedTactic false in
set_option linter.unreachableTactic false in
set_option linter.unnecessarySeqFocus false in
theorem fixup_rb : ∀ (ctx : Ctx) (t : Tree), t.color = .RED → t.balanced →
    ctx.balancedAt t.bheight → t.noRedRed → ctx.noRedRedAt .BLACK → ctx.topColor = .BLACK →
    (fixup ctx t).balanced ∧ (fixup ctx t).noRedRed ∧ (fixup ctx t).color = .BLACK := by
  refine fixup_cases (fun ctx t => t.color = .RED → t.balanced →
    ctx.balancedAt t.bheight → t.noRedRed → ctx.noRedRedAt .BLACK → ctx.topColor = .BLACK →
    (fixup ctx t).balanced ∧ (fixup ctx t).noRedRed ∧ (fixup ctx t).color = .BLACK)
    ?_ ?_ ?_ ?_ ?_ ?_ ?_ ?_ ?_ ?_ ?_ ?_ ?_
  · intro t hc hb _ hn _ _
    rw [fixup_top]
    cases t with
    | nil => simp at hc
    | node c l a k r =>
      simp only [Tree.blacken, Tree.balanced_node, Tree.noRedRed_node, Tree.color_node] at *
      tauto
  · intro p kp s up t hc hb hbA hn hnA htop
    rw [fixup_left_black]
    refine ⟨balanced_plug.mpr ⟨hb, hbA⟩, noRedRed_plug.mpr ⟨hn, ?_⟩,
      (Ctx.plug_color _ (by simp) _).trans htop⟩
    simp only [Ctx.noRedRedAt] at hnA ⊢
    exact ⟨by simp, hnA.2⟩
  · intro p kp s up t hc hb hbA hn hnA htop
    rw [fixup_right_black]
    refine ⟨balanced_plug.mpr ⟨hb, hbA⟩, noRedRed_plug.mpr ⟨hn, ?_⟩,
      (Ctx.plug_color _ (by simp) _).trans htop⟩
    simp only [Ctx.noRedRedAt] at hnA ⊢
    exact ⟨by simp, hnA.2⟩
  · intro p kp s t _ _ _ _ _ htop
    simp [Ctx.topColor] at htop
  · intro p kp s t _ _ _ _ _ htop
    simp [Ctx.topColor] at htop
  · intro p g ua kp kg uk s ul ur cg up2 t ih hc hb hbA hn hnA htop
    rw [fixup_LL_red]
    simp only [Ctx.balancedAt, Ctx.noRedRedAt, Tree.balanced_node, Tree.bheight_node,
      Tree.noRedRed_node, Tree.color_node] at hbA hnA
    have hcg : cg = .BLACK := Color.eq_black_of_ne_red (fun e => by simp [e] at hnA)
    subst hcg
    refine ih rfl ?_ ?_ ?_ ?_ (Ctx.topColor_up_left (Ctx.topColor_up_left htop))
    · simp only [Tree.balanced_node, Tree.bheight_node]; simp at hbA ⊢; casesm* _ ∧ _; (repeat' apply And.intro) <;> first | assumption | omega | (convert ‹Ctx.balancedAt up2 _› using 1; omega) | tauto
    · simp only [Tree.bheight_node]; simp at hbA ⊢; casesm* _ ∧ _; (repeat' apply And.intro) <;> first | assumption | omega | (convert ‹Ctx.balancedAt up2 _› using 1; omega) | tauto
    · simp only [Tree.noRedRed_node, Tree.color_node]; simp at hnA ⊢; tauto
    · tauto
  · intro p g ua kp kg uk s ul ur cg up2 t ih hc hb hbA hn hnA htop
    rw [fixup_LR_red]
    simp only [Ctx.balancedAt, Ctx.noRedRedAt, Tree.balanced_node, Tree.bheight_node,
      Tree.noRedRed_node, Tree.color_node] at hbA hnA
    have hcg : cg = .BLACK := Color.eq_black_of_ne_red (fun e => by simp [e] at hnA)
    subst hcg
    refine ih rfl ?_ ?_ ?_ ?_ (Ctx.topColor_up_left (Ctx.topColor_up_right htop))
    · simp only [Tree.balanced_node, Tree.bheight_node]; simp at hbA ⊢; casesm* _ ∧ _; (repeat' apply And.intro) <;> first | assumption | omega | (convert ‹Ctx.balancedAt up2 _› using 1; omega) | tauto
    · simp only [Tree.bheight_node]; simp at hbA ⊢; casesm* _ ∧ _; (repeat' apply And.intro) <;> first | assumption | omega | (convert ‹Ctx.balancedAt up2 _› using 1; omega) | tauto
    · simp only [Tree.noRedRed_node, Tree.color_node]; simp at hnA ⊢; tauto
    · tauto
  · intro p g ua kp kg uk s ul ur cg up2 t ih hc hb hbA hn hnA htop
    rw [fixup_RL_red]
    simp only [Ctx.balancedAt, Ctx.noRedRedAt, Tree.balanced_node, Tree.bheight_node,
      Tree.noRedRed_node, Tree.color_node] at hbA hnA
    have hcg : cg = .BLACK := Color.eq_black_of_ne_red (fun e => by simp [e] at hnA)
    subst hcg
    refine ih rfl ?_ ?_ ?_ ?_ (Ctx.topColor_up_right (Ctx.topColor_up_left htop))
    · simp only [Tree.balanced_node, Tree.bheight_node]; simp at hbA ⊢; casesm* _ ∧ _; (repeat' apply And.intro) <;> first | assumption | omega | (convert ‹Ctx.balancedAt up2 _› using 1; omega) | tauto
    · simp only [Tree.bheight_node]; simp at hbA ⊢; casesm* _ ∧ _; (repeat' apply And.intro) <;> first | assumption | omega | (convert ‹Ctx.balancedAt up2 _› using 1; omega) | tauto
    · simp only [Tree.noRedRed_node, Tree.color_node]; simp at hnA ⊢; tauto
    · tauto
  · intro p g ua kp kg uk s ul ur cg up2 t ih hc hb hbA hn hnA htop
    rw [fixup_RR_red]
    simp only [Ctx.balancedAt, Ctx.noRedRedAt, Tree.balanced_node, Tree.bheight_node,
      Tree.noRedRed_node, Tree.color_node] at hbA hnA
    have hcg : cg = .BLACK := Color.eq_black_of_ne_red (fun e => by simp [e] at hnA)
    subst hcg
    refine ih rfl ?_ ?_ ?_ ?_ (Ctx.topColor_up_right (Ctx.topColor_up_right htop))
    · simp only [Tree.balanced_node, Tree.bheight_node]; simp at hbA ⊢; casesm* _ ∧ _; (repeat' apply And.intro) <;> first | assumption | omega | (convert ‹Ctx.balancedAt up2 _› using 1; omega) | tauto
    · simp only [Tree.bheight_node]; simp at hbA ⊢; casesm* _ ∧ _; (repeat' apply And.intro) <;> first | assumption | omega | (convert ‹Ctx.balancedAt up2 _› using 1; omega) | tauto
    · simp only [Tree.noRedRed_node, Tree.color_node]; simp at hnA ⊢; tauto
    · tauto
  · intro p g kp kg s u cg up2 t hu hc hb hbA hn hnA htop
    rw [fixup_LL_rot _ _ _ _ _ _ _ _ _ hu]
    simp only [Ctx.balancedAt, Ctx.noRedRedAt, Tree.balanced_node, Tree.bheight_node,
      Tree.noRedRed_node, Tree.color_node] at hbA hnA hb hn
    have hcg : cg = .BLACK := Color.eq_black_of_ne_red (fun e => by simp [e] at hnA)
    subst hcg
    have huc := Tree.color_of_not_red hu
    refine ⟨balanced_plug.mpr ⟨?_, ?_⟩, noRedRed_plug.mpr ⟨?_, ?_⟩,
      Ctx.plug_color_black up2 (Ctx.topColor_up_left (Ctx.topColor_up_left htop)) rfl⟩
    · simp only [Tree.balanced_node, Tree.bheight_node]; simp at hbA hb ⊢; casesm* _ ∧ _; (repeat' apply And.intro) <;> first | assumption | omega | (convert ‹Ctx.balancedAt up2 _› using 1; omega) | tauto
    · simp only [Tree.bheight_node]; simp at hbA hb ⊢; casesm* _ ∧ _; (repeat' apply And.intro) <;> first | assumption | omega | (convert ‹Ctx.balancedAt up2 _› using 1; omega) | tauto
    · simp only [Tree.noRedRed_node, Tree.color_node]; simp at hnA hn ⊢; tauto
    · simp only [Tree.color_node]; tauto
  · intro p g kp kg s u cg up2 t hu hc hb hbA hn hnA htop
    cases t with
    | nil => simp at hc
    | node cn l n k r =>
    simp only [Tree.color_node] at hc
    subst hc
    rw [fixup_LR_rot _ _ _ _ _ _ _ _ _ _ _ _ _ hu]
    simp only [Ctx.balancedAt, Ctx.noRedRedAt, Tree.balanced_node, Tree.bheight_node,
      Tree.noRedRed_node, Tree.color_node] at hbA hnA hb hn
    have hcg : cg = .BLACK := Color.eq_black_of_ne_red (fun e => by simp [e] at hnA)
    subst hcg
    have huc := Tree.color_of_not_red hu
    refine ⟨balanced_plug.mpr ⟨?_, ?_⟩, noRedRed_plug.mpr ⟨?_, ?_⟩,
      Ctx.plug_color_black up2 (Ctx.topColor_up_left (Ctx.topColor_up_right htop)) rfl⟩
    · simp only [Tree.balanced_node, Tree.bheight_node]; simp at hbA hb ⊢; casesm* _ ∧ _; (repeat' apply And.intro) <;> first | assumption | omega | (convert ‹Ctx.balancedAt up2 _› using 1; omega) | tauto
    · simp only [Tree.bheight_node]; simp at hbA hb ⊢; casesm* _ ∧ _; (repeat' apply And.intro) <;> first | assumption | omega | (convert ‹Ctx.balancedAt up2 _› using 1; omega) | tauto
    · simp only [Tree.noRedRed_node, Tree.color_node]; simp at hnA hn ⊢; tauto
    · simp only [Tree.color_node]; tauto
  · intro p g kp kg s u cg up2 t hu hc hb hbA hn hnA htop
    cases t with
    | nil => simp at hc
    | node cn l n k r =>
    simp only [Tree.color_node] at hc
    subst hc
    rw [fixup_RL_rot _ _ _ _ _ _ _ _ _ _ _ _ _ hu]
    simp only [Ctx.balancedAt, Ctx.noRedRedAt, Tree.balanced_node, Tree.bheight_node,
      Tree.noRedRed_node, Tree.color_node] at hbA hnA hb hn
    have hcg : cg = .BLACK := Color.eq_black_of_ne_red (fun e => by simp [e] at hnA)
    subst hcg
    have huc := Tree.color_of_not_red hu
    refine ⟨balanced_plug.mpr ⟨?_, ?_⟩, noRedRed_plug.mpr ⟨?_, ?_⟩,
      Ctx.plug_color_black up2 (Ctx.topColor_up_right (Ctx.topColor_up_left htop)) rfl⟩
    · simp only [Tree.balanced_node, Tree.bheight_node]; simp at hbA hb ⊢; casesm* _ ∧ _; (repeat' apply And.intro) <;> first | assumption | omega | (convert ‹Ctx.balancedAt up2 _› using 1; omega) | tauto
    · simp only [Tree.bheight_node]; simp at hbA hb ⊢; casesm* _ ∧ _; (repeat' apply And.intro) <;> first | assumption | omega | (convert ‹Ctx.balancedAt up2 _› using 1; omega) | tauto
    · simp only [Tree.noRedRed_node, Tree.color_node]; simp at hnA hn ⊢; tauto
    · simp only [Tree.color_node]; tauto
  · intro p g kp kg s u cg up2 t hu hc hb hbA hn hnA htop
    rw [fixup_RR_rot _ _ _ _ _ _ _ _ _ hu]
    simp only [Ctx.balancedAt, Ctx.noRedRedAt, Tree.balanced_node, Tree.bheight_node,
      Tree.noRedRed_node, Tree.color_node] at hbA hnA hb hn
    have hcg : cg = .BLACK := Color.eq_black_of_ne_red (fun e => by simp [e] at hnA)
    subst hcg
    have huc := Tree.color_of_not_red hu
    refine ⟨balanced_plug.mpr ⟨?_, ?_⟩, noRedRed_plug.mpr ⟨?_, ?_⟩,
      Ctx.plug_color_black up2 (Ctx.topColor_up_right (Ctx.topColor_up_right htop)) rfl⟩
    · simp only [Tree.balanced_node, Tree.bheight_node]; simp at hbA hb ⊢; casesm* _ ∧ _; (repeat' apply And.intro) <;> first | assumption | omega | (convert ‹Ctx.balancedAt up2 _› using 1; omega) | tauto
    · simp only [Tree.bheight_node]; simp at hbA hb ⊢; casesm* _ ∧ _; (repeat' apply And.intro) <;> first | assumption | omega | (convert ‹Ctx.balancedAt up2 _› using 1; omega) | tauto
    · simp only [Tree.noRedRed_node, Tree.color_node]; simp at hnA hn ⊢; tauto
    · simp only [Tree.color_node]; tauto

/-! ## Ordering -/

theorem Tree.ordered_iff (t : Tree) : t.ordered ↔ t.keys.Pairwise keyLt := by
  induction t with
  | nil => simp [Tree.ordered]
  | node c l a k r ihl ihr =>
    simp only [Tree.ordered, Tree.keys_node, List.pairwise_append, List.pairwise_cons, ihl, ihr,
      List.mem_cons]
    constructor
    · rintro ⟨h1, h2, h3, h4⟩
      refine ⟨h3, ⟨h2, h4⟩, ?_⟩
      intro x hx y hy
      rcases hy with rfl | hy
      · exact h1 x hx
      · exact keyLt_trans (h1 x hx) (h2 y hy)
    · rintro ⟨h3, ⟨h2, h4⟩, h5⟩
      exact ⟨fun x hx => h5 x hx k (Or.inl rfl), h2, h3, h4⟩

theorem descend_bounds {key : List Byte} {sub : Tree} {ctx ctx2 : Ctx}
    (h : descend key sub ctx = some ctx2) (hb : ∀ x ∈ ctx.before, keyLt x key)
    (ha : ∀ x ∈ ctx.after, keyLt key x) (ho : sub.ordered) :
    (∀ x ∈ ctx2.before, keyLt x key) ∧ (∀ x ∈ ctx2.after, keyLt key x) := by
  induction sub generalizing ctx with
  | nil =>
    simp only [descend, Option.some.injEq] at h
    subst h
    exact ⟨hb, ha⟩
  | node c l a k r ihl ihr =>
    obtain ⟨h1, h2, h3, h4⟩ := ho
    simp only [descend] at h
    split_ifs at h with h0 hlt
    · refine ihl h hb ?_ h3
      intro x hx
      simp only [Ctx.after, List.cons_append, List.mem_cons, List.mem_append] at hx
      rcases hx with rfl | hx | hx
      · exact hlt
      · exact keyLt_trans hlt (h2 x hx)
      · exact ha x hx
    · have hgt : keyLt k key := keyLt_of_not h0 hlt
      refine ihr h ?_ ha h4
      intro x hx
      simp only [Ctx.before, List.mem_append, List.mem_singleton] at hx
      rcases hx with (hx | hx) | rfl
      · exact hb x hx
      · exact keyLt_trans (h1 x hx) hgt
      · exact hgt

theorem descend_none_mem {key : List Byte} {sub : Tree} {ctx : Ctx}
    (h : descend key sub ctx = none) : key ∈ sub.keys := by
  induction sub generalizing ctx with
  | nil => simp [descend] at h
  | node c l a k r ihl ihr =>
    simp only [descend] at h
    split_ifs at h with h0 hlt
    · simp [(cmpKey_eq_zero key k).mp h0]
    · simp [ihl h]
    · simp [ihr h]

/-- Where the descent attaches the key: the in-order keys split around it. -/
theorem descend_some_keys {key : List Byte} {t : Tree} {ctx2 : Ctx}
    (h : descend key t .top = some ctx2) (ho : t.ordered) (nw : Nat) :
    t.keys = ctx2.before ++ ctx2.after ∧
      (ctx2.plug (leaf nw key)).keys = ctx2.before ++ key :: ctx2.after ∧
      (ctx2.plug (leaf nw key)).keys.Pairwise keyLt ∧ key ∉ t.keys := by
  obtain ⟨hb, ha⟩ := descend_bounds h (by simp [Ctx.before]) (by simp [Ctx.after]) ho
  have hk : t.keys = ctx2.before ++ ctx2.after := by
    have := Ctx.keys_plug ctx2 .nil
    rw [descend_plug h] at this
    simpa [Ctx.plug] using this
  have hk2 : (ctx2.plug (leaf nw key)).keys = ctx2.before ++ key :: ctx2.after := by
    simp [Ctx.keys_plug, leaf]
  have hp := (Tree.ordered_iff t).mp ho
  rw [hk, List.pairwise_append] at hp
  refine ⟨hk, hk2, ?_, ?_⟩
  · rw [hk2, List.pairwise_append, List.pairwise_cons]
    refine ⟨hp.1, ⟨ha, hp.2.1⟩, ?_⟩
    intro x hx y hy
    rcases List.mem_cons.mp hy with rfl | hy
    · exact hb x hx
    · exact hp.2.2 x hx y hy
  · rw [hk, List.mem_append]
    rintro (hm | hm)
    · exact keyLt_irrefl key (hb key hm)
    · exact keyLt_irrefl key (ha key hm)

/-! ## Black paths -/

theorem Tree.bheight_mem_blackPaths (t : Tree) : t.bheight ∈ t.blackPaths := by
  induction t with
  | nil => simp [Tree.blackPaths]
  | node c l a k r ihl ihr =>
    simp only [Tree.blackPaths, Tree.bheight_node, List.mem_map, List.mem_append]
    exact ⟨l.bheight, Or.inl ihl, rfl⟩

theorem Tree.blackPaths_of_balanced {t : Tree} (hb : t.balanced) :
    ∀ x ∈ t.blackPaths, x = t.bheight := by
  induction t with
  | nil => simp [Tree.blackPaths]
  | node c l a k r ihl ihr =>
    obtain ⟨h1, h2, h3⟩ := hb
    intro x hx
    simp only [Tree.blackPaths, List.mem_map, List.mem_append] at hx
    obtain ⟨y, hy | hy, rfl⟩ := hx
    · rw [ihl h2 y hy]; rfl
    · rw [ihr h3 y hy, ← h1]; rfl

theorem Tree.pathsAgree_iff (t : Tree) : t.pathsAgree ↔ t.balanced := by
  induction t with
  | nil => simp [Tree.pathsAgree]
  | node c l a k r ihl ihr =>
    simp only [Tree.pathsAgree, ihl, ihr, Tree.balanced_node]
    constructor
    · rintro ⟨h1, h2, h3⟩
      refine ⟨?_, h2, h3⟩
      have e := h1 (l.bheight + (if c = .BLACK then 1 else 0))
        (by simp only [Tree.blackPaths, List.mem_map, List.mem_append]
            exact ⟨_, Or.inl l.bheight_mem_blackPaths, rfl⟩)
        (r.bheight + (if c = .BLACK then 1 else 0))
        (by simp only [Tree.blackPaths, List.mem_map, List.mem_append]
            exact ⟨_, Or.inr r.bheight_mem_blackPaths, rfl⟩)
      omega
    · rintro ⟨h1, h2, h3⟩
      refine ⟨?_, h2, h3⟩
      intro x hx y hy
      have hb : (Tree.node c l a k r).balanced := ⟨h1, h2, h3⟩
      rw [Tree.blackPaths_of_balanced hb x hx, Tree.blackPaths_of_balanced hb y hy]

/-! ## `insertTree` keeps the invariants -/

theorem insertTree_keys (key : List Byte) (nw : Nat) {t : Tree} (ho : t.ordered) :
    (insertTree key nw t).keys.Pairwise keyLt ∧
      (∀ x, x ∈ (insertTree key nw t).keys ↔ x = key ∨ x ∈ t.keys) ∧
      (key ∈ t.keys → insertTree key nw t = t) := by
  cases t with
  | nil => simp [insertTree]
  | node c l a k r =>
    cases hd : descend key (.node c l a k r) .top with
    | none =>
      have hm := descend_none_mem hd
      simp only [insertTree, hd]
      refine ⟨(Tree.ordered_iff _).mp ho, ?_, fun _ => trivial⟩
      intro x
      constructor
      · exact Or.inr
      · rintro (rfl | hx)
        · exact hm
        · exact hx
    | some ctx2 =>
      obtain ⟨hk, hk2, hp, hnm⟩ := descend_some_keys hd ho nw
      have hfk := fixup_keys ctx2 (leaf nw key) (by simp [leaf])
      simp only [insertTree, hd]
      rw [hfk]
      refine ⟨hp, ?_, fun hm => absurd hm hnm⟩
      intro x
      rw [hk2, hk]
      simp only [List.mem_append, List.mem_cons]
      tauto

theorem insertFlag_eq (key : List Byte) {t : Tree} (ho : t.ordered) (hne : t ≠ .nil)
    (ins : Bool) : insertFlag key t ins = decide (key ∉ t.keys) := by
  cases t with
  | nil => exact absurd rfl hne
  | node c l a k r =>
    cases hd : descend key (.node c l a k r) .top with
    | none =>
      have hm := descend_none_mem hd
      simp only [insertFlag, hd]
      exact (decide_eq_false (not_not.mpr hm)).symm
    | some ctx2 =>
      obtain ⟨-, -, -, hnm⟩ := descend_some_keys hd ho 0
      simp only [insertFlag, hd]
      exact (decide_eq_true hnm).symm

theorem insertTree_rb (key : List Byte) (nw : Nat) {t : Tree} (hc : t.color = .BLACK)
    (hn : t.noRedRed) (hb : t.balanced) :
    (insertTree key nw t).color = .BLACK ∧ (insertTree key nw t).noRedRed ∧
      (insertTree key nw t).balanced := by
  cases t with
  | nil => simp [insertTree]
  | node c l a k r =>
    cases hd : descend key (.node c l a k r) .top with
    | none =>
      simp only [insertTree, hd]
      exact ⟨hc, hn, hb⟩
    | some ctx2 =>
      have hplug := descend_plug hd
      simp only [Ctx.plug] at hplug
      have hne : ctx2 ≠ .top := by
        rintro rfl
        simp [Ctx.plug] at hplug
      have hb2 := hb
      rw [← hplug, balanced_plug] at hb2
      have hn2 := hn
      rw [← hplug, noRedRed_plug] at hn2
      have htop : ctx2.topColor = .BLACK := by
        rw [← Ctx.plug_color ctx2 hne .nil, hplug]
        exact hc
      have := fixup_rb ctx2 (leaf nw key) rfl (by simp [leaf]) (by simpa [leaf] using hb2.2)
        (by simp [leaf]) (by simpa using hn2.2) htop
      simp only [insertTree, hd]
      exact ⟨this.2.2, this.2.1, this.1⟩

theorem RBInv.of_parts {t : Tree} (ho : t.keys.Pairwise keyLt) (hc : t.color = .BLACK)
    (hn : t.noRedRed) (hb : t.balanced) : RBInv t :=
  ⟨(Tree.ordered_iff t).mpr ho, hc, hn, (Tree.pathsAgree_iff t).mpr hb,
    ho.imp (fun h => by unfold keyLt at h; omega)⟩

theorem insertTree_RBInv (key : List Byte) (nw : Nat) {t : Tree} (h : RBInv t) :
    RBInv (insertTree key nw t) := by
  obtain ⟨hc, hn, hb⟩ := insertTree_rb key nw h.rootBlack h.noRedRed
    ((Tree.pathsAgree_iff t).mp h.pathsAgree)
  exact RBInv.of_parts (insertTree_keys key nw h.ordered).1 hc hn hb

theorem RBInv.nil : RBInv .nil :=
  ⟨trivial, rfl, trivial, trivial, List.Pairwise.nil⟩

/-! ## The validator accepts well-formed trees -/

theorem rbt_validate_invariants_spec {h : Heap} {t : Tree} :
    ∀ {par : Ptr} (fuel : Nat), Rep h par t → t.noRedRed → t.balanced → t.depth < fuel →
      rbt_validate_invariants fuel h t.root = .ok t.bheight := by
  induction t with
  | nil =>
    intro par fuel _ _ _ hf
    obtain ⟨f, rfl⟩ : ∃ f, fuel = f + 1 := ⟨fuel - 1, by omega⟩
    simp [rbt_validate_invariants, pure, Except.pure]
  | node c l a k r ihl ihr =>
    intro par fuel hrep hn hb hf
    obtain ⟨f, rfl⟩ : ∃ f, fuel = f + 1 := ⟨fuel - 1, by omega⟩
    obtain ⟨ha, hl, hr⟩ := hrep
    obtain ⟨hn1, hn2, hn3⟩ := hn
    obtain ⟨hb1, hb2, hb3⟩ := hb
    simp only [Tree.depth] at hf
    have hL := ihl f hl hn2 hb2 (by omega)
    have hR := ihr f hr hn3 hb3 (by omega)
    cases c with
    | BLACK =>
      simp [rbt_validate_invariants, deref, ha, hL, hR, hb1, c_assert, bind, Except.bind, pure,
        Except.pure]
    | RED =>
      obtain ⟨hcl, hcr⟩ := hn1 rfl
      rcases l with _ | ⟨cl, ll, al, kl, rl⟩ <;> rcases r with _ | ⟨cr, lr, ar, kr, rr⟩ <;>
        simp_all [rbt_validate_invariants, deref, c_assert, bind, Except.bind, pure,
          Except.pure, Rep_node]

theorem rbt_compare_nodes_rep {h : Heap} {a b : Nat} {na nb : Node} (ha : h[a]? = some na)
    (hb : h[b]? = some nb) (hsa : na.data_size = na.data.length)
    (hsb : nb.data_size = nb.data.length) :
    rbt_compare_nodes h (some a) (some b) = .ok (cmpKey na.data nb.data) := by
  simp [rbt_compare_nodes, deref, ha, hb, hsa, hsb, bind, Except.bind, pure, Except.pure]

theorem BoundOK.mono {h : Heap} {p : Ptr} {P Q : List Byte → Prop} (hb : BoundOK h p P)
    (hpq : ∀ x, P x → Q x) : BoundOK h p Q := by
  intro m hm
  obtain ⟨nd, h1, h2, h3⟩ := hb m hm
  exact ⟨nd, h1, h2, hpq _ h3⟩

theorem BoundOK.cmp_min {h : Heap} {p : Ptr} {a : Nat} {na : Node} {k : List Byte}
    (hb : BoundOK h p (fun x => keyLt x k)) (ha : h[a]? = some na)
    (hsa : na.data_size = na.data.length) (hk : na.data = k) :
    p = none ∨ (p ≠ none ∧ ∃ v, rbt_compare_nodes h p (some a) = .ok v ∧ v < 0) := by
  cases p with
  | none => exact Or.inl rfl
  | some m =>
    obtain ⟨nd, h1, h2, h3⟩ := hb m rfl
    refine Or.inr ⟨by simp, _, rbt_compare_nodes_rep h1 ha h2 hsa, ?_⟩
    rw [hk]; exact h3

theorem BoundOK.cmp_max {h : Heap} {p : Ptr} {a : Nat} {na : Node} {k : List Byte}
    (hb : BoundOK h p (fun x => keyLt k x)) (ha : h[a]? = some na)
    (hsa : na.data_size = na.data.length) (hk : na.data = k) :
    p = none ∨ (p ≠ none ∧ ∃ v, rbt_compare_nodes h (some a) p = .ok v ∧ v < 0) := by
  cases p with
  | none => exact Or.inl rfl
  | some m =>
    obtain ⟨nd, h1, h2, h3⟩ := hb m rfl
    refine Or.inr ⟨by simp, _, rbt_compare_nodes_rep ha h1 hsa h2, ?_⟩
    rw [hk]; exact h3

theorem Tree.root_key_mem {c : Color} {l r : Tree} {a : Nat} {k : List Byte} :
    k ∈ (Tree.node c l a k r).keys := by simp

set_option maxHeartbeats 1600000 in
theorem rbt_validate_bst_spec {h : Heap} {t : Tree} :
    ∀ {par : Ptr} (fuel : Nat) (minp maxp : Ptr), Rep h par t → t.ordered →
      BoundOK h minp (fun x => ∀ y ∈ t.keys, keyLt x y) →
      BoundOK h maxp (fun x => ∀ y ∈ t.keys, keyLt y x) → t.depth < fuel →
      rbt_validate_bst fuel h t.root minp maxp = .ok () := by
  induction t with
  | nil =>
    intro par fuel minp maxp _ _ _ _ hf
    obtain ⟨f, rfl⟩ : ∃ f, fuel = f + 1 := ⟨fuel - 1, by omega⟩
    simp [rbt_validate_bst, pure, Except.pure]
  | node c l a k r ihl ihr =>
    intro par fuel minp maxp hrep ho hmin hmax hf
    obtain ⟨f, rfl⟩ : ∃ f, fuel = f + 1 := ⟨fuel - 1, by omega⟩
    obtain ⟨ha, hl, hr⟩ := hrep
    obtain ⟨ho1, ho2, ho3, ho4⟩ := ho
    simp only [Tree.depth] at hf
    have hself : BoundOK h (some a) (fun x => x = k) := by
      intro m hm
      cases hm
      exact ⟨_, ha, rfl, rfl⟩
    have hL := ihl f minp (some a) hl ho3
      (hmin.mono (fun x hx y hy => hx y (by simp [hy])))
      (hself.mono (fun x hx y hy => hx ▸ ho1 y hy)) (by omega)
    have hR := ihr f (some a) maxp hr ho4
      (hself.mono (fun x hx y hy => hx ▸ ho2 y hy))
      (hmax.mono (fun x hx y hy => hx y (by simp [hy]))) (by omega)
    have cmin := (hmin.mono (fun x hx => hx k Tree.root_key_mem)).cmp_min ha rfl rfl
    have cmax := (hmax.mono (fun x hx => hx k Tree.root_key_mem)).cmp_max ha rfl rfl
    have cl : ∀ cl ll al kl rl, l = .node cl ll al kl rl →
        rbt_compare_nodes h (some al) (some a) = .ok (cmpKey kl k) ∧ cmpKey kl k < 0 := by
      intro cl ll al kl rl e
      subst e
      exact ⟨rbt_compare_nodes_rep hl.1 ha rfl rfl, ho1 kl Tree.root_key_mem⟩
    have cr : ∀ cr lr ar kr rr, r = .node cr lr ar kr rr →
        rbt_compare_nodes h (some a) (some ar) = .ok (cmpKey k kr) ∧ cmpKey k kr < 0 := by
      intro cr lr ar kr rr e
      subst e
      exact ⟨rbt_compare_nodes_rep ha hr.1 rfl rfl, ho2 kr Tree.root_key_mem⟩
    rcases cmin with rfl | ⟨hm1, v1, e1, hv1⟩ <;> rcases cmax with rfl | ⟨hm2, v2, e2, hv2⟩ <;>
      rcases l with _ | ⟨cl2, ll, al, kl, rl⟩ <;> rcases r with _ | ⟨cr2, lr, ar, kr, rr⟩ <;>
      simp_all [rbt_validate_bst, deref, c_assert, bind, Except.bind, pure, Except.pure,
        Rep_node]

theorem Tree.depth_le_size (t : Tree) : t.depth ≤ t.size := by
  induction t with
  | nil => simp [Tree.depth, Tree.size]
  | node c l a k r ihl ihr =>
    simp only [Tree.depth, Tree.size]
    omega

theorem Tree.length_addrs (t : Tree) : t.addrs.length = t.size := by
  induction t with
  | nil => rfl
  | node c l a k r ihl ihr =>
    simp only [Tree.addrs_node, List.length_append, List.length_cons, Tree.size, ihl, ihr]
    omega

theorem Rep.depth_le {h : Heap} {par : Ptr} {t : Tree} (hr : Rep h par t)
    (hnd : t.addrs.Nodup) : t.depth ≤ h.length := by
  have hsub : t.addrs ⊆ List.range h.length := by
    intro a ha
    exact List.mem_range.mpr (hr.lt_length a ha)
  have := (List.subperm_of_subset hnd hsub).length_le
  rw [List.length_range, Tree.length_addrs] at this
  exact (Tree.depth_le_size t).trans this

theorem RBInv.keys_sorted {t : Tree} (hi : RBInv t) : t.keys.Pairwise keyLt :=
  (Tree.ordered_iff t).mp hi.ordered

theorem RBInv.keys_nodup {t : Tree} (hi : RBInv t) : t.keys.Nodup := by
  refine hi.keys_sorted.imp ?_
  intro a b hlt e
  subst e
  exact keyLt_irrefl _ hlt

theorem rbt_validate_tree_spec {h : Heap} {t : Tree} (hr : Rep h none t) (hi : RBInv t)
    (fuel : Nat) (hf : t.depth < fuel) : rbt_validate_tree fuel h t.root = .ok () := by
  have h1 := rbt_validate_bst_spec fuel none none hr hi.ordered (fun m hm => by cases hm)
    (fun m hm => by cases hm) hf
  have h2 := rbt_validate_invariants_spec fuel hr hi.noRedRed
    ((Tree.pathsAgree_iff t).mp hi.pathsAgree) hf
  cases t with
  | nil => simp [rbt_validate_tree, pure, Except.pure]
  | node c l a k r =>
    have hc := hi.rootBlack
    simp only [Tree.color_node] at hc
    subst hc
    simp only [Tree.root_node] at h1 h2
    simp [rbt_validate_tree, deref, hr.1, c_assert, h1, h2, bind, Except.bind, pure,
      Except.pure]

/-! ## Insertion into a well-formed tree -/

theorem Rep.mem_keys {h : Heap} {par : Ptr} {t : Tree} (hr : Rep h par t) {k : List Byte}
    (hk : k ∈ t.keys) :
    ∃ a ∈ t.addrs, ∃ nd, h[a]? = some nd ∧ nd.data = k ∧ nd.data_size = k.length := by
  induction t generalizing par with
  | nil => simp at hk
  | node c l a x r ihl ihr =>
    obtain ⟨ha, hl, hrr⟩ := hr
    simp only [Tree.keys_node, List.mem_append, List.mem_cons] at hk
    rcases hk with hk | rfl | hk
    · obtain ⟨b, hb, nd, h1, h2, h3⟩ := ihl hl hk
      exact ⟨b, by simp [hb], nd, h1, h2, h3⟩
    · exact ⟨a, by simp, _, ha, rfl, rfl⟩
    · obtain ⟨b, hb, nd, h1, h2, h3⟩ := ihr hrr hk
      exact ⟨b, by simp [hb], nd, h1, h2, h3⟩

/-- What one call of `rbt_insert` does to a well-formed tree. -/
theorem rbt_insert_wf {h : Heap} {t : Tree} (key : List Byte) (ins : Bool) (fuel : Nat)
    (hr : Rep h none t) (hi : RBInv t) (hfuel : 2 * h.length + 3 ≤ fuel) :
    ∃ h2, rbt_insert fuel h t.root key.length key ins =
        .ok (h2, (insertTree key h.length t).root, insertFlag key t ins) ∧
      Rep h2 none (insertTree key h.length t) ∧ RBInv (insertTree key h.length t) ∧
      h2.length = h.length + 1 ∧
      (insertFlag key t ins = false → ∀ a, a < h.length → h2[a]? = h[a]?) := by
  have hnd := hr.addrs_nodup hi.keys_nodup
  have hd := hr.depth_le hnd
  obtain ⟨h2, e, hr2, hlen, -, hfl⟩ := rbt_insert_spec key ins fuel hr hnd hi.rootBlack
    (by omega)
  exact ⟨h2, e, hr2, insertTree_RBInv key h.length hi, hlen, hfl⟩

theorem insert_all_spec : ∀ (ks : List (List Byte)) (h : Heap) (t : Tree) (ins : Bool)
    (fuel : Nat), Rep h none t → RBInv t → 2 * (h.length + ks.length) + 3 ≤ fuel →
    ∃ h2 ins2 t2, insert_all fuel ks (h, t.root, ins) = .ok (h2, t2.root, ins2) ∧
      Rep h2 none t2 ∧ RBInv t2 ∧ (∀ x, x ∈ t2.keys ↔ x ∈ t.keys ∨ x ∈ ks) ∧
      h2.length = h.length + ks.length := by
  intro ks
  induction ks with
  | nil =>
    intro h t ins fuel hr hi _
    exact ⟨h, ins, t, rfl, hr, hi, by simp, rfl⟩
  | cons k ks ih =>
    intro h t ins fuel hr hi hfuel
    simp only [List.length_cons] at hfuel
    obtain ⟨h1, e1, hr1, hi1, hlen1, -⟩ := rbt_insert_wf k ins fuel hr hi (by omega)
    obtain ⟨h2, ins2, t2, e2, hr2, hi2, hk2, hlen2⟩ := ih h1 (insertTree k h.length t)
      (insertFlag k t ins) fuel hr1 hi1 (by omega)
    refine ⟨h2, ins2, t2, ?_, hr2, hi2, ?_, by simp only [List.length_cons]; omega⟩
    · simp only [insert_all, e1, bind, Except.bind]
      exact e2
    · intro x
      rw [hk2, (insertTree_keys k h.length hi.ordered).2.1]
      simp only [List.mem_cons]
      tauto

theorem insert_validate_all_spec : ∀ (ks : List (List Byte)) (h : Heap) (t : Tree)
    (ins : Bool) (fuel : Nat), Rep h none t → RBInv t →
    2 * (h.length + ks.length) + 3 ≤ fuel →
    insert_validate_all fuel ks (h, t.root, ins) = insert_all fuel ks (h, t.root, ins) := by
  intro ks
  induction ks with
  | nil => intro h t ins fuel _ _ _; rfl
  | cons k ks ih =>
    intro h t ins fuel hr hi hfuel
    simp only [List.length_cons] at hfuel
    obtain ⟨h1, e1, hr1, hi1, hlen1, -⟩ := rbt_insert_wf k ins fuel hr hi (by omega)
    have hv := rbt_validate_tree_spec hr1 hi1 fuel (by
      have := hr1.depth_le (hr1.addrs_nodup hi1.keys_nodup)
      omega)
    simp only [insert_validate_all, insert_all, e1, bind, Except.bind, hv]
    exact ih h1 _ _ fuel hr1 hi1 (by omega)

theorem keyLe_total (a b : List Byte) : keyLe a b ∨ keyLe b a := by
  unfold keyLe
  have := cmpKey_swap a b
  omega

theorem keyLe_of_keyLt {a b : List Byte} (h : keyLt a b) : keyLe a b := by
  unfold keyLt at h
  unfold keyLe
  omega

theorem keyLe_antisymm {a b : List Byte} (h1 : keyLe a b) (h2 : keyLe b a) : a = b := by
  unfold keyLe at h1 h2
  have := cmpKey_swap a b
  exact (cmpKey_eq_zero a b).mp (by omega)

theorem keyLe_trans {a b c : List Byte} (h1 : keyLe a b) (h2 : keyLe b c) : keyLe a c := by
  by_cases e1 : a = b
  · subst e1; exact h2
  · by_cases e2 : b = c
    · subst e2; exact h1
    · have l1 : keyLt a b := by
        have := (cmpKey_eq_zero a b).not.mpr e1
        unfold keyLe at h1; unfold keyLt; omega
      have l2 : keyLt b c := by
        have := (cmpKey_eq_zero b c).not.mpr e2
        unfold keyLe at h2; unfold keyLt; omega
      exact keyLe_of_keyLt (keyLt_trans l1 l2)

/-- A strictly increasing key list with the members of `ks` is the sorted
list of the distinct elements of `ks`. -/
theorem sorted_keys_unique {l ks : List (List Byte)} (hs : l.Pairwise keyLt)
    (hm : ∀ x, x ∈ l ↔ x ∈ ks) : l = List.insertionSort keyLe ks.dedup := by
  haveI : IsTotal (List Byte) keyLe := ⟨keyLe_total⟩
  haveI : IsTrans (List Byte) keyLe := ⟨fun _ _ _ => keyLe_trans⟩
  haveI : IsAntisymm (List Byte) keyLe := ⟨fun _ _ => keyLe_antisymm⟩
  have hnd : l.Nodup := by
    refine hs.imp ?_
    intro a b hlt e
    subst e
    exact keyLt_irrefl _ hlt
  have hperm : l.Perm (List.insertionSort keyLe ks.dedup) := by
    refine List.Perm.trans ?_ (List.perm_insertionSort keyLe ks.dedup).symm
    refine (List.perm_ext_iff_of_nodup hnd (List.nodup_dedup ks)).mpr ?_
    intro a
    rw [hm a, List.mem_dedup]
  exact List.eq_of_perm_of_sorted hperm (hs.imp keyLe_of_keyLt)
    (List.sorted_insertionSort keyLe ks.dedup)

theorem exampleHeap_wf : WellFormed exampleHeap (some 0) := by
  refine ⟨exampleTree, rfl, ?_, ?_, rfl, ?_, ?_, ?_⟩
  · simp [exampleTree, exampleHeap, Rep_node]
  · simp only [exampleTree, Tree.ordered, Tree.keys_node, Tree.keys_nil]
    decide
  · simp [exampleTree]
  · simp only [exampleTree, Tree.pathsAgree, Tree.blackPaths]
    decide
  · simp only [exampleTree, Tree.keys_node, Tree.keys_nil]
    decide

theorem exampleHeap_rep : Rep exampleHeap none exampleTree := by
  simp [exampleTree, exampleHeap, Rep_node]

theorem exampleHeap_stored {k : List Byte} (hs : Stored exampleHeap (some 0) k) :
    k ∈ [[97], [98], [99]] := by
  obtain ⟨t, hroot, hr, hk⟩ := hs
  have e : t = exampleTree := hr.unique exampleHeap_rep hroot
  subst e
  simpa [exampleTree] using hk

theorem WellFormed.insert {h : Heap} {root : Ptr} (hwf : WellFormed h root) (key : List Byte)
    (ins : Bool) (fuel : Nat) (hfuel : 2 * h.length + 3 ≤ fuel) :
    ∃ t h2, t.root = root ∧ Rep h none t ∧ RBInv t ∧
      rbt_insert fuel h root key.length key ins =
        .ok (h2, (insertTree key h.length t).root, insertFlag key t ins) ∧
      Rep h2 none (insertTree key h.length t) ∧ RBInv (insertTree key h.length t) ∧
      h2.length = h.length + 1 ∧
      (insertFlag key t ins = false → ∀ a, a < h.length → h2[a]? = h[a]?) := by
  obtain ⟨t, hroot, hr, hi⟩ := hwf
  obtain ⟨h2, e, hr2, hi2, hlen, hfl⟩ := rbt_insert_wf key ins fuel hr hi hfuel
  exact ⟨t, h2, hroot, hr, hi, hroot ▸ e, hr2, hi2, hlen, hfl⟩

/-- The run of the code on the keys d, b, a, c, e, one insertion at a time. -/
theorem insert_all_dbace :
    insert_all 13 [[100], [98], [97], [99], [101]] ([], none, false) =
      .ok ([⟨1, some 3, some 4, some 1, .BLACK, [100]⟩, ⟨1, some 2, some 0, none, .BLACK, [98]⟩,
        ⟨1, none, none, some 1, .BLACK, [97]⟩, ⟨1, none, none, some 0, .RED, [99]⟩,
        ⟨1, none, none, some 0, .RED, [101]⟩], some 1, true) := by
  have s1 : rbt_insert 13 [] none 1 [100] false =
      .ok ([⟨1, none, none, none, .BLACK, [100]⟩], some 0, false) := by decide
  have s2 : rbt_insert 13 [⟨1, none, none, none, .BLACK, [100]⟩] (some 0) 1 [98] false =
      .ok ([⟨1, some 1, none, none, .BLACK, [100]⟩, ⟨1, none, none, some 0, .RED, [98]⟩],
        some 0, true) := by decide
  have s3 : rbt_insert 13 [⟨1, some 1, none, none, .BLACK, [100]⟩,
        ⟨1, none, none, some 0, .RED, [98]⟩] (some 0) 1 [97] true =
      .ok ([⟨1, none, none, some 1, .RED, [100]⟩, ⟨1, some 2, some 0, none, .BLACK, [98]⟩,
        ⟨1, none, none, some 1, .RED, [97]⟩], some 1, true) := by decide
  have s4 : rbt_insert 13 [⟨1, none, none, some 1, .RED, [100]⟩,
        ⟨1, some 2, some 0, none, .BLACK, [98]⟩, ⟨1, none, none, some 1, .RED, [97]⟩]
        (some 1) 1 [99] true =
      .ok ([⟨1, some 3, none, some 1, .BLACK, [100]⟩, ⟨1, some 2, some 0, none, .BLACK, [98]⟩,
        ⟨1, none, none, some 1, .BLACK, [97]⟩, ⟨1, none, none, some 0, .RED, [99]⟩],
        some 1, true) := by decide
  have s5 : rbt_insert 13 [⟨1, some 3, none, some 1, .BLACK, [100]⟩,
        ⟨1, some 2, some 0, none, .BLACK, [98]⟩, ⟨1, none, none, some 1, .BLACK, [97]⟩,
        ⟨1, none, none, some 0, .RED, [99]⟩] (some 1) 1 [101] true =
      .ok ([⟨1, some 3, some 4, some 1, .BLACK, [100]⟩, ⟨1, some 2, some 0, none, .BLACK, [98]⟩,
        ⟨1, none, none, some 1, .BLACK, [97]⟩, ⟨1, none, none, some 0, .RED, [99]⟩,
        ⟨1, none, none, some 0, .RED, [101]⟩], some 1, true) := by decide
  simp only [insert_all, List.length_singleton, s1, s2, s3, s4, s5, bind, Except.bind, pure,
    Except.pure]

/-! ## The claims -/

/-- C1: `rbt_insert` preserves BST ordering and uniqueness.  For every
well-formed tree and every key, the call returns, and the in-order key
sequence of the returned tree is strictly increasing under
`rbt_compare_data`; in particular no two of its keys compare equal. -/
theorem rbt_insert_preserves_ordering (h : Heap) (root : Ptr) (key : List Byte)
    (inserted : Bool) (fuel : Nat) (hwf : WellFormed h root)
    (hfuel : 2 * h.length + 3 ≤ fuel) :
    ∃ h2 root2 inserted2 t2,
      rbt_insert fuel h root key.length key inserted = .ok (h2, root2, inserted2) ∧
      t2.root = root2 ∧ Rep h2 none t2 ∧ t2.ordered ∧
      t2.keys.Pairwise (fun x y => rbt_compare_data x.length x y.length y < 0) ∧
      t2.keys.Pairwise (fun x y => rbt_compare_data x.length x y.length y ≠ 0) := by
  obtain ⟨t, h2, -, -, -, e, hr2, hi2, -, -⟩ := hwf.insert key inserted fuel hfuel
  exact ⟨h2, _, _, _, e, rfl, hr2, hi2.ordered, hi2.keys_sorted, hi2.unique⟩

/-- C1 at the three-node tree "a" < "b" < "c" and the new key "d". -/
theorem rbt_insert_preserves_ordering_witness :
    WellFormed exampleHeap (some 0) ∧ 2 * exampleHeap.length + 3 ≤ 9 ∧
    ∃ h2 root2 inserted2 t2,
      rbt_insert 9 exampleHeap (some 0) ([100] : List Byte).length [100] false
        = .ok (h2, root2, inserted2) ∧
      t2.root = root2 ∧ Rep h2 none t2 ∧ t2.ordered ∧
      t2.keys.Pairwise (fun x y => rbt_compare_data x.length x y.length y < 0) ∧
      t2.keys.Pairwise (fun x y => rbt_compare_data x.length x y.length y ≠ 0) :=
  ⟨exampleHeap_wf, by decide,
    rbt_insert_preserves_ordering exampleHeap (some 0) [100] false 9 exampleHeap_wf
      (by decide)⟩

theorem insertTree_root_some (key : List Byte) (nw : Nat) {t : Tree} (ho : t.ordered) :
    ∃ c l a k r, insertTree key nw t = .node c l a k r := by
  have hm := ((insertTree_keys key nw ho).2.1 key).mpr (Or.inl rfl)
  cases hx : insertTree key nw t with
  | nil => rw [hx] at hm; simp at hm
  | node c l a k r => exact ⟨c, l, a, k, r, rfl⟩

/-- C2: `rbt_insert` preserves the colour rules.  For every well-formed tree
and every key, the call returns a non-empty tree whose root node is BLACK and
in which no RED node has a RED child. -/
theorem rbt_insert_preserves_colours (h : Heap) (root : Ptr) (key : List Byte)
    (inserted : Bool) (fuel : Nat) (hwf : WellFormed h root)
    (hfuel : 2 * h.length + 3 ≤ fuel) :
    ∃ h2 root2 inserted2 t2,
      rbt_insert fuel h root key.length key inserted = .ok (h2, root2, inserted2) ∧
      t2.root = root2 ∧ Rep h2 none t2 ∧ t2.color = .BLACK ∧ t2.noRedRed ∧
      ∃ a nd, root2 = some a ∧ h2[a]? = some nd ∧ nd.color = .BLACK := by
  obtain ⟨t, h2, -, -, hi, e, hr2, hi2, -, -⟩ := hwf.insert key inserted fuel hfuel
  refine ⟨h2, _, _, _, e, rfl, hr2, hi2.rootBlack, hi2.noRedRed, ?_⟩
  obtain ⟨c, l, a, k, r, hx⟩ := insertTree_root_some key h.length hi.ordered
  have hc := hi2.rootBlack
  rw [hx] at hr2 hc ⊢
  simp only [Tree.color_node] at hc
  exact ⟨a, _, rfl, hr2.1, hc⟩

/-- C2 at the three-node tree with two RED leaves and the new key "d"
(the fixup recolours: Case 3, then Case 1). -/
theorem rbt_insert_preserves_colours_witness :
    WellFormed exampleHeap (some 0) ∧ 2 * exampleHeap.length + 3 ≤ 9 ∧
    ∃ h2 root2 inserted2 t2,
      rbt_insert 9 exampleHeap (some 0) ([100] : List Byte).length [100] false
        = .ok (h2, root2, inserted2) ∧
      t2.root = root2 ∧ Rep h2 none t2 ∧ t2.color = .BLACK ∧ t2.noRedRed ∧
      ∃ a nd, root2 = some a ∧ h2[a]? = some nd ∧ nd.color = .BLACK :=
  ⟨exampleHeap_wf, by decide,
    rbt_insert_preserves_colours exampleHeap (some 0) [100] false 9 exampleHeap_wf
      (by decide)⟩

/-- C3: `rbt_insert` preserves black-height consistency.  For every
well-formed tree and every key, the call returns a tree in which, at every
node, all paths down to a null leaf hold the same number of BLACK nodes, and
the left and right subtrees have equal black-height. -/
theorem rbt_insert_preserves_black_height (h : Heap) (root : Ptr) (key : List Byte)
    (inserted : Bool) (fuel : Nat) (hwf : WellFormed h root)
    (hfuel : 2 * h.length + 3 ≤ fuel) :
    ∃ h2 root2 inserted2 t2,
      rbt_insert fuel h root key.length key inserted = .ok (h2, root2, inserted2) ∧
      t2.root = root2 ∧ Rep h2 none t2 ∧ t2.pathsAgree ∧ t2.balanced := by
  obtain ⟨t, h2, -, -, -, e, hr2, hi2, -, -⟩ := hwf.insert key inserted fuel hfuel
  exact ⟨h2, _, _, _, e, rfl, hr2, hi2.pathsAgree, (Tree.pathsAgree_iff _).mp hi2.pathsAgree⟩

/-- C3 at the three-node tree and the new key "d". -/
theorem rbt_insert_preserves_black_height_witness :
    WellFormed exampleHeap (some 0) ∧ 2 * exampleHeap.length + 3 ≤ 9 ∧
    ∃ h2 root2 inserted2 t2,
      rbt_insert 9 exampleHeap (some 0) ([100] : List Byte).length [100] false
        = .ok (h2, root2, inserted2) ∧
      t2.root = root2 ∧ Rep h2 none t2 ∧ t2.pathsAgree ∧ t2.balanced :=
  ⟨exampleHeap_wf, by decide,
    rbt_insert_preserves_black_height exampleHeap (some 0) [100] false 9 exampleHeap_wf
      (by decide)⟩

/-- C4: the tree is the sorted, duplicate-free set of the inserted keys.
Inserting the keys of any finite list one at a time from the empty tree
returns a tree whose in-order key sequence is the list of the distinct
inserted keys sorted ascending under `rbt_compare_data`: it is strictly
increasing and holds exactly the inserted keys. -/
theorem insert_all_sorted_distinct (ks : List (List Byte)) (inserted : Bool) (fuel : Nat)
    (hfuel : 2 * ks.length + 3 ≤ fuel) :
    ∃ h root inserted2 t,
      insert_all fuel ks ([], none, inserted) = .ok (h, root, inserted2) ∧
      t.root = root ∧ Rep h none t ∧
      t.keys = List.insertionSort keyLe ks.dedup ∧
      t.keys.Pairwise (fun x y => rbt_compare_data x.length x y.length y < 0) ∧
      ∀ x, x ∈ t.keys ↔ x ∈ ks := by
  obtain ⟨h2, ins2, t2, e, hr2, hi2, hk, -⟩ := insert_all_spec ks [] .nil inserted fuel
    trivial RBInv.nil (by simpa using hfuel)
  have hm : ∀ x, x ∈ t2.keys ↔ x ∈ ks := by
    intro x
    rw [hk x]
    simp
  exact ⟨h2, _, ins2, t2, e, rfl, hr2, sorted_keys_unique hi2.keys_sorted hm,
    hi2.keys_sorted, hm⟩

/-- C4 at the keys d, b, a, c, e: the run of the code, and the theorem
applied to this input: the in-order key sequence is a, b, c, d, e. -/
theorem insert_all_sorted_distinct_witness :
    2 * ([[100], [98], [97], [99], [101]] : List (List Byte)).length + 3 ≤ 13 ∧
    insert_all 13 [[100], [98], [97], [99], [101]] ([], none, false) =
      .ok ([⟨1, some 3, some 4, some 1, .BLACK, [100]⟩, ⟨1, some 2, some 0, none, .BLACK, [98]⟩,
        ⟨1, none, none, some 1, .BLACK, [97]⟩, ⟨1, none, none, some 0, .RED, [99]⟩,
        ⟨1, none, none, some 0, .RED, [101]⟩], some 1, true) ∧
    ∃ h root inserted2 t,
      insert_all 13 [[100], [98], [97], [99], [101]] ([], none, false)
        = .ok (h, root, inserted2) ∧
      t.root = root ∧ Rep h none t ∧ t.keys = [[97], [98], [99], [100], [101]] := by
  refine ⟨by decide, insert_all_dbace, ?_⟩
  obtain ⟨h, root, ins, t, e, hroot, hr, hk, -, -⟩ :=
    insert_all_sorted_distinct [[100], [98], [97], [99], [101]] false 13 (by decide)
  refine ⟨h, root, ins, t, e, hroot, hr, ?_⟩
  rw [hk]
  decide

/-- C5: duplicate insertion is a no-op.  For a well-formed tree and a key
that compares equal to a stored key (so the tree is not empty), `rbt_insert`
returns the same root, reports `inserted = false`, and leaves every record
that existed before the call unchanged (key, colour, left, right and parent
of every node), so the heap still holds the same tree. -/
theorem rbt_insert_duplicate_noop (h : Heap) (root : Ptr) (key : List Byte)
    (inserted : Bool) (fuel : Nat) (hwf : WellFormed h root)
    (hdup : ∃ k, Stored h root k ∧ rbt_compare_data key.length key k.length k = 0)
    (hfuel : 2 * h.length + 3 ≤ fuel) :
    ∃ h2, rbt_insert fuel h root key.length key inserted = .ok (h2, root, false) ∧
      (∀ a, a < h.length → h2[a]? = h[a]?) ∧
      ∃ t, t.root = root ∧ Rep h none t ∧ Rep h2 none t := by
  obtain ⟨t, h2, hroot, hr, hi, e, hr2, -, -, hfl⟩ := hwf.insert key inserted fuel hfuel
  obtain ⟨k, ⟨t', hroot', hr', hk⟩, hc⟩ := hdup
  have et : t' = t := hr'.unique hr (hroot'.trans hroot.symm)
  subst et
  have ek : key = k := (cmpKey_eq_zero key k).mp hc
  subst ek
  have htne : t' ≠ .nil := by
    rintro rfl
    simp at hk
  have hflag : insertFlag key t' inserted = false := by
    rw [insertFlag_eq key hi.ordered htne]
    simpa using hk
  have htree : insertTree key h.length t' = t' :=
    (insertTree_keys key h.length hi.ordered).2.2 hk
  rw [hflag, htree, hroot] at e
  rw [htree] at hr2
  exact ⟨h2, e, hfl hflag, t', hroot, hr, hr2⟩

/-- C5 at the three-node tree and the stored key "a". -/
theorem rbt_insert_duplicate_noop_witness :
    WellFormed exampleHeap (some 0) ∧
    (∃ k, Stored exampleHeap (some 0) k ∧
      rbt_compare_data ([97] : List Byte).length [97] k.length k = 0) ∧
    ∃ h2, rbt_insert 9 exampleHeap (some 0) ([97] : List Byte).length [97] true
        = .ok (h2, some 0, false) ∧
      (∀ a, a < exampleHeap.length → h2[a]? = exampleHeap[a]?) ∧
      ∃ t, t.root = some 0 ∧ Rep exampleHeap none t ∧ Rep h2 none t :=
  ⟨exampleHeap_wf, ⟨[97], ⟨exampleTree, rfl, exampleHeap_rep, by decide⟩, by decide⟩,
    rbt_insert_duplicate_noop exampleHeap (some 0) [97] true 9 exampleHeap_wf
      ⟨[97], ⟨exampleTree, rfl, exampleHeap_rep, by decide⟩, by decide⟩ (by decide)⟩

/-- Insertion into the empty tree, for every key and every prior value of
the flag: a single BLACK node with a copy of the key, no children and no
parent is returned, and `*inserted` is not written. -/
theorem rbt_insert_empty (fuel : Nat) (h : Heap) (key : List Byte) (inserted : Bool) :
    rbt_insert fuel h none key.length key inserted =
      .ok (h ++ [⟨key.length, none, none, none, .BLACK, key⟩], some h.length, inserted) := by
  simp [rbt_insert, rbt_alloc, pure, Except.pure]

/-- C6 (code defect): inserting the key "x" into the empty tree while
`*inserted` holds `false` returns the single BLACK node but leaves the flag
`false`: the `root == NULL` path of `rbt_insert` returns without writing
`*inserted`. -/
theorem rbt_insert_empty_flag_not_set :
    rbt_insert 3 [] none 1 [120] false =
      .ok ([⟨1, none, none, none, .BLACK, [120]⟩], some 0, false) := by
  decide

/-- C7: insertion of a new key into a non-empty tree.  For a well-formed
non-empty tree and a key that compares equal to no stored key, `rbt_insert`
reports `inserted = true` and the returned tree stores the key: one of its
nodes holds exactly the bytes of the key, with the same length. -/
theorem rbt_insert_new_key (h : Heap) (root : Ptr) (key : List Byte) (inserted : Bool)
    (fuel : Nat) (hwf : WellFormed h root) (hne : root ≠ none)
    (hnew : ∀ k, Stored h root k → rbt_compare_data key.length key k.length k ≠ 0)
    (hfuel : 2 * h.length + 3 ≤ fuel) :
    ∃ h2 root2 t2, rbt_insert fuel h root key.length key inserted = .ok (h2, root2, true) ∧
      t2.root = root2 ∧ Rep h2 none t2 ∧ key ∈ t2.keys ∧
      ∃ a ∈ t2.addrs, ∃ nd, h2[a]? = some nd ∧ nd.data = key ∧
        nd.data_size = key.length := by
  obtain ⟨t, h2, hroot, hr, hi, e, hr2, -, -, -⟩ := hwf.insert key inserted fuel hfuel
  have htne : t ≠ .nil := by
    rintro rfl
    exact hne hroot.symm
  have hnm : key ∉ t.keys := by
    intro hm
    exact hnew key ⟨t, hroot, hr, hm⟩ ((cmpKey_eq_zero key key).mpr rfl)
  have hflag : insertFlag key t inserted = true := by
    rw [insertFlag_eq key hi.ordered htne]
    simpa using hnm
  rw [hflag] at e
  have hmem := ((insertTree_keys key h.length hi.ordered).2.1 key).mpr (Or.inl rfl)
  exact ⟨h2, _, _, e, rfl, hr2, hmem, hr2.mem_keys hmem⟩

/-- C7 at the three-node tree "a", "b", "c" and the new key "d". -/
theorem rbt_insert_new_key_witness :
    WellFormed exampleHeap (some 0) ∧
    (∀ k, Stored exampleHeap (some 0) k →
      rbt_compare_data ([100] : List Byte).length [100] k.length k ≠ 0) ∧
    ∃ h2 root2 t2, rbt_insert 9 exampleHeap (some 0) ([100] : List Byte).length [100] false
        = .ok (h2, root2, true) ∧
      t2.root = root2 ∧ Rep h2 none t2 ∧ [100] ∈ t2.keys ∧
      ∃ a ∈ t2.addrs, ∃ nd, h2[a]? = some nd ∧ nd.data = [100] ∧
        nd.data_size = ([100] : List Byte).length :=
  have hnew : ∀ k, Stored exampleHeap (some 0) k →
      rbt_compare_data ([100] : List Byte).length [100] k.length k ≠ 0 := by
    intro k hs
    have hk := exampleHeap_stored hs
    simp only [List.mem_cons, List.mem_singleton, List.not_mem_nil, or_false] at hk
    rcases hk with rfl | rfl | rfl <;> decide
  ⟨exampleHeap_wf, hnew,
    rbt_insert_new_key exampleHeap (some 0) [100] false 9 exampleHeap_wf (by decide) hnew
      (by decide)⟩

/-- C10: the validator never fires on a tree built by insertion.  Running
`rbt_validate_tree` on the root after each of a sequence of `rbt_insert`
calls that starts from the empty tree completes with no fault, and the final
heap holds a tree with a BLACK root, ordered keys, consistent parent links,
no RED node with a RED child, and equal black-heights at every node. -/
theorem insert_validate_all_ok (ks : List (List Byte)) (inserted : Bool) (fuel : Nat)
    (hfuel : 2 * ks.length + 3 ≤ fuel) :
    ∃ h root inserted2 t,
      insert_validate_all fuel ks ([], none, inserted) = .ok (h, root, inserted2) ∧
      rbt_validate_tree fuel h root = .ok () ∧
      t.root = root ∧ Rep h none t ∧ RBInv t ∧ t.balanced := by
  obtain ⟨h2, ins2, t2, e, hr2, hi2, -, hlen⟩ := insert_all_spec ks [] .nil inserted fuel
    trivial RBInv.nil (by simpa using hfuel)
  have ev := insert_validate_all_spec ks [] .nil inserted fuel trivial RBInv.nil
    (by simpa using hfuel)
  have hd := hr2.depth_le (hr2.addrs_nodup hi2.keys_nodup)
  simp only [List.length_nil, Nat.zero_add] at hlen
  refine ⟨h2, _, ins2, t2, ev.trans e, rbt_validate_tree_spec hr2 hi2 fuel (by omega), rfl,
    hr2, hi2, (Tree.pathsAgree_iff _).mp hi2.pathsAgree⟩

/-- C10 at the keys d, b, a (the third insertion rotates the root): the
validating run of the code, and the theorem applied to this input. -/
theorem insert_validate_all_ok_witness :
    insert_validate_all 9 [[100], [98], [97]] ([], none, false) =
      .ok ([⟨1, none, none, some 1, .RED, [100]⟩, ⟨1, some 2, some 0, none, .BLACK, [98]⟩,
        ⟨1, none, none, some 1, .RED, [97]⟩], some 1, true) ∧
    ∃ h root inserted2 t,
      insert_validate_all 9 [[100], [98], [97]] ([], none, false)
        = .ok (h, root, inserted2) ∧
      rbt_validate_tree 9 h root = .ok () ∧
      t.root = root ∧ Rep h none t ∧ RBInv t ∧ t.balanced :=
  ⟨by decide, insert_validate_all_ok [[100], [98], [97]] false 9 (by decide)⟩

/-! ## Counting nodes -/

theorem c_int_of_range {x : Int} (h1 : -2147483648 ≤ x) (h2 : x < 2147483648) :
    c_int x = x := by
  unfold c_int
  omega

theorem c_int_range (x : Int) : -2147483648 ≤ c_int x ∧ c_int x < 2147483648 := by
  unfold c_int
  omega

theorem c_int_add_left (x y : Int) : c_int (c_int x + y) = c_int (x + y) := by
  unfold c_int
  omega

theorem c_int_add_right (x y : Int) : c_int (x + c_int y) = c_int (x + y) := by
  unfold c_int
  omega

/-- The value `rbt_num_nodes` returns: the number of nodes, as a C `int`. -/
theorem rbt_num_nodes_spec {h : Heap} {t : Tree} :
    ∀ {par : Ptr} (fuel : Nat), Rep h par t → t.depth < fuel →
      rbt_num_nodes fuel h t.root = .ok (c_int (t.size : Int)) := by
  induction t with
  | nil =>
    intro par fuel _ hf
    obtain ⟨f, rfl⟩ : ∃ f, fuel = f + 1 := ⟨fuel - 1, by omega⟩
    simp [rbt_num_nodes, pure, Except.pure, Tree.size, c_int]
  | node c l a k r ihl ihr =>
    intro par fuel hrep hf
    obtain ⟨f, rfl⟩ : ∃ f, fuel = f + 1 := ⟨fuel - 1, by omega⟩
    obtain ⟨ha, hl, hr⟩ := hrep
    simp only [Tree.depth] at hf
    have hL := ihl f hl (by omega)
    have hR := ihr f hr (by omega)
    simp only [Tree.root_node, rbt_num_nodes, deref, ha, hL, hR, bind, Except.bind, pure,
      Except.pure, Tree.size, reduceCtorEq, if_false]
    have e : (1 + (l.size : Int) + (r.size : Int)) = ((l.size + r.size + 1 : Nat) : Int) := by
      push_cast
      omega
    rw [c_int_add_right 1 (l.size : Int), c_int_add_left, c_int_add_right, e]

/-- Within the range of `int`, `rbt_num_nodes` returns the number of nodes. -/
theorem rbt_num_nodes_spec_range {h : Heap} {t : Tree} {par : Ptr} (fuel : Nat)
    (hr : Rep h par t) (hf : t.depth < fuel) (hs : t.size < 2147483648) :
    rbt_num_nodes fuel h t.root = .ok (t.size : Int) := by
  rw [rbt_num_nodes_spec fuel hr hf, c_int_of_range (by omega) (by omega)]

theorem Tree.length_keys (t : Tree) : t.keys.length = t.size := by
  induction t with
  | nil => rfl
  | node c l a k r ihl ihr =>
    simp only [Tree.keys_node, List.length_append, List.length_cons, Tree.size, ihl, ihr]
    omega

/-- One insertion adds one node exactly when the key is new. -/
theorem insertTree_size (key : List Byte) (nw : Nat) {t : Tree} (ho : t.ordered) :
    (insertTree key nw t).size = t.size + (if key ∈ t.keys then 0 else 1) := by
  cases t with
  | nil => simp [insertTree, Tree.size]
  | node c l a k r =>
    cases hd : descend key (.node c l a k r) .top with
    | none =>
      have hm := descend_none_mem hd
      simp only [insertTree, hd, hm, if_true, Nat.add_zero]
    | some ctx2 =>
      obtain ⟨hk, hk2, -, hnm⟩ := descend_some_keys hd ho nw
      have hfk := fixup_keys ctx2 (leaf nw key) (by simp [leaf])
      simp only [insertTree, hd, hnm, if_false]
      rw [← Tree.length_keys, ← Tree.length_keys, hfk, hk2, hk]
      simp only [List.length_append, List.length_cons]
      omega

theorem insertTree_ne_nil (key : List Byte) (nw : Nat) (t : Tree) (ho : t.ordered) :
    insertTree key nw t ≠ .nil := by
  obtain ⟨c, l, a, k, r, e⟩ := insertTree_root_some key nw ho
  rw [e]
  simp

theorem countDuplicates_le : ∀ (ks earlier : List (List Byte)),
    countDuplicates earlier ks ≤ ks.length := by
  intro ks
  induction ks with
  | nil => intro earlier; simp [countDuplicates]
  | cons k ks ih =>
    intro earlier
    have := ih (earlier ++ [k])
    simp only [countDuplicates, List.length_cons]
    split <;> omega

theorem any_cmp_iff (k : List Byte) (earlier : List (List Byte)) :
    (earlier.any (fun e => decide (rbt_compare_data k.length k e.length e = 0))) = true ↔
      k ∈ earlier := by
  simp only [List.any_eq_true, decide_eq_true_eq]
  constructor
  · rintro ⟨e, he, h0⟩
    have : k = e := (cmpKey_eq_zero k e).mp h0
    rw [this]
    exact he
  · intro hk
    exact ⟨k, hk, (cmpKey_eq_zero k k).mpr rfl⟩

/-- The number of nodes after a run of insertions: every call adds a node
except those whose key was passed before. -/
theorem insert_all_size : ∀ (ks earlier : List (List Byte)) (h : Heap) (t : Tree) (ins : Bool)
    (fuel : Nat), Rep h none t → RBInv t → (∀ x, x ∈ t.keys ↔ x ∈ earlier) →
    2 * (h.length + ks.length) + 3 ≤ fuel →
    ∃ h2 ins2 t2, insert_all fuel ks (h, t.root, ins) = .ok (h2, t2.root, ins2) ∧
      Rep h2 none t2 ∧ RBInv t2 ∧
      t2.size + countDuplicates earlier ks = t.size + ks.length ∧
      h2.length = h.length + ks.length := by
  intro ks
  induction ks with
  | nil =>
    intro earlier h t ins fuel hr hi _ _
    exact ⟨h, ins, t, rfl, hr, hi, by simp [countDuplicates], rfl⟩
  | cons k ks ih =>
    intro earlier h t ins fuel hr hi hmem hfuel
    simp only [List.length_cons] at hfuel
    obtain ⟨h1, e1, hr1, hi1, hlen1, -⟩ := rbt_insert_wf k ins fuel hr hi (by omega)
    have hmem1 : ∀ x, x ∈ (insertTree k h.length t).keys ↔ x ∈ earlier ++ [k] := by
      intro x
      rw [(insertTree_keys k h.length hi.ordered).2.1 x, hmem x]
      simp only [List.mem_append, List.mem_singleton]
      tauto
    obtain ⟨h2, ins2, t2, e2, hr2, hi2, hs2, hlen2⟩ := ih (earlier ++ [k]) h1
      (insertTree k h.length t) (insertFlag k t ins) fuel hr1 hi1 hmem1 (by omega)
    refine ⟨h2, ins2, t2, ?_, hr2, hi2, ?_, by simp only [List.length_cons]; omega⟩
    · simp only [insert_all, e1, bind, Except.bind]
      exact e2
    · have hsz := insertTree_size k h.length hi.ordered
      simp only [countDuplicates, List.length_cons]
      by_cases hk : k ∈ earlier
      · have hk2 : k ∈ t.keys := (hmem k).mpr hk
        rw [if_pos ((any_cmp_iff k earlier).mpr hk)]
        rw [if_pos hk2] at hsz
        omega
      · have hk2 : k ∉ t.keys := fun hx => hk ((hmem k).mp hx)
        rw [if_neg (fun hx => hk ((any_cmp_iff k earlier).mp hx))]
        rw [if_neg hk2] at hsz
        omega

/-- On a non-empty tree the caller's counter follows the number of nodes. -/
theorem insert_count_all_spec : ∀ (ks : List (List Byte)) (h : Heap) (t : Tree) (ins : Bool)
    (count : Int) (fuel : Nat), Rep h none t → RBInv t → t ≠ .nil →
    2 * (h.length + ks.length) + 3 ≤ fuel →
    ∃ h2 ins2 t2 count2,
      insert_count_all fuel ks (h, t.root, ins, count) = .ok (h2, t2.root, ins2, count2) ∧
      Rep h2 none t2 ∧ RBInv t2 ∧ t2 ≠ .nil ∧
      c_int count2 = c_int (count + (t2.size : Int) - (t.size : Int)) ∧
      (c_int count = count → c_int count2 = count2) ∧
      h2.length = h.length + ks.length := by
  intro ks
  induction ks with
  | nil =>
    intro h t ins count fuel hr hi hne _
    have e : count + (t.size : Int) - (t.size : Int) = count := by omega
    exact ⟨h, ins, t, count, rfl, hr, hi, hne, by rw [e], id, rfl⟩
  | cons k ks ih =>
    intro h t ins count fuel hr hi hne hfuel
    simp only [List.length_cons] at hfuel
    obtain ⟨h1, e1, hr1, hi1, hlen1, -⟩ := rbt_insert_wf k ins fuel hr hi (by omega)
    have hfl := insertFlag_eq k hi.ordered hne ins
    have hsz := insertTree_size k h.length hi.ordered
    obtain ⟨h2, ins2, t2, c2, e2, hr2, hi2, hne2, hc2, hrg2, hlen2⟩ := ih h1
      (insertTree k h.length t) (insertFlag k t ins)
      (if insertFlag k t ins then c_int (count + 1) else count) fuel hr1 hi1
      (insertTree_ne_nil k h.length t hi.ordered) (by omega)
    refine ⟨h2, ins2, t2, c2, ?_, hr2, hi2, hne2, ?_, ?_,
      by simp only [List.length_cons]; omega⟩
    · simp only [insert_count_all, e1, bind, Except.bind]
      exact e2
    · rw [hfl] at hc2
      by_cases hk : k ∈ t.keys
      · simp only [hk, not_true_eq_false, decide_False, Bool.false_eq_true, if_false,
          if_true, Nat.add_zero] at hc2 hsz
        rw [hc2, hsz]
      · simp only [hk, not_false_eq_true, decide_True, if_true, if_false] at hc2 hsz
        have e : count + 1 + ((t2.size : Int) - ((t.size + 1 : Nat) : Int))
            = count + (t2.size : Int) - (t.size : Int) := by
          push_cast
          omega
        rw [hc2, hsz, Int.add_sub_assoc, c_int_add_left, e]
    · intro hcr
      apply hrg2
      split
      · have := c_int_range (count + 1)
        exact c_int_of_range this.1 this.2
      · exact hcr

/-- Without duplicates among the keys, no call is counted as a duplicate. -/
theorem countDuplicates_eq_zero : ∀ (ks earlier : List (List Byte)),
    (earlier ++ ks).Nodup → countDuplicates earlier ks = 0 := by
  intro ks
  induction ks with
  | nil => intro earlier _; rfl
  | cons k ks ih =>
    intro earlier hnd
    have hk : k ∉ earlier := by
      intro hx
      rw [List.nodup_append] at hnd
      exact hnd.2.2 hx (List.mem_cons_self _ _)
    have hrec := ih (earlier ++ [k]) (by simpa [List.append_assoc] using hnd)
    simp only [countDuplicates, hrec, Nat.add_zero]
    rw [if_neg (fun hx => hk ((any_cmp_iff k earlier).mp hx))]

theorem key_of_nat_inj {i j : Nat} (hi : i < 4294967296) (hj : j < 4294967296)
    (e : key_of_nat i = key_of_nat j) : i = j := by
  simp only [key_of_nat, List.cons.injEq, Fin.mk.injEq, and_true] at e
  omega

theorem manyKeys_length : manyKeys.length = 2147483648 := by
  simp only [manyKeys, List.length_map, List.length_range]

theorem manyKeys_nodup : manyKeys.Nodup := by
  unfold manyKeys
  refine List.Nodup.map_on ?_ (List.nodup_range _)
  intro x hx y hy e
  rw [List.mem_range] at hx hy
  exact key_of_nat_inj (by omega) (by omega) e

/-- The value `rbt_num_nodes` returns after a run of insertions from the
empty tree: `N - D` as a C `int`. -/
theorem rbt_num_nodes_insert_all (ks : List (List Byte)) (inserted : Bool) (fuel : Nat)
    (hfuel : 2 * ks.length + 3 ≤ fuel) :
    ∃ h root inserted2,
      insert_all fuel ks ([], none, inserted) = .ok (h, root, inserted2) ∧
      rbt_num_nodes fuel h root
        = .ok (c_int ((ks.length - countDuplicates [] ks : Nat) : Int)) ∧
      countDuplicates [] ks ≤ ks.length := by
  obtain ⟨h2, ins2, t2, e, hr2, hi2, hs, hlen⟩ := insert_all_size ks [] [] .nil inserted fuel
    trivial RBInv.nil (by simp) (by simpa using hfuel)
  have hd := hr2.depth_le (hr2.addrs_nodup hi2.keys_nodup)
  simp only [List.length_nil, Nat.zero_add] at hlen
  have hn := rbt_num_nodes_spec fuel hr2 (by omega)
  simp only [Tree.size, Nat.zero_add] at hs
  have e2 : t2.size = ks.length - countDuplicates [] ks := by omega
  rw [e2] at hn
  exact ⟨h2, _, ins2, e, hn, countDuplicates_le ks []⟩

/-! ## The height bound -/

theorem Tree.pow_bheight_le (t : Tree) (hb : t.balanced) : 2 ^ t.bheight ≤ t.size + 1 := by
  induction t with
  | nil => simp [Tree.bheight, Tree.size]
  | node c l a k r ihl ihr =>
    obtain ⟨h1, h2, h3⟩ := hb
    have hl := ihl h2
    have hr := ihr h3
    rw [← h1] at hr
    simp only [Tree.bheight, Tree.size]
    split
    · rw [pow_succ]
      omega
    · simp only [Nat.add_zero]
      omega

theorem Tree.depth_le_bheight (t : Tree) (hn : t.noRedRed) (hb : t.balanced) :
    t.depth ≤ 2 * t.bheight + (if t.color = .RED then 1 else 0) := by
  induction t with
  | nil => simp [Tree.depth]
  | node c l a k r ihl ihr =>
    obtain ⟨h1, h2, h3⟩ := hb
    obtain ⟨n1, n2, n3⟩ := hn
    have hl := ihl n2 h2
    have hr := ihr n3 h3
    rw [← h1] at hr
    cases c with
    | RED =>
      obtain ⟨cl, cr⟩ := n1 rfl
      simp only [cl, cr, reduceCtorEq, if_false, Nat.add_zero] at hl hr
      simp only [Tree.depth, Tree.bheight, Tree.color, reduceCtorEq, if_false, if_true,
        Nat.add_zero]
      omega
    | BLACK =>
      simp only [Tree.depth, Tree.bheight, Tree.color, reduceCtorEq, if_false, if_true,
        Nat.add_zero]
      split at hl <;> split at hr <;> omega

/-- The height bound of a red-black tree, in both forms. -/
theorem RBInv.height_bound {t : Tree} (hi : RBInv t) :
    2 ^ t.depth ≤ (t.size + 1) ^ 2 ∧ t.depth ≤ 2 * Nat.log 2 (t.size + 1) := by
  have hb := (Tree.pathsAgree_iff t).mp hi.pathsAgree
  have h1 := t.pow_bheight_le hb
  have h2 := t.depth_le_bheight hi.noRedRed hb
  rw [hi.rootBlack] at h2
  simp only [reduceCtorEq, if_false, Nat.add_zero] at h2
  constructor
  · calc 2 ^ t.depth ≤ 2 ^ (2 * t.bheight) := Nat.pow_le_pow_right (by decide) h2
      _ = (2 ^ t.bheight) ^ 2 := by rw [Nat.mul_comm, pow_mul]
      _ ≤ (t.size + 1) ^ 2 := Nat.pow_le_pow_left h1 2
  · have h3 : t.bheight ≤ Nat.log 2 (t.size + 1) :=
      Nat.le_log_of_pow_le (by decide) h1
    omega

/-! ## Claims on the number of nodes and the height -/

theorem singleton_rep (k : List Byte) :
    Rep [⟨k.length, none, none, none, .BLACK, k⟩] none (.node .BLACK .nil 0 k .nil) := by
  simp [Rep_node]

theorem singleton_RBInv (a : Nat) (k : List Byte) : RBInv (.node .BLACK .nil a k .nil) := by
  refine ⟨?_, rfl, ?_, ?_, ?_⟩
  · simp [Tree.ordered]
  · simp [Tree.noRedRed]
  · simp [Tree.pathsAgree, Tree.blackPaths]
  · simp

/-- C11 (code defect): the caller's counter against the number of nodes.
Started from the empty tree with the flag variable holding `inserted`, the
loop of `rbt_randomized_test` over the keys `k :: ks` returns, and
`rbt_num_nodes` of the root is the counter plus one (both C `int`s) when the
flag held false before the first call: the first call never writes the flag,
so the node it creates is not counted, and the check
`assert(rbt_num_nodes(root) == expected_num_nodes)` fails.  The two agree
only when the flag happened to hold true. -/
theorem insert_count_all_first_call (k : List Byte) (ks : List (List Byte)) (inserted : Bool)
    (fuel : Nat) (hfuel : 2 * (ks.length + 1) + 3 ≤ fuel) :
    ∃ h root inserted2 count,
      insert_count_all fuel (k :: ks) ([], none, inserted, 0)
        = .ok (h, root, inserted2, count) ∧
      rbt_num_nodes fuel h root = .ok (c_int (count + (if inserted then 0 else 1))) ∧
      check_num_nodes fuel (h, root, inserted2, count)
        = (if inserted then .ok () else .error .assertFailed) := by
  obtain ⟨h2, ins2, t2, c2, e2, hr2, hi2, -, hc2, hrg2, hlen2⟩ :=
    insert_count_all_spec ks [⟨k.length, none, none, none, .BLACK, k⟩]
      (.node .BLACK .nil 0 k .nil) inserted (if inserted then c_int (0 + 1) else 0) fuel
      (singleton_rep k) (singleton_RBInv 0 k) (by simp)
      (by simp only [List.length_singleton]; omega)
  have hd := hr2.depth_le (hr2.addrs_nodup hi2.keys_nodup)
  simp only [List.length_singleton] at hlen2
  have hn := rbt_num_nodes_spec fuel hr2 (by omega)
  have h01 : c_int (0 + 1) = 1 := by decide
  have hrg : c_int c2 = c2 := by
    apply hrg2
    cases inserted
    · simp only [Bool.false_eq_true, if_false]; decide
    · simp only [if_true, h01]; decide
  have hsz : c_int (t2.size : Int) = c_int (c2 + (if inserted then 0 else 1)) := by
    have e1 : ((Tree.node .BLACK .nil 0 k .nil).size : Int) = 1 := by
      simp [Tree.size]
    rw [e1] at hc2
    cases inserted
    · simp only [Bool.false_eq_true, if_false] at hc2 ⊢
      rw [← hrg, hc2, c_int_add_left]
      have e3 : (0 : Int) + (t2.size : Int) - 1 + 1 = (t2.size : Int) := by omega
      rw [e3]
    · simp only [if_true, h01] at hc2 ⊢
      rw [← hrg, hc2, c_int_add_left]
      have e3 : (1 : Int) + (t2.size : Int) - 1 + 0 = (t2.size : Int) := by omega
      rw [e3]
  rw [hsz] at hn
  refine ⟨h2, t2.root, ins2, c2, ?_, hn, ?_⟩
  · simp only [insert_count_all, rbt_insert_empty, bind, Except.bind, List.nil_append,
      List.length_nil]
    exact e2
  · simp only [check_num_nodes, hn, bind, Except.bind, c_assert]
    cases inserted
    · have hne : c_int (c2 + 1) ≠ c2 := by
        intro hx
        rw [← hrg] at hx
        unfold c_int at hx
        omega
      simp [hne]
    · simp [hrg]

/-- C11 at the single key "x" with the flag holding false: the counter is 0
and the tree has one node. -/
theorem insert_count_all_first_call_witness :
    2 * (([] : List (List Byte)).length + 1) + 3 ≤ 5 ∧
    insert_count_all 5 [[120]] ([], none, false, 0) =
      .ok ([⟨1, none, none, none, .BLACK, [120]⟩], some 0, false, 0) ∧
    rbt_num_nodes 5 [⟨1, none, none, none, .BLACK, [120]⟩] (some 0) = .ok 1 ∧
    check_num_nodes 5 ([⟨1, none, none, none, .BLACK, [120]⟩], some 0, false, 0)
      = .error .assertFailed ∧
    ∃ h root inserted2 count,
      insert_count_all 5 [[120]] ([], none, false, 0) = .ok (h, root, inserted2, count) ∧
      rbt_num_nodes 5 h root = .ok (c_int (count + (if false then 0 else 1))) ∧
      check_num_nodes 5 (h, root, inserted2, count)
        = (if false then .ok () else .error .assertFailed) :=
  ⟨by decide, by decide, by decide, by decide,
    insert_count_all_first_call [120] [] false 5 (by decide)⟩

/-- C12: the count law, within the range of `int`.  After the
`N = ks.length` calls of `rbt_insert` for the keys of any list, started from
the empty tree, of which `D = countDuplicates [] ks` pass a key that compares
equal to a key passed by an earlier call, and with `N - D` at most `INT_MAX`
(`2 ^ 31 - 1`), the run returns and `rbt_num_nodes` of the final root returns
`N - D`. -/
theorem rbt_num_nodes_count_law (ks : List (List Byte)) (inserted : Bool) (fuel : Nat)
    (hfuel : 2 * ks.length + 3 ≤ fuel)
    (hrange : ks.length - countDuplicates [] ks < 2147483648) :
    ∃ h root inserted2,
      insert_all fuel ks ([], none, inserted) = .ok (h, root, inserted2) ∧
      rbt_num_nodes fuel h root = .ok ((ks.length - countDuplicates [] ks : Nat) : Int) ∧
      countDuplicates [] ks ≤ ks.length := by
  obtain ⟨h2, root, ins2, e, hn, hle⟩ := rbt_num_nodes_insert_all ks inserted fuel hfuel
  rw [c_int_of_range (by omega) (by omega)] at hn
  exact ⟨h2, root, ins2, e, hn, hle⟩

/-- C12 at the keys d, b, d: three calls, one duplicate, two nodes. -/
theorem rbt_num_nodes_count_law_witness :
    2 * ([[100], [98], [100]] : List (List Byte)).length + 3 ≤ 9 ∧
    countDuplicates [] [[100], [98], [100]] = 1 ∧
    ∃ h root inserted2,
      insert_all 9 [[100], [98], [100]] ([], none, false) = .ok (h, root, inserted2) ∧
      rbt_num_nodes 9 h root
        = .ok ((([[100], [98], [100]] : List (List Byte)).length
            - countDuplicates [] [[100], [98], [100]] : Nat) : Int) ∧
      countDuplicates [] [[100], [98], [100]]
        ≤ ([[100], [98], [100]] : List (List Byte)).length :=
  ⟨by decide, by decide,
    rbt_num_nodes_count_law [[100], [98], [100]] false 9 (by decide) (by decide)⟩

/-- C12 beyond the range of `int`: the count law fails.  After the `2 ^ 31` calls
for the distinct four-byte keys of 0, 1, .., `2 ^ 31 - 1` (`N = 2 ^ 31`,
`D = 0`) the run returns, and `rbt_num_nodes`, whose result is an `int`,
does not return `N - D = 2 ^ 31`: the sum has wrapped to `INT_MIN`. -/
theorem rbt_num_nodes_count_law_overflow :
    manyKeys.length - countDuplicates [] manyKeys = 2147483648 ∧
    ∃ h root inserted2,
      insert_all 4294967299 manyKeys ([], none, false) = .ok (h, root, inserted2) ∧
      rbt_num_nodes 4294967299 h root = .ok (-2147483648) ∧
      rbt_num_nodes 4294967299 h root
        ≠ .ok ((manyKeys.length - countDuplicates [] manyKeys : Nat) : Int) := by
  have hnd : (([] : List (List Byte)) ++ manyKeys).Nodup := by
    rw [List.nil_append]
    exact manyKeys_nodup
  have hD : countDuplicates [] manyKeys = 0 := countDuplicates_eq_zero manyKeys [] hnd
  have hN : manyKeys.length - countDuplicates [] manyKeys = 2147483648 := by
    rw [hD, manyKeys_length, Nat.sub_zero]
  have hfuel : 2 * manyKeys.length + 3 ≤ 4294967299 := by
    rw [manyKeys_length]
  obtain ⟨h2, root, ins2, e, hn, -⟩ := rbt_num_nodes_insert_all manyKeys false 4294967299 hfuel
  have hw : c_int ((manyKeys.length - countDuplicates [] manyKeys : Nat) : Int)
      = -2147483648 := by
    rw [hN]
    unfold c_int
    omega
  rw [hw] at hn
  refine ⟨hN, h2, root, ins2, e, hn, ?_⟩
  rw [hn, hN]
  intro hx
  have hx2 := Except.ok.inj hx
  omega

/-- C13: the height bound.  Every tree obtained from the empty tree by the
`rbt_insert` calls for the keys of any list, with `n` nodes (the value
`rbt_num_nodes` returns while `n` fits an `int`) and height `h` (nodes on the
longest path from the root down to a null leaf), satisfies
`2 ^ h ≤ (n + 1) ^ 2` and `h ≤ 2 * log2 (n + 1)`. -/
theorem insert_all_height_bound (ks : List (List Byte)) (inserted : Bool) (fuel : Nat)
    (hfuel : 2 * ks.length + 3 ≤ fuel) :
    ∃ h root inserted2 t,
      insert_all fuel ks ([], none, inserted) = .ok (h, root, inserted2) ∧
      t.root = root ∧ Rep h none t ∧
      (t.size < 2147483648 → rbt_num_nodes fuel h root = .ok (t.size : Int)) ∧
      2 ^ t.depth ≤ (t.size + 1) ^ 2 ∧ t.depth ≤ 2 * Nat.log 2 (t.size + 1) := by
  obtain ⟨h2, ins2, t2, e, hr2, hi2, -, hlen⟩ := insert_all_spec ks [] .nil inserted fuel
    trivial RBInv.nil (by simpa using hfuel)
  have hd := hr2.depth_le (hr2.addrs_nodup hi2.keys_nodup)
  simp only [List.length_nil, Nat.zero_add] at hlen
  exact ⟨h2, _, ins2, t2, e, rfl, hr2,
    fun hs => rbt_num_nodes_spec_range fuel hr2 (by omega) hs,
    hi2.height_bound.1, hi2.height_bound.2⟩

/-- C13 at the keys d, b, a: three nodes, height 2. -/
theorem insert_all_height_bound_witness :
    2 * ([[100], [98], [97]] : List (List Byte)).length + 3 ≤ 9 ∧
    ∃ h root inserted2 t,
      insert_all 9 [[100], [98], [97]] ([], none, false) = .ok (h, root, inserted2) ∧
      t.root = root ∧ Rep h none t ∧
      (t.size < 2147483648 → rbt_num_nodes 9 h root = .ok (t.size : Int)) ∧
      2 ^ t.depth ≤ (t.size + 1) ^ 2 ∧ t.depth ≤ 2 * Nat.log 2 (t.size + 1) :=
  ⟨by decide, insert_all_height_bound [[100], [98], [97]] false 9 (by decide)⟩

/-! ## Rotations inside a whole tree -/

/-- Two heaps holding the same tree agree on every field of its records,
the parent pointer of the top node apart when the trees hang below
different parents. -/
theorem Rep.fields_eq {h1 h2 : Heap} {t : Tree} : ∀ {par1 par2 : Ptr}, Rep h1 par1 t →
    Rep h2 par2 t → ∀ a ∈ t.addrs, ∃ nd nd2, h1[a]? = some nd ∧ h2[a]? = some nd2 ∧
      nd2.color = nd.color ∧ nd2.data = nd.data ∧ nd2.data_size = nd.data_size ∧
      nd2.left = nd.left ∧ nd2.right = nd.right ∧
      ((par1 = par2 ∨ t.root ≠ some a) → nd2.parent = nd.parent) := by
  induction t with
  | nil => intro _ _ _ _ a ha; simp at ha
  | node c l x k r ihl ihr =>
    intro par1 par2 hr1 hr2 a ha
    obtain ⟨e1, l1, r1⟩ := hr1
    obtain ⟨e2, l2, r2⟩ := hr2
    simp only [Tree.addrs_node, List.mem_append, List.mem_cons] at ha
    rcases ha with ha | rfl | ha
    · obtain ⟨nd, nd2, g1, g2, f1, f2, f3, f4, f5, f6⟩ := ihl l1 l2 a ha
      exact ⟨nd, nd2, g1, g2, f1, f2, f3, f4, f5, fun _ => f6 (Or.inl rfl)⟩
    · refine ⟨_, _, e1, e2, rfl, rfl, rfl, rfl, rfl, ?_⟩
      rintro (e | e)
      · exact e.symm
      · exact absurd rfl e
    · obtain ⟨nd, nd2, g1, g2, f1, f2, f3, f4, f5, f6⟩ := ihr r1 r2 a ha
      exact ⟨nd, nd2, g1, g2, f1, f2, f3, f4, f5, fun _ => f6 (Or.inl rfl)⟩

theorem Rep.get_eq {h1 h2 : Heap} {t : Tree} : ∀ {par : Ptr}, Rep h1 par t → Rep h2 par t →
    ∀ a ∈ t.addrs, h2[a]? = h1[a]? := by
  induction t with
  | nil => intro _ _ _ a ha; simp at ha
  | node c l x k r ihl ihr =>
    intro par hr1 hr2 a ha
    obtain ⟨e1, l1, r1⟩ := hr1
    obtain ⟨e2, l2, r2⟩ := hr2
    simp only [Tree.addrs_node, List.mem_append, List.mem_cons] at ha
    rcases ha with ha | rfl | ha
    · exact ihl l1 l2 a ha
    · rw [e1, e2]
    · exact ihr r1 r2 a ha

/-- The record of the node above the hole of a context. -/
theorem RepCtx.parent_slot {h : Heap} {ctx : Ctx} {T : Tree} {g gp : Nat}
    (hc : RepCtx h ctx T.root) (hg : T.root = some g) (hnd : (ctx.plug T).addrs.Nodup)
    (hp : ctx.parent = some gp) :
    ∃ nd, h[gp]? = some nd ∧
      ((nd.left = some g ∧ nd.right ≠ some g) ∨ (nd.left ≠ some g ∧ nd.right = some g)) := by
  rw [Ctx.nodup_plug, List.nodup_append] at hnd
  obtain ⟨-, hcn, hdis⟩ := hnd
  have hgm := Tree.root_mem_addrs hg
  cases ctx with
  | top => cases hp
  | left c a k r up =>
    obtain ⟨h1, -, -⟩ := hc
    simp only [Ctx.parent, Option.some.injEq] at hp
    subst hp
    refine ⟨_, h1, Or.inl ⟨hg, ?_⟩⟩
    intro e
    exact hdis hgm (by simp [Ctx.addrs, Tree.root_mem_addrs e])
  | right c l a k up =>
    obtain ⟨h1, -, -⟩ := hc
    simp only [Ctx.parent, Option.some.injEq] at hp
    subst hp
    refine ⟨_, h1, Or.inr ⟨?_, hg⟩⟩
    intro e
    exact hdis hgm (by simp [Ctx.addrs, Tree.root_mem_addrs e])

theorem rotate_right_whole {h : Heap} {ctx : Ctx} {cg cp : Color} {A B C : Tree} {g p : Nat}
    {kg kp : List Byte}
    (hrep : Rep h none (ctx.plug (.node cg (.node cp A p kp B) g kg C)))
    (hnd : (ctx.plug (.node cg (.node cp A p kp B) g kg C)).addrs.Nodup) :
    ∃ h2, rotate_right h (some g) = .ok h2 ∧
      Rewired h h2 ctx.parent (.node cg (.node cp A p kp B) g kg C)
        (.node cp A p kp (.node cg B g kg C)) ∧
      Rep h2 none (ctx.plug (.node cp A p kp (.node cg B g kg C))) := by
  obtain ⟨hc, hT⟩ := rep_plug.mp hrep
  have hndT := hnd
  rw [Ctx.nodup_plug, List.nodup_append] at hndT
  obtain ⟨h2, e, hrw⟩ := rotate_right_spec hT hndT.1 (hc.hpar hnd)
  exact ⟨h2, e, hrw, (rewired_finish hrep hnd rfl hrw).1⟩

theorem rotate_left_whole {h : Heap} {ctx : Ctx} {cg cp : Color} {A B C : Tree} {g p : Nat}
    {kg kp : List Byte}
    (hrep : Rep h none (ctx.plug (.node cg C g kg (.node cp B p kp A))))
    (hnd : (ctx.plug (.node cg C g kg (.node cp B p kp A))).addrs.Nodup) :
    ∃ h2, rotate_left h (some g) = .ok h2 ∧
      Rewired h h2 ctx.parent (.node cg C g kg (.node cp B p kp A))
        (.node cp (.node cg C g kg B) p kp A) ∧
      Rep h2 none (ctx.plug (.node cp (.node cg C g kg B) p kp A)) := by
  obtain ⟨hc, hT⟩ := rep_plug.mp hrep
  have hndT := hnd
  rw [Ctx.nodup_plug, List.nodup_append] at hndT
  obtain ⟨h2, e, hrw⟩ := rotate_left_spec hT hndT.1 (hc.hpar hnd)
  exact ⟨h2, e, hrw, (rewired_finish hrep hnd rfl hrw).1⟩

/-- C15: rotations preserve the in-order key sequence and the parent links.
In a tree with consistent links (held by the heap as `ctx.plug T`, `T` the
subtree at `g`), `rotate_right` at a node `g` with a left child `p`, and
`rotate_left` at a node `g` with a right child `p`, return; the heap then
holds, with consistent child and parent links and no parent above the top
node, a tree whose top node is `p` when `g` was the root and the old root
otherwise, and whose in-order key sequence is that of the tree before. -/
theorem rotate_preserves_inorder :
    (∀ (h : Heap) (ctx : Ctx) (cg cp : Color) (A B C : Tree) (g p : Nat) (kg kp : List Byte),
      Rep h none (ctx.plug (.node cg (.node cp A p kp B) g kg C)) →
      (ctx.plug (.node cg (.node cp A p kp B) g kg C)).addrs.Nodup →
      ∃ h2, rotate_right h (some g) = .ok h2 ∧
        Rep h2 none (ctx.plug (.node cp A p kp (.node cg B g kg C))) ∧
        (ctx.plug (.node cp A p kp (.node cg B g kg C))).root =
          (if some g = (ctx.plug (.node cg (.node cp A p kp B) g kg C)).root then some p
            else (ctx.plug (.node cg (.node cp A p kp B) g kg C)).root) ∧
        (ctx.plug (.node cp A p kp (.node cg B g kg C))).keys =
          (ctx.plug (.node cg (.node cp A p kp B) g kg C)).keys) ∧
    (∀ (h : Heap) (ctx : Ctx) (cg cp : Color) (A B C : Tree) (g p : Nat) (kg kp : List Byte),
      Rep h none (ctx.plug (.node cg C g kg (.node cp B p kp A))) →
      (ctx.plug (.node cg C g kg (.node cp B p kp A))).addrs.Nodup →
      ∃ h2, rotate_left h (some g) = .ok h2 ∧
        Rep h2 none (ctx.plug (.node cp (.node cg C g kg B) p kp A)) ∧
        (ctx.plug (.node cp (.node cg C g kg B) p kp A)).root =
          (if some g = (ctx.plug (.node cg C g kg (.node cp B p kp A))).root then some p
            else (ctx.plug (.node cg C g kg (.node cp B p kp A))).root) ∧
        (ctx.plug (.node cp (.node cg C g kg B) p kp A)).keys =
          (ctx.plug (.node cg C g kg (.node cp B p kp A))).keys) := by
  constructor
  · intro h ctx cg cp A B C g p kg kp hrep hnd
    obtain ⟨h2, e, hrw, hr2⟩ := rotate_right_whole hrep hnd
    refine ⟨h2, e, hr2, ((rewired_finish hrep hnd rfl hrw).2.2.2).symm, ?_⟩
    simp only [Ctx.keys_plug, Tree.keys_node, List.append_assoc, List.cons_append]
  · intro h ctx cg cp A B C g p kg kp hrep hnd
    obtain ⟨h2, e, hrw, hr2⟩ := rotate_left_whole hrep hnd
    refine ⟨h2, e, hr2, ((rewired_finish hrep hnd rfl hrw).2.2.2).symm, ?_⟩
    simp only [Ctx.keys_plug, Tree.keys_node, List.append_assoc, List.cons_append]

/-- C15 at the root of the three-node tree "a" < "b" < "c": rotating right
promotes "a", rotating left promotes "c", and the keys stay a, b, c. -/
theorem rotate_preserves_inorder_witness :
    (∃ h2, rotate_right exampleHeap (some 0) = .ok h2 ∧
      Rep h2 none (Ctx.top.plug (.node .RED .nil 1 [97]
        (.node .BLACK .nil 0 [98] (.node .RED .nil 2 [99] .nil)))) ∧
      (Ctx.top.plug (.node .RED .nil 1 [97]
        (.node .BLACK .nil 0 [98] (.node .RED .nil 2 [99] .nil)))).root =
        (if some 0 = (Ctx.top.plug exampleTree).root then some 1
          else (Ctx.top.plug exampleTree).root) ∧
      (Ctx.top.plug (.node .RED .nil 1 [97]
        (.node .BLACK .nil 0 [98] (.node .RED .nil 2 [99] .nil)))).keys =
        (Ctx.top.plug exampleTree).keys) ∧
    (∃ h2, rotate_left exampleHeap (some 0) = .ok h2 ∧
      Rep h2 none (Ctx.top.plug (.node .RED
        (.node .BLACK (.node .RED .nil 1 [97] .nil) 0 [98] .nil) 2 [99] .nil)) ∧
      (Ctx.top.plug (.node .RED
        (.node .BLACK (.node .RED .nil 1 [97] .nil) 0 [98] .nil) 2 [99] .nil)).root =
        (if some 0 = (Ctx.top.plug exampleTree).root then some 2
          else (Ctx.top.plug exampleTree).root) ∧
      (Ctx.top.plug (.node .RED
        (.node .BLACK (.node .RED .nil 1 [97] .nil) 0 [98] .nil) 2 [99] .nil)).keys =
        (Ctx.top.plug exampleTree).keys) :=
  ⟨rotate_preserves_inorder.1 exampleHeap .top .BLACK .RED .nil .nil
      (.node .RED .nil 2 [99] .nil) 0 1 [98] [97] exampleHeap_rep (by decide),
    rotate_preserves_inorder.2 exampleHeap .top .BLACK .RED .nil .nil
      (.node .RED .nil 1 [97] .nil) 0 2 [98] [99] exampleHeap_rep (by decide)⟩

/-! ## What a rotation leaves untouched -/

/-- The frame of a local surgery: records outside the rewired subtree and
its parent slot keep every field; the parent keeps all but the child slot
that held the old top node. -/
theorem Rewired.outside {h h2 : Heap} {ctx : Ctx} {T T2 : Tree} {g : Nat}
    (hrw : Rewired h h2 ctx.parent T T2) (hrep : Rep h none (ctx.plug T))
    (hnd : (ctx.plug T).addrs.Nodup) (hg : T.root = some g) {a : Nat} {nd nd2 : Node}
    (ha : a ∉ T.addrs) (e1 : h[a]? = some nd) (e2 : h2[a]? = some nd2) :
    nd2.color = nd.color ∧ nd2.data = nd.data ∧ nd2.data_size = nd.data_size ∧
      nd2.parent = nd.parent ∧
      (nd2.left ≠ nd.left → ctx.parent = some a ∧ nd.left = some g) ∧
      (nd2.right ≠ nd.right → ctx.parent = some a ∧ nd.right = some g) := by
  obtain ⟨hc, -⟩ := rep_plug.mp hrep
  by_cases hp : ctx.parent = some a
  · obtain ⟨nd0, e0, hs⟩ := hc.parent_slot hg hnd hp
    rw [e1] at e0
    cases e0
    have := hrw.slot a nd hp e1
    rw [e2, hg] at this
    cases this
    rcases hs with ⟨s1, s2⟩ | ⟨s1, s2⟩
    · simp [s1, hp]
    · simp [s1, s2, hp]
  · have := hrw.frame a ha (fun e => hp e.symm)
    rw [e1, e2] at this
    cases this
    simp

/-- C19: what the rotations touch.  For a tree with consistent links and a
node `g` with the required child `p` (`B` is the subtree that changes
sides), `rotate_right(g)` and `rotate_left(g)` return a heap of the same
size in which every record keeps its colour, its key bytes and its
`data_size`; a `left` or `right` link differs from before only at `g` (the
slot on the promoted side), at `p` (the opposite slot) and at the slot of
the former parent of `g` that held `g`; a `parent` link differs only at `g`,
at `p` and at the top node of `B`. -/
theorem rotate_frame :
    (∀ (h : Heap) (ctx : Ctx) (cg cp : Color) (A B C : Tree) (g p : Nat) (kg kp : List Byte),
      Rep h none (ctx.plug (.node cg (.node cp A p kp B) g kg C)) →
      (ctx.plug (.node cg (.node cp A p kp B) g kg C)).addrs.Nodup →
      ∃ h2, rotate_right h (some g) = .ok h2 ∧ h2.length = h.length ∧
        ∀ a nd nd2, h[a]? = some nd → h2[a]? = some nd2 →
          nd2.color = nd.color ∧ nd2.data = nd.data ∧ nd2.data_size = nd.data_size ∧
          (nd2.left ≠ nd.left → a = g ∨ (ctx.parent = some a ∧ nd.left = some g)) ∧
          (nd2.right ≠ nd.right → a = p ∨ (ctx.parent = some a ∧ nd.right = some g)) ∧
          (nd2.parent ≠ nd.parent → a = g ∨ a = p ∨ B.root = some a)) ∧
    (∀ (h : Heap) (ctx : Ctx) (cg cp : Color) (A B C : Tree) (g p : Nat) (kg kp : List Byte),
      Rep h none (ctx.plug (.node cg C g kg (.node cp B p kp A))) →
      (ctx.plug (.node cg C g kg (.node cp B p kp A))).addrs.Nodup →
      ∃ h2, rotate_left h (some g) = .ok h2 ∧ h2.length = h.length ∧
        ∀ a nd nd2, h[a]? = some nd → h2[a]? = some nd2 →
          nd2.color = nd.color ∧ nd2.data = nd.data ∧ nd2.data_size = nd.data_size ∧
          (nd2.left ≠ nd.left → a = p ∨ (ctx.parent = some a ∧ nd.left = some g)) ∧
          (nd2.right ≠ nd.right → a = g ∨ (ctx.parent = some a ∧ nd.right = some g)) ∧
          (nd2.parent ≠ nd.parent → a = g ∨ a = p ∨ B.root = some a)) := by
  constructor
  · intro h ctx cg cp A B C g p kg kp hrep hnd
    obtain ⟨h2, e, hrw, -⟩ := rotate_right_whole hrep hnd
    refine ⟨h2, e, hrw.length_eq, ?_⟩
    intro a nd nd2 e1 e2
    by_cases ha : a ∈ (Tree.node cg (.node cp A p kp B) g kg C).addrs
    · obtain ⟨-, hT⟩ := rep_plug.mp hrep
      obtain ⟨hg, ⟨hp, hA, hB⟩, hC⟩ := hT
      obtain ⟨hp2, hA2, hg2, hB2, hC2⟩ := hrw.rep
      simp only [Tree.addrs_node, List.mem_append, List.mem_cons] at ha
      rcases ha with (ha | rfl | ha) | rfl | ha
      · obtain ⟨x, y, g1, g2, f1, f2, f3, f4, f5, f6⟩ := hA.fields_eq hA2 a ha
        rw [e1] at g1; rw [e2] at g2; cases g1; cases g2
        simp [f1, f2, f3, f4, f5, f6 (Or.inl rfl)]
      · rw [e1] at hp; rw [e2] at hp2; cases hp; cases hp2
        simp
      · obtain ⟨x, y, g1, g2, f1, f2, f3, f4, f5, f6⟩ := hB.fields_eq hB2 a ha
        rw [e1] at g1; rw [e2] at g2; cases g1; cases g2
        refine ⟨f1, f2, f3, by simp [f4], by simp [f5], ?_⟩
        intro hne
        by_cases hb : B.root = some a
        · exact Or.inr (Or.inr hb)
        · exact absurd (f6 (Or.inr hb)) hne
      · rw [e1] at hg; rw [e2] at hg2; cases hg; cases hg2
        simp
      · obtain ⟨x, y, g1, g2, f1, f2, f3, f4, f5, f6⟩ := hC.fields_eq hC2 a ha
        rw [e1] at g1; rw [e2] at g2; cases g1; cases g2
        simp [f1, f2, f3, f4, f5, f6 (Or.inl rfl)]
    · obtain ⟨f1, f2, f3, f4, f5, f6⟩ := hrw.outside hrep hnd rfl ha e1 e2
      exact ⟨f1, f2, f3, fun x => Or.inr (f5 x), fun x => Or.inr (f6 x),
        fun x => absurd f4 x⟩
  · intro h ctx cg cp A B C g p kg kp hrep hnd
    obtain ⟨h2, e, hrw, -⟩ := rotate_left_whole hrep hnd
    refine ⟨h2, e, hrw.length_eq, ?_⟩
    intro a nd nd2 e1 e2
    by_cases ha : a ∈ (Tree.node cg C g kg (.node cp B p kp A)).addrs
    · obtain ⟨-, hT⟩ := rep_plug.mp hrep
      obtain ⟨hg, hC, hp, hB, hA⟩ := hT
      obtain ⟨hp2, ⟨hg2, hC2, hB2⟩, hA2⟩ := hrw.rep
      simp only [Tree.addrs_node, List.mem_append, List.mem_cons] at ha
      rcases ha with ha | rfl | ha | rfl | ha
      · obtain ⟨x, y, g1, g2, f1, f2, f3, f4, f5, f6⟩ := hC.fields_eq hC2 a ha
        rw [e1] at g1; rw [e2] at g2; cases g1; cases g2
        simp [f1, f2, f3, f4, f5, f6 (Or.inl rfl)]
      · rw [e1] at hg; rw [e2] at hg2; cases hg; cases hg2
        simp
      · obtain ⟨x, y, g1, g2, f1, f2, f3, f4, f5, f6⟩ := hB.fields_eq hB2 a ha
        rw [e1] at g1; rw [e2] at g2; cases g1; cases g2
        refine ⟨f1, f2, f3, by simp [f4], by simp [f5], ?_⟩
        intro hne
        by_cases hb : B.root = some a
        · exact Or.inr (Or.inr hb)
        · exact absurd (f6 (Or.inr hb)) hne
      · rw [e1] at hp; rw [e2] at hp2; cases hp; cases hp2
        simp
      · obtain ⟨x, y, g1, g2, f1, f2, f3, f4, f5, f6⟩ := hA.fields_eq hA2 a ha
        rw [e1] at g1; rw [e2] at g2; cases g1; cases g2
        simp [f1, f2, f3, f4, f5, f6 (Or.inl rfl)]
    · obtain ⟨f1, f2, f3, f4, f5, f6⟩ := hrw.outside hrep hnd rfl ha e1 e2
      exact ⟨f1, f2, f3, fun x => Or.inr (f5 x), fun x => Or.inr (f6 x),
        fun x => absurd f4 x⟩

/-- C19 at the root of the three-node tree (`rotate_right`, no parent, no
grandchild to transfer) and at the node "c" below the root "b" with its
right child "d" (`rotate_left`, where the right slot of "b" is rewritten). -/
theorem rotate_frame_witness :
    rotate_left attachedHeap (some 2) =
      .ok [⟨1, some 1, some 3, none, .BLACK, [98]⟩, ⟨1, none, none, some 0, .RED, [97]⟩,
        ⟨1, none, none, some 3, .RED, [99]⟩, ⟨1, some 2, none, some 0, .RED, [100]⟩] ∧
    (∃ h2, rotate_right exampleHeap (some 0) = .ok h2 ∧ h2.length = exampleHeap.length ∧
      ∀ a nd nd2, exampleHeap[a]? = some nd → h2[a]? = some nd2 →
        nd2.color = nd.color ∧ nd2.data = nd.data ∧ nd2.data_size = nd.data_size ∧
        (nd2.left ≠ nd.left → a = 0 ∨ (Ctx.top.parent = some a ∧ nd.left = some 0)) ∧
        (nd2.right ≠ nd.right → a = 1 ∨ (Ctx.top.parent = some a ∧ nd.right = some 0)) ∧
        (nd2.parent ≠ nd.parent → a = 0 ∨ a = 1 ∨ Tree.nil.root = some a)) ∧
    (∃ h2, rotate_left attachedHeap (some 2) = .ok h2 ∧ h2.length = attachedHeap.length ∧
      ∀ a nd nd2, attachedHeap[a]? = some nd → h2[a]? = some nd2 →
        nd2.color = nd.color ∧ nd2.data = nd.data ∧ nd2.data_size = nd.data_size ∧
        (nd2.left ≠ nd.left → a = 3 ∨
          ((Ctx.right .BLACK (.node .RED .nil 1 [97] .nil) 0 [98] .top).parent = some a ∧
            nd.left = some 2)) ∧
        (nd2.right ≠ nd.right → a = 2 ∨
          ((Ctx.right .BLACK (.node .RED .nil 1 [97] .nil) 0 [98] .top).parent = some a ∧
            nd.right = some 2)) ∧
        (nd2.parent ≠ nd.parent → a = 2 ∨ a = 3 ∨ Tree.nil.root = some a)) :=
  ⟨by decide,
    rotate_frame.1 exampleHeap .top .BLACK .RED .nil .nil (.node .RED .nil 2 [99] .nil) 0 1
      [98] [97] exampleHeap_rep (by decide),
    rotate_frame.2 attachedHeap (.right .BLACK (.node .RED .nil 1 [97] .nil) 0 [98] .top)
      .RED .RED .nil .nil .nil 2 3 [99] [100]
      (by simp [attachedHeap, Rep_node, Ctx.plug]) (by decide)⟩

/-! ## The surgery inlined in case 4 -/

set_option maxHeartbeats 1600000 in
theorem insert_case4_then_LR {α : Type} (next : Heap → Ptr → Ptr → Except Fault α) {h : Heap} {par : Ptr}
    (root : Ptr) {cg cp cn : Color}
    {l r S U : Tree} {g p n : Nat} {kg kp k : List Byte}
    (hr : Rep h par (.node cg (.node cp S p kp (.node cn l n k r)) g kg U))
    (hnd : (Tree.node cg (.node cp S p kp (.node cn l n k r)) g kg U).addrs.Nodup) :
    ∃ h1, insert_case4_then next h root (some n) = next h1 root (some p) ∧
      h1.length = h.length ∧
      Rep h1 par (.node cg (.node cn (.node cp S p kp l) n k r) g kg U) ∧
      ∀ a, a ∉ (Tree.node cg (.node cp S p kp (.node cn l n k r)) g kg U).addrs →
        h1[a]? = h[a]? := by
  obtain ⟨hg, ⟨hp, hS, ⟨hn, hl, hrr⟩⟩, hU⟩ := hr
  cases l with
  | nil =>
    simp only [Tree.root_node, Tree.root_nil] at hg hp hn
    simp only [Tree.addrs_node, Tree.addrs_nil, List.nodup_append, List.nodup_cons,
      List.mem_append, List.mem_cons, not_or, List.disjoint_cons_right,
      List.disjoint_append_left, List.disjoint_cons_left, List.disjoint_append_right]
      at hnd
    have n1 : g ≠ p := by tauto
    have n2 : g ≠ n := by tauto
    have n3 : p ≠ n := by tauto
    simp [insert_case4_then, grandparent, deref, store, hg, hp, hn, bind, Except.bind,
      pure, Except.pure, heap_get_set, n1, n2, n3, n1.symm, n2.symm, n3.symm]
    refine ⟨_, rfl, by simp, ?_, ?_⟩
    · simp only [Rep_node, Rep_nil, Tree.root_node, Tree.root_nil, heap_get_set, hg, hp, hn,
        n1, n2, n3, n1.symm, n2.symm, n3.symm, if_true, if_false, Option.map_some', true_and,
        and_true]
      repeat' apply And.intro
      all_goals (repeat (first | assumption | apply Rep.set))
      all_goals tauto
    · intro a
      intros
      simp only [heap_get_set]
      simp only [*, if_false]
  | node cb Bl b kb Br =>
    obtain ⟨hb, hBl, hBr⟩ := hl
    simp only [Tree.root_node, Tree.root_nil] at hg hp hn hb
    simp only [Tree.addrs_node, Tree.addrs_nil, List.nodup_append, List.nodup_cons,
      List.mem_append, List.mem_cons, not_or, List.disjoint_cons_right,
      List.disjoint_append_left, List.disjoint_cons_left, List.disjoint_append_right]
      at hnd
    have n1 : g ≠ p := by tauto
    have n2 : g ≠ n := by tauto
    have n3 : p ≠ n := by tauto
    have n4 : g ≠ b := by tauto
    have n5 : p ≠ b := by tauto
    have n6 : n ≠ b := by tauto
    simp [insert_case4_then, grandparent, deref, store, hg, hp, hn, hb, bind, Except.bind,
      pure, Except.pure, heap_get_set, n1, n2, n3, n1.symm, n2.symm, n3.symm,
      n4, n5, n6, n4.symm, n5.symm, n6.symm]
    refine ⟨_, rfl, by simp, ?_, ?_⟩
    · simp only [Rep_node, Rep_nil, Tree.root_node, Tree.root_nil, heap_get_set, hg, hp, hn, hb,
        n1, n2, n3, n1.symm, n2.symm, n3.symm, n4, n5, n6, n4.symm, n5.symm, n6.symm,
        if_true, if_false, Option.map_some', true_and, and_true]
      repeat' apply And.intro
      all_goals (repeat (first | assumption | apply Rep.set))
      all_goals tauto
    · intro a
      intros
      simp only [heap_get_set]
      simp only [*, if_false]

set_option maxHeartbeats 1600000 in
theorem insert_case4_then_RL {α : Type} (next : Heap → Ptr → Ptr → Except Fault α) {h : Heap} {par : Ptr}
    (root : Ptr) {cg cp cn : Color}
    {l r S U : Tree} {g p n : Nat} {kg kp k : List Byte}
    (hr : Rep h par (.node cg U g kg (.node cp (.node cn l n k r) p kp S)))
    (hnd : (Tree.node cg U g kg (.node cp (.node cn l n k r) p kp S)).addrs.Nodup) :
    ∃ h1, insert_case4_then next h root (some n) = next h1 root (some p) ∧
      h1.length = h.length ∧
      Rep h1 par (.node cg U g kg (.node cn l n k (.node cp r p kp S))) ∧
      ∀ a, a ∉ (Tree.node cg U g kg (.node cp (.node cn l n k r) p kp S)).addrs →
        h1[a]? = h[a]? := by
  obtain ⟨hg, hU, ⟨hp, ⟨hn, hrr, hl⟩, hS⟩⟩ := hr
  cases r with
  | nil =>
    simp only [Tree.root_node, Tree.root_nil] at hg hp hn
    simp only [Tree.addrs_node, Tree.addrs_nil, List.nodup_append, List.nodup_cons,
      List.mem_append, List.mem_cons, not_or, List.disjoint_cons_right,
      List.disjoint_append_left, List.disjoint_cons_left, List.disjoint_append_right]
      at hnd
    have n1 : g ≠ p := by tauto
    have n2 : g ≠ n := by tauto
    have n3 : p ≠ n := by tauto
    have n7 : S.root ≠ some n := Tree.root_ne_of_not_mem (by tauto)
    simp [insert_case4_then, grandparent, deref, store, hg, hp, hn, bind, Except.bind,
      pure, Except.pure, heap_get_set, n1, n2, n3, n1.symm, n2.symm, n3.symm, n7, n7.symm]
    refine ⟨_, rfl, by simp, ?_, ?_⟩
    · simp only [Rep_node, Rep_nil, Tree.root_node, Tree.root_nil, heap_get_set, hg, hp, hn,
        n1, n2, n3, n1.symm, n2.symm, n3.symm, if_true, if_false, Option.map_some', true_and,
        and_true]
      repeat' apply And.intro
      all_goals (repeat (first | assumption | apply Rep.set))
      all_goals tauto
    · intro a
      intros
      simp only [heap_get_set]
      simp only [*, if_false]
  | node cb Bl b kb Br =>
    obtain ⟨hb, hBl, hBr⟩ := hl
    simp only [Tree.root_node, Tree.root_nil] at hg hp hn hb
    simp only [Tree.addrs_node, Tree.addrs_nil, List.nodup_append, List.nodup_cons,
      List.mem_append, List.mem_cons, not_or, List.disjoint_cons_right,
      List.disjoint_append_left, List.disjoint_cons_left, List.disjoint_append_right]
      at hnd
    have n1 : g ≠ p := by tauto
    have n2 : g ≠ n := by tauto
    have n3 : p ≠ n := by tauto
    have n7 : S.root ≠ some n := Tree.root_ne_of_not_mem (by tauto)
    have n4 : g ≠ b := by tauto
    have n5 : p ≠ b := by tauto
    have n6 : n ≠ b := by tauto
    simp [insert_case4_then, grandparent, deref, store, hg, hp, hn, hb, bind, Except.bind,
      pure, Except.pure, heap_get_set, n1, n2, n3, n1.symm, n2.symm, n3.symm,
      n4, n5, n6, n4.symm, n5.symm, n6.symm, n7, n7.symm]
    refine ⟨_, rfl, by simp, ?_, ?_⟩
    · simp only [Rep_node, Rep_nil, Tree.root_node, Tree.root_nil, heap_get_set, hg, hp, hn, hb,
        n1, n2, n3, n1.symm, n2.symm, n3.symm, n4, n5, n6, n4.symm, n5.symm, n6.symm,
        if_true, if_false, Option.map_some', true_and, and_true]
      repeat' apply And.intro
      all_goals (repeat (first | assumption | apply Rep.set))
      all_goals tauto
    · intro a
      intros
      simp only [heap_get_set]
      simp only [*, if_false]


/-- Two heaps that hold the same tree below the same parent and agree
outside it are equal. -/
theorem heap_ext_of_rep {h1 h2 : Heap} {par : Ptr} {t : Tree} (hr1 : Rep h1 par t)
    (hr2 : Rep h2 par t) (hf : ∀ a, a ∉ t.addrs → h2[a]? = h1[a]?) : h2 = h1 := by
  apply List.ext_getElem?
  intro a
  by_cases ha : a ∈ t.addrs
  · exact hr1.get_eq hr2 a ha
  · exact hf a ha

theorem insert_case4_eq_then : insert_case4 = insert_case4_then insert_case5 := rfl

/-- What `rotate_left` at the left child `p` of `g` leaves: the tree below
the parent of `g` with `n` above `p`. -/
theorem rotate_left_child {h : Heap} {par : Ptr} {cg cp cn : Color} {l r S U : Tree}
    {g p n : Nat} {kg kp k : List Byte}
    (hr : Rep h par (.node cg (.node cp S p kp (.node cn l n k r)) g kg U))
    (hnd : (Tree.node cg (.node cp S p kp (.node cn l n k r)) g kg U).addrs.Nodup) :
    ∃ h1, rotate_left h (some p) = .ok h1 ∧
      Rep h1 par (.node cg (.node cn (.node cp S p kp l) n k r) g kg U) ∧
      ∀ a, a ∉ (Tree.node cg (.node cp S p kp (.node cn l n k r)) g kg U).addrs →
        h1[a]? = h[a]? := by
  obtain ⟨hg, hP, hU⟩ := hr
  have hnd0 : ((Tree.node cp S p kp (.node cn l n k r)).addrs ++ g :: U.addrs).Nodup := hnd
  rw [List.nodup_append] at hnd0
  obtain ⟨hndP, hndU, hdis⟩ := hnd0
  have hgP : g ∉ (Tree.node cp S p kp (.node cn l n k r)).addrs :=
    fun hx => hdis hx (List.mem_cons_self _ _)
  have hgU : g ∉ U.addrs := (List.nodup_cons.mp hndU).1
  obtain ⟨h1, e, hrw⟩ := rotate_left_spec hP hndP (fun gp e => by
    cases e
    exact ⟨hgP, _, hg⟩)
  refine ⟨h1, e, ⟨?_, hrw.rep, hU.frame ?_⟩, ?_⟩
  · have := hrw.slot g _ rfl hg
    simpa using this
  · intro a ha
    refine hrw.frame a (fun hx => hdis hx (List.mem_cons_of_mem _ ha)) ?_
    simp only [ne_eq, Option.some.injEq]
    rintro rfl
    exact hgU ha
  · intro a ha
    have ha2 : a ∉ (Tree.node cp S p kp (.node cn l n k r)).addrs ++ g :: U.addrs := ha
    rw [List.mem_append, List.mem_cons, not_or, not_or] at ha2
    refine hrw.frame a ha2.1 ?_
    simp only [ne_eq, Option.some.injEq]
    exact ha2.2.1

/-- What `rotate_right` at the right child `p` of `g` leaves: the tree below
the parent of `g` with `n` above `p`. -/
theorem rotate_right_child {h : Heap} {par : Ptr} {cg cp cn : Color} {l r S U : Tree}
    {g p n : Nat} {kg kp k : List Byte}
    (hr : Rep h par (.node cg U g kg (.node cp (.node cn l n k r) p kp S)))
    (hnd : (Tree.node cg U g kg (.node cp (.node cn l n k r) p kp S)).addrs.Nodup) :
    ∃ h1, rotate_right h (some p) = .ok h1 ∧
      Rep h1 par (.node cg U g kg (.node cn l n k (.node cp r p kp S))) ∧
      ∀ a, a ∉ (Tree.node cg U g kg (.node cp (.node cn l n k r) p kp S)).addrs →
        h1[a]? = h[a]? := by
  obtain ⟨hg, hU, hP⟩ := hr
  have hnd0 : (U.addrs ++ g :: (Tree.node cp (.node cn l n k r) p kp S).addrs).Nodup := hnd
  rw [List.nodup_append] at hnd0
  obtain ⟨hndU, hndP, hdis⟩ := hnd0
  have hgP : g ∉ (Tree.node cp (.node cn l n k r) p kp S).addrs := (List.nodup_cons.mp hndP).1
  have hgU : g ∉ U.addrs := fun hx => hdis hx (List.mem_cons_self _ _)
  obtain ⟨h1, e, hrw⟩ := rotate_right_spec hP (List.nodup_cons.mp hndP).2 (fun gp e => by
    cases e
    exact ⟨hgP, _, hg⟩)
  refine ⟨h1, e, ⟨?_, hU.frame ?_, hrw.rep⟩, ?_⟩
  · have := hrw.slot g _ rfl hg
    have hne : U.root ≠ some p := by
      intro hx
      exact hdis (Tree.root_mem_addrs hx) (List.mem_cons_of_mem _ (by simp))
    simpa [hne] using this
  · intro a ha
    refine hrw.frame a (fun hx => hdis ha (List.mem_cons_of_mem _ hx)) ?_
    simp only [ne_eq, Option.some.injEq]
    rintro rfl
    exact hgU ha
  · intro a ha
    have ha2 : a ∉ U.addrs ++ g :: (Tree.node cp (.node cn l n k r) p kp S).addrs := ha
    rw [List.mem_append, List.mem_cons, not_or, not_or] at ha2
    refine hrw.frame a ha2.2.2 ?_
    simp only [ne_eq, Option.some.injEq]
    exact ha2.2.1

/-- C16: the surgery inlined in `insert_case4` is the named rotation.  With
`n` the right child of `p` and `p` the left child of `g`, the first branch
of `insert_case4` reaches its final call `insert_case5` with exactly the
heap that `rotate_left(p)` returns and with `p`, now the left child of `n`,
as working node; symmetrically the second branch reaches it with the heap of
`rotate_right(p)` and with `p`, now the right child of `n`.  The final call
is left open (`insert_case4_then`), so that the state it receives is
compared, and `insert_case4` is `insert_case4_then insert_case5`. -/
theorem insert_case4_is_rotation :
    (insert_case4 = insert_case4_then insert_case5) ∧
    (∀ (h : Heap) (par root : Ptr) (cg cp cn : Color) (l r S U : Tree) (g p n : Nat)
      (kg kp k : List Byte),
      Rep h par (.node cg (.node cp S p kp (.node cn l n k r)) g kg U) →
      (Tree.node cg (.node cp S p kp (.node cn l n k r)) g kg U).addrs.Nodup →
      ∃ h1, rotate_left h (some p) = .ok h1 ∧
        (∃ nd, h1[n]? = some nd ∧ nd.left = some p) ∧
        ∀ (α : Type) (next : Heap → Ptr → Ptr → Except Fault α),
          insert_case4_then next h root (some n) = next h1 root (some p)) ∧
    (∀ (h : Heap) (par root : Ptr) (cg cp cn : Color) (l r S U : Tree) (g p n : Nat)
      (kg kp k : List Byte),
      Rep h par (.node cg U g kg (.node cp (.node cn l n k r) p kp S)) →
      (Tree.node cg U g kg (.node cp (.node cn l n k r) p kp S)).addrs.Nodup →
      ∃ h1, rotate_right h (some p) = .ok h1 ∧
        (∃ nd, h1[n]? = some nd ∧ nd.right = some p) ∧
        ∀ (α : Type) (next : Heap → Ptr → Ptr → Except Fault α),
          insert_case4_then next h root (some n) = next h1 root (some p)) := by
  refine ⟨rfl, ?_, ?_⟩
  · intro h par root cg cp cn l r S U g p n kg kp k hr hnd
    obtain ⟨h1, e, hr1, hf1⟩ := rotate_left_child hr hnd
    refine ⟨h1, e, ⟨_, hr1.2.1.1, rfl⟩, ?_⟩
    intro α next
    obtain ⟨h2, e2, -, hr2, hf2⟩ := insert_case4_then_LR next root hr hnd
    have : h2 = h1 := heap_ext_of_rep hr1 hr2 (fun a ha => by
      have ha2 : a ∉ (Tree.node cg (.node cp S p kp (.node cn l n k r)) g kg U).addrs := by
        simpa only [Tree.addrs_node, List.append_assoc, List.cons_append] using ha
      rw [hf2 a ha2, hf1 a ha2])
    rw [e2, this]
  · intro h par root cg cp cn l r S U g p n kg kp k hr hnd
    obtain ⟨h1, e, hr1, hf1⟩ := rotate_right_child hr hnd
    refine ⟨h1, e, ⟨_, hr1.2.2.1, rfl⟩, ?_⟩
    intro α next
    obtain ⟨h2, e2, -, hr2, hf2⟩ := insert_case4_then_RL next root hr hnd
    have : h2 = h1 := heap_ext_of_rep hr1 hr2 (fun a ha => by
      have ha2 : a ∉ (Tree.node cg U g kg (.node cp (.node cn l n k r) p kp S)).addrs := by
        simpa only [Tree.addrs_node, List.append_assoc, List.cons_append] using ha
      rw [hf2 a ha2, hf1 a ha2])
    rw [e2, this]

/-- C16 at the two bent three-node trees: the surgery of the first branch
on "c" / "a" / "b" and `rotate_left` at "a", the surgery of the second
branch on "a" / "c" / "b" and `rotate_right` at "c". -/
theorem insert_case4_is_rotation_witness :
    rotate_left bentLeftHeap (some 1) =
      .ok [⟨1, some 2, none, none, .BLACK, [99]⟩, ⟨1, none, none, some 2, .RED, [97]⟩,
        ⟨1, some 1, none, some 0, .RED, [98]⟩] ∧
    insert_case4_then (fun h root n => .ok (h, root, n)) bentLeftHeap (some 0) (some 2) =
      .ok ([⟨1, some 2, none, none, .BLACK, [99]⟩, ⟨1, none, none, some 2, .RED, [97]⟩,
        ⟨1, some 1, none, some 0, .RED, [98]⟩], some 0, some 1) ∧
    (∃ h1, rotate_left bentLeftHeap (some 1) = .ok h1 ∧
      (∃ nd, h1[2]? = some nd ∧ nd.left = some 1) ∧
      ∀ (α : Type) (next : Heap → Ptr → Ptr → Except Fault α),
        insert_case4_then next bentLeftHeap (some 0) (some 2) = next h1 (some 0) (some 1)) ∧
    (∃ h1, rotate_right bentRightHeap (some 1) = .ok h1 ∧
      (∃ nd, h1[2]? = some nd ∧ nd.right = some 1) ∧
      ∀ (α : Type) (next : Heap → Ptr → Ptr → Except Fault α),
        insert_case4_then next bentRightHeap (some 0) (some 2) = next h1 (some 0) (some 1)) :=
  ⟨by decide, by decide,
    insert_case4_is_rotation.2.1 bentLeftHeap none (some 0) .BLACK .RED .RED .nil .nil .nil
      .nil 0 1 2 [99] [97] [98] (by simp [bentLeftHeap, Rep_node]) (by decide),
    insert_case4_is_rotation.2.2 bentRightHeap none (some 0) .BLACK .RED .RED .nil .nil .nil
      .nil 0 1 2 [97] [99] [98] (by simp [bentRightHeap, Rep_node]) (by decide)⟩

/-! ## The returned root and reachability -/

theorem Tree.addrs_blacken (t : Tree) : t.blacken.addrs = t.addrs := by
  cases t <;> rfl

theorem fixup_addrs : ∀ (ctx : Ctx) (t : Tree), t ≠ .nil →
    (fixup ctx t).addrs = (ctx.plug t).addrs := by
  refine fixup_cases (fun ctx t => t ≠ .nil → (fixup ctx t).addrs = (ctx.plug t).addrs)
    ?_ ?_ ?_ ?_ ?_ ?_ ?_ ?_ ?_ ?_ ?_ ?_ ?_
  · intro t _
    rw [fixup_top, Tree.addrs_blacken]; rfl
  · intro p kp s up t _
    rw [fixup_left_black]
  · intro p kp s up t _
    rw [fixup_right_black]
  · intro p kp s t _
    simp [fixup]
  · intro p kp s t _
    simp [fixup]
  · intro p g ua kp kg uk s ul ur cg up2 t ih _
    rw [fixup_LL_red, ih (by simp)]
    exact Ctx.plug_addrs_congr up2 (by simp)
  · intro p g ua kp kg uk s ul ur cg up2 t ih _
    rw [fixup_LR_red, ih (by simp)]
    exact Ctx.plug_addrs_congr up2 (by simp)
  · intro p g ua kp kg uk s ul ur cg up2 t ih _
    rw [fixup_RL_red, ih (by simp)]
    exact Ctx.plug_addrs_congr up2 (by simp)
  · intro p g ua kp kg uk s ul ur cg up2 t ih _
    rw [fixup_RR_red, ih (by simp)]
    exact Ctx.plug_addrs_congr up2 (by simp)
  · intro p g kp kg s u cg up2 t hu _
    rw [fixup_LL_rot _ _ _ _ _ _ _ _ _ hu]
    exact Ctx.plug_addrs_congr up2 (by simp)
  · intro p g kp kg s u cg up2 t hu ht
    cases t with
    | nil => exact absurd rfl ht
    | node cn l n k r =>
      rw [fixup_LR_rot _ _ _ _ _ _ _ _ _ _ _ _ _ hu]
      exact Ctx.plug_addrs_congr up2 (by simp)
  · intro p g kp kg s u cg up2 t hu ht
    cases t with
    | nil => exact absurd rfl ht
    | node cn l n k r =>
      rw [fixup_RL_rot _ _ _ _ _ _ _ _ _ _ _ _ _ hu]
      exact Ctx.plug_addrs_congr up2 (by simp)
  · intro p g kp kg s u cg up2 t hu _
    rw [fixup_RR_rot _ _ _ _ _ _ _ _ _ hu]
    exact Ctx.plug_addrs_congr up2 (by simp)

/-- The nodes of the tree after an insertion: those of the tree before and,
unless the key was met, the new node. -/
theorem insertTree_addrs (key : List Byte) (nw : Nat) (t : Tree) :
    (∀ a, a ∈ t.addrs → a ∈ (insertTree key nw t).addrs) ∧
      (key ∉ t.keys → nw ∈ (insertTree key nw t).addrs) ∧
      (∀ a, a ∈ (insertTree key nw t).addrs → a ∈ t.addrs ∨ a = nw) := by
  cases t with
  | nil => simp [insertTree]
  | node c l x k r =>
    cases hd : descend key (.node c l x k r) .top with
    | none =>
      have hm := descend_none_mem hd
      simp only [insertTree, hd]
      exact ⟨fun a ha => ha, fun hx => absurd hm hx, fun a ha => Or.inl ha⟩
    | some ctx2 =>
      have hplug := descend_plug hd
      simp only [Ctx.plug] at hplug
      have hf := fixup_addrs ctx2 (leaf nw key) (by simp [leaf])
      simp only [insertTree, hd, hf, Ctx.mem_plug]
      rw [← hplug]
      simp only [Ctx.mem_plug, leaf, Tree.addrs_node, Tree.addrs_nil, List.nil_append,
        List.mem_singleton, List.not_mem_nil, false_or]
      exact ⟨fun a ha => Or.inr ha, fun _ => Or.inl trivial, fun a ha => ha.symm⟩

theorem Reachable.trans {h : Heap} {p : Ptr} {a b : Nat} (h1 : Reachable h (some a) b)
    (h2 : Reachable h p a) : Reachable h p b := by
  generalize hq : some a = q at h1
  induction h1 with
  | here x => cases hq; exact h2
  | left _ e1 e2 ih => exact (ih hq).left e1 e2
  | right _ e1 e2 ih => exact (ih hq).right e1 e2

/-- Every node of a represented tree is reached from its top node. -/
theorem Rep.reachable {h : Heap} {t : Tree} : ∀ {par : Ptr}, Rep h par t →
    ∀ a ∈ t.addrs, Reachable h t.root a := by
  induction t with
  | nil => intro _ _ a ha; simp at ha
  | node c l x k r ihl ihr =>
    intro par hr a ha
    obtain ⟨e, hl, hrr⟩ := hr
    simp only [Tree.addrs_node, List.mem_append, List.mem_cons] at ha
    rcases ha with ha | rfl | ha
    · cases l with
      | nil => simp at ha
      | node cl ll b kl rl =>
        have := ihl hl a ha
        exact this.trans ((Reachable.here x).left e rfl)
    · exact Reachable.here _
    · cases r with
      | nil => simp at ha
      | node cr lr b kr rr =>
        have := ihr hrr a ha
        exact this.trans ((Reachable.here x).right e rfl)

/-- The children of a node of a represented tree are nodes of the tree. -/
theorem Rep.child_mem {h : Heap} {t : Tree} : ∀ {par : Ptr}, Rep h par t →
    ∀ a ∈ t.addrs, ∀ nd, h[a]? = some nd →
      (∀ b, nd.left = some b → b ∈ t.addrs) ∧ (∀ b, nd.right = some b → b ∈ t.addrs) := by
  induction t with
  | nil => intro _ _ a ha; simp at ha
  | node c l x k r ihl ihr =>
    intro par hr a ha nd e
    obtain ⟨ex, hl, hrr⟩ := hr
    simp only [Tree.addrs_node, List.mem_append, List.mem_cons] at ha ⊢
    rcases ha with ha | rfl | ha
    · obtain ⟨f1, f2⟩ := ihl hl a ha nd e
      exact ⟨fun b hb => Or.inl (f1 b hb), fun b hb => Or.inl (f2 b hb)⟩
    · rw [ex] at e
      cases e
      exact ⟨fun b hb => Or.inl (Tree.root_mem_addrs hb),
        fun b hb => Or.inr (Or.inr (Tree.root_mem_addrs hb))⟩
    · obtain ⟨f1, f2⟩ := ihr hrr a ha nd e
      exact ⟨fun b hb => Or.inr (Or.inr (f1 b hb)), fun b hb => Or.inr (Or.inr (f2 b hb))⟩

/-- Only nodes of the tree are reached from its top node. -/
theorem Rep.mem_of_reachable {h : Heap} {t : Tree} {par : Ptr} (hr : Rep h par t) {a : Nat}
    (hre : Reachable h t.root a) : a ∈ t.addrs := by
  generalize hq : t.root = q at hre
  induction hre with
  | here x => exact Tree.root_mem_addrs hq
  | left _ e1 e2 ih => exact (hr.child_mem _ (ih hq) _ e1).1 _ e2
  | right _ e1 e2 ih => exact (hr.child_mem _ (ih hq) _ e1).2 _ e2

/-- C17: the returned handle is the real root.  For a well-formed tree and
any key, `rbt_insert` returns a node whose parent link is `NULL`, from which
every node reachable from the old root is reachable by `left`/`right` links,
as is the new node (the address `malloc` returned) when the key compares
equal to no stored key, and nothing else.  When `insert_case5` rotates at
the root `g`, the handle it leaves in `*root_ptr` is the promoted node `p`,
which then has no parent and has `g` as a child. -/
theorem rbt_insert_returns_root :
    (∀ (h : Heap) (root : Ptr) (key : List Byte) (inserted : Bool) (fuel : Nat),
      WellFormed h root → 2 * h.length + 3 ≤ fuel →
      ∃ h2 r nd inserted2,
        rbt_insert fuel h root key.length key inserted = .ok (h2, some r, inserted2) ∧
        h2[r]? = some nd ∧ nd.parent = none ∧
        (∀ a, Reachable h root a → Reachable h2 (some r) a) ∧
        ((∀ k, Stored h root k → rbt_compare_data key.length key k.length k ≠ 0) →
          Reachable h2 (some r) h.length) ∧
        (∀ a, Reachable h2 (some r) a → Reachable h root a ∨ a = h.length)) ∧
    (∀ (h : Heap) (cg cp cn : Color) (l r S U : Tree) (g p n : Nat) (kg kp k : List Byte),
      Rep h none (.node cg (.node cp (.node cn l n k r) p kp S) g kg U) →
      (Tree.node cg (.node cp (.node cn l n k r) p kp S) g kg U).addrs.Nodup →
      ∃ h2 nd, insert_case5 h (some g) (some n) = .ok (h2, some p) ∧
        h2[p]? = some nd ∧ nd.parent = none ∧ nd.right = some g) ∧
    (∀ (h : Heap) (cg cp cn : Color) (l r S U : Tree) (g p n : Nat) (kg kp k : List Byte),
      Rep h none (.node cg U g kg (.node cp S p kp (.node cn l n k r))) →
      (Tree.node cg U g kg (.node cp S p kp (.node cn l n k r))).addrs.Nodup →
      ∃ h2 nd, insert_case5 h (some g) (some n) = .ok (h2, some p) ∧
        h2[p]? = some nd ∧ nd.parent = none ∧ nd.left = some g) := by
  refine ⟨?_, ?_, ?_⟩
  · intro h root key inserted fuel hwf hfuel
    obtain ⟨t, h2, hroot, hr, hi, e, hr2, -, -, -⟩ := hwf.insert key inserted fuel hfuel
    obtain ⟨c, l, a, k, r, hx⟩ := insertTree_root_some key h.length hi.ordered
    obtain ⟨m1, m2, m3⟩ := insertTree_addrs key h.length t
    have hroot2 : (insertTree key h.length t).root = some a := by rw [hx]; rfl
    rw [hroot2] at e
    refine ⟨h2, a, _, _, e, (hx ▸ hr2 : Rep h2 none (.node c l a k r)).1, rfl, ?_, ?_, ?_⟩
    · intro b hb
      rw [← hroot] at hb
      have := hr2.reachable b (m1 b (hr.mem_of_reachable hb))
      rwa [hroot2] at this
    · intro hnew
      have hk : key ∉ t.keys := by
        intro hm
        exact hnew key ⟨t, hroot, hr, hm⟩ ((cmpKey_eq_zero key key).mpr rfl)
      have := hr2.reachable h.length (m2 hk)
      rwa [hroot2] at this
    · intro b hb
      rw [← hroot2] at hb
      rcases m3 b (hr2.mem_of_reachable hb) with hm | hm
      · left
        rw [← hroot]
        exact hr.reachable b hm
      · exact Or.inr hm
  · intro h cg cp cn l r S U g p n kg kp k hr hnd
    obtain ⟨h2, e, hrw⟩ := insert_case5_LL (some g) hr hnd (fun gp e => by cases e)
    rw [if_pos rfl] at e
    exact ⟨h2, _, e, hrw.rep.1, rfl, rfl⟩
  · intro h cg cp cn l r S U g p n kg kp k hr hnd
    obtain ⟨h2, e, hrw⟩ := insert_case5_RR (some g) hr hnd (fun gp e => by cases e)
    rw [if_pos rfl] at e
    exact ⟨h2, _, e, hrw.rep.1, rfl, rfl⟩

/-- C17 at the three-node tree "a", "b", "c" with the new key "d", and at
the two lines of three nodes, where Case 5 rotates the root at address 0 and
leaves the handle on the promoted node at address 1. -/
theorem rbt_insert_returns_root_witness :
    insert_case5 lineLeftHeap (some 0) (some 2) =
      .ok ([⟨1, none, none, some 1, .RED, [99]⟩, ⟨1, some 2, some 0, none, .BLACK, [98]⟩,
        ⟨1, none, none, some 1, .RED, [97]⟩], some 1) ∧
    (∃ h2 r nd inserted2,
      rbt_insert 9 exampleHeap (some 0) ([100] : List Byte).length [100] false
        = .ok (h2, some r, inserted2) ∧
      h2[r]? = some nd ∧ nd.parent = none ∧
      (∀ a, Reachable exampleHeap (some 0) a → Reachable h2 (some r) a) ∧
      ((∀ k, Stored exampleHeap (some 0) k →
          rbt_compare_data ([100] : List Byte).length [100] k.length k ≠ 0) →
        Reachable h2 (some r) exampleHeap.length) ∧
      (∀ a, Reachable h2 (some r) a →
        Reachable exampleHeap (some 0) a ∨ a = exampleHeap.length)) ∧
    (∃ h2 nd, insert_case5 lineLeftHeap (some 0) (some 2) = .ok (h2, some 1) ∧
      h2[1]? = some nd ∧ nd.parent = none ∧ nd.right = some 0) ∧
    (∃ h2 nd, insert_case5 lineRightHeap (some 0) (some 2) = .ok (h2, some 1) ∧
      h2[1]? = some nd ∧ nd.parent = none ∧ nd.left = some 0) :=
  ⟨by decide,
    rbt_insert_returns_root.1 exampleHeap (some 0) [100] false 9 exampleHeap_wf (by decide),
    rbt_insert_returns_root.2.1 lineLeftHeap .BLACK .RED .RED .nil .nil .nil .nil 0 1 2
      [99] [98] [97] (by simp [lineLeftHeap, Rep_node]) (by decide),
    rbt_insert_returns_root.2.2 lineRightHeap .BLACK .RED .RED .nil .nil .nil .nil 0 1 2
      [97] [98] [99] (by simp [lineRightHeap, Rep_node]) (by decide)⟩

/-! ## The fixup with its counter -/

theorem bind_ok_imp {α β : Type} {x : Except Fault α} {f g : α → Except Fault β} {s : β}
    (h : (x >>= f) = .ok s) (hfg : ∀ a, x = .ok a → f a = .ok s → g a = .ok s) :
    (x >>= g) = .ok s := by
  cases x with
  | error e => simp [bind, Except.bind] at h
  | ok a => exact hfg a rfl h

theorem bind_ok_elim {α β : Type} {x : Except Fault α} {f : α → Except Fault β} {s : β}
    (h : (x >>= f) = .ok s) : ∃ a, x = .ok a ∧ f a = .ok s := by
  cases x with
  | error e => simp [bind, Except.bind] at h
  | ok a => exact ⟨a, rfl, h⟩

/-- Dropping the counter gives back `insert_case1`, `insert_case2` and
`insert_case3`. -/
theorem counted_erase : ∀ (fuel : Nat) (h : Heap) (root n : Ptr) (c : Nat),
    ((fun s : Heap × Ptr × Nat => (s.1, s.2.1)) <$> insert_case1_counted fuel h root n c
        = insert_case1 fuel h root n) ∧
    ((fun s : Heap × Ptr × Nat => (s.1, s.2.1)) <$> insert_case2_counted fuel h root n c
        = insert_case2 fuel h root n) ∧
    ((fun s : Heap × Ptr × Nat => (s.1, s.2.1)) <$> insert_case3_counted fuel h root n c
        = insert_case3 fuel h root n) := by
  intro fuel
  induction fuel with
  | zero =>
    intro h root n c
    simp [insert_case1_counted, insert_case2_counted, insert_case3_counted, insert_case1,
      insert_case2, insert_case3, Functor.map, Except.map]
  | succ fuel ih =>
    intro h root n c
    refine ⟨?_, ?_, ?_⟩
    · simp only [insert_case1_counted, insert_case1, map_bind]
      congr 1
      funext nd
      split
      · simp [map_bind]
      · exact (ih h root n c).2.1
    · simp only [insert_case2_counted, insert_case2, map_bind]
      congr 1
      funext nd
      congr 1
      funext pd
      split
      · simp
      · exact (ih h root n c).2.2
    · have hA : ∀ u : Ptr,
          ((fun s : Heap × Ptr × Nat => (s.1, s.2.1)) <$> (do
            let nd ← deref h n
            let h ← store h nd.parent (fun x => { x with color := .BLACK })
            let h ← store h u (fun x => { x with color := .BLACK })
            let g ← grandparent h n
            let h ← store h g (fun x => { x with color := .RED })
            insert_case1_counted fuel h root g (c + 1))) =
          (do
            let nd ← deref h n
            let h ← store h nd.parent (fun x => { x with color := .BLACK })
            let h ← store h u (fun x => { x with color := .BLACK })
            let g ← grandparent h n
            let h ← store h g (fun x => { x with color := .RED })
            insert_case1 fuel h root g) := by
        intro u
        simp only [map_bind]
        congr 1
        funext nd
        congr 1
        funext h1
        congr 1
        funext h2
        congr 1
        funext g
        congr 1
        funext h3
        exact (ih h3 root g (c + 1)).1
      have hB : ((fun s : Heap × Ptr × Nat => (s.1, s.2.1)) <$> (do
            let s ← insert_case4 h root n
            pure (s.1, s.2, c))) = insert_case4 h root n := by
        simp [map_bind]
      simp only [insert_case3_counted, insert_case3, map_bind]
      congr 1
      funext u
      split
      · simp only [pure_bind, Bool.false_eq_true, if_false]
        exact hB
      · simp only [bind_assoc, pure_bind, map_bind]
        congr 1
        funext ud
        split
        · exact hA u
        · exact hB

/-- More fuel does not change the result of the counted fixup. -/
theorem counted_mono : ∀ (fuel : Nat) (h : Heap) (root n : Ptr) (c : Nat)
    (s : Heap × Ptr × Nat),
    (insert_case1_counted fuel h root n c = .ok s →
      insert_case1_counted (fuel + 1) h root n c = .ok s) ∧
    (insert_case2_counted fuel h root n c = .ok s →
      insert_case2_counted (fuel + 1) h root n c = .ok s) ∧
    (insert_case3_counted fuel h root n c = .ok s →
      insert_case3_counted (fuel + 1) h root n c = .ok s) := by
  intro fuel
  induction fuel with
  | zero =>
    intro h root n c s
    simp [insert_case1_counted, insert_case2_counted, insert_case3_counted]
  | succ fuel ih =>
    intro h root n c s
    refine ⟨?_, ?_, ?_⟩
    · intro e
      simp only [insert_case1_counted] at e ⊢
      refine bind_ok_imp e ?_
      intro nd _ e
      split_ifs at e ⊢
      · exact e
      · exact (ih h root n c s).2.1 e
    · intro e
      simp only [insert_case2_counted] at e ⊢
      refine bind_ok_imp e ?_
      intro nd _ e
      refine bind_ok_imp e ?_
      intro pd _ e
      split_ifs at e ⊢
      · exact e
      · exact (ih h root n c s).2.2 e
    · intro e
      simp only [insert_case3_counted] at e ⊢
      refine bind_ok_imp e ?_
      intro u _ e
      split_ifs at e ⊢
      · simp only [pure_bind, Bool.false_eq_true, if_false] at e ⊢
        exact e
      · simp only [bind_assoc, pure_bind] at e ⊢
        refine bind_ok_imp e ?_
        intro ud _ e
        split_ifs at e ⊢
        · refine bind_ok_imp e ?_
          intro nd _ e
          refine bind_ok_imp e ?_
          intro h1 _ e
          refine bind_ok_imp e ?_
          intro h2 _ e
          refine bind_ok_imp e ?_
          intro g _ e
          refine bind_ok_imp e ?_
          intro h3 _ e
          exact (ih h3 root g (c + 1) s).1 e
        · exact e

theorem counted_mono_le {fuel fuel2 : Nat} {h : Heap} {root n : Ptr} {c : Nat}
    {s : Heap × Ptr × Nat} (hle : fuel ≤ fuel2)
    (e : insert_case1_counted fuel h root n c = .ok s) :
    insert_case1_counted fuel2 h root n c = .ok s := by
  induction hle with
  | refl => exact e
  | step _ ih => exact (counted_mono _ h root n c s).1 ih

/-- Every Case 3 application costs three calls: the counter is bounded by
the fuel. -/
theorem counted_bound : ∀ (fuel : Nat) (h : Heap) (root n : Ptr) (c : Nat)
    (s : Heap × Ptr × Nat),
    (insert_case1_counted fuel h root n c = .ok s →
      c ≤ s.2.2 ∧ 3 * (s.2.2 - c) + 1 ≤ fuel) ∧
    (insert_case2_counted fuel h root n c = .ok s →
      c ≤ s.2.2 ∧ 3 * (s.2.2 - c) ≤ fuel ∧ 1 ≤ fuel) ∧
    (insert_case3_counted fuel h root n c = .ok s →
      c ≤ s.2.2 ∧ 3 * (s.2.2 - c) ≤ fuel + 1 ∧ 1 ≤ fuel) := by
  intro fuel
  induction fuel with
  | zero =>
    intro h root n c s
    simp [insert_case1_counted, insert_case2_counted, insert_case3_counted]
  | succ fuel ih =>
    intro h root n c s
    have hB : ∀ x : Except Fault (Heap × Ptr),
        (x >>= fun r => (pure (r.1, r.2, c) : Except Fault (Heap × Ptr × Nat))) = .ok s →
        s.2.2 = c := by
      intro x e
      obtain ⟨r, -, e⟩ := bind_ok_elim e
      cases e
      rfl
    refine ⟨?_, ?_, ?_⟩
    · intro e
      simp only [insert_case1_counted] at e
      obtain ⟨nd, -, e⟩ := bind_ok_elim e
      split_ifs at e
      · obtain ⟨h1, -, e⟩ := bind_ok_elim e
        cases e
        simp
      · have := (ih h root n c s).2.1 e
        omega
    · intro e
      simp only [insert_case2_counted] at e
      obtain ⟨nd, -, e⟩ := bind_ok_elim e
      obtain ⟨pd, -, e⟩ := bind_ok_elim e
      split_ifs at e
      · cases e
        simp
      · have := (ih h root n c s).2.2 e
        omega
    · intro e
      simp only [insert_case3_counted] at e
      obtain ⟨u, -, e⟩ := bind_ok_elim e
      split_ifs at e
      · simp only [pure_bind, Bool.false_eq_true, if_false] at e
        have := hB _ e
        omega
      · simp only [bind_assoc, pure_bind] at e
        obtain ⟨ud, -, e⟩ := bind_ok_elim e
        split_ifs at e
        · obtain ⟨nd, -, e⟩ := bind_ok_elim e
          obtain ⟨h1, -, e⟩ := bind_ok_elim e
          obtain ⟨h2, -, e⟩ := bind_ok_elim e
          obtain ⟨g, -, e⟩ := bind_ok_elim e
          obtain ⟨h3, -, e⟩ := bind_ok_elim e
          have := (ih h3 root g (c + 1) s).1 e
          omega
        · have := hB _ e
          omega

theorem insert_case3_counted_red_uncle {h : Heap} {n p g ua : Nat} {nd pd gd ud : Node}
    (root : Ptr) (fuel c : Nat)
    (hn : h[n]? = some nd) (hnp : nd.parent = some p) (hp : h[p]? = some pd)
    (hpg : pd.parent = some g) (hg : h[g]? = some gd)
    (hq : (if some p = gd.left then gd.right else gd.left) = some ua)
    (hua : h[ua]? = some ud) (huc : ud.color = .RED)
    (n1 : n ≠ p) (n2 : n ≠ ua) (n3 : p ≠ ua) (n4 : g ≠ p) (n5 : g ≠ ua) :
    insert_case3_counted (fuel + 1) h root (some n) c =
      insert_case1_counted fuel
        (((h.set p { pd with color := .BLACK }).set ua { ud with color := .BLACK }).set g
          { gd with color := .RED }) root (some g) (c + 1) := by
  rw [insert_case3_counted, uncle_eval hn hnp hp hpg hg, hq]
  simp [bind, Except.bind, pure, Except.pure, deref, store, grandparent, hua, huc, hn, hnp, hp,
    hpg, hg, heap_get_set, n1, n2, n3, n4, n5, n1.symm, n2.symm, n3.symm, n4.symm, n5.symm]

theorem insert_case3_counted_no_red_uncle {h : Heap} {n p g : Nat} {nd pd gd : Node}
    (root : Ptr) (fuel c : Nat)
    (hn : h[n]? = some nd) (hnp : nd.parent = some p) (hp : h[p]? = some pd)
    (hpg : pd.parent = some g) (hg : h[g]? = some gd)
    (hu : ∀ ua, (if some p = gd.left then gd.right else gd.left) = some ua →
      ∃ ud, h[ua]? = some ud ∧ ud.color = .BLACK) :
    insert_case3_counted (fuel + 1) h root (some n) c =
      (insert_case4 h root (some n) >>= fun s => pure (s.1, s.2, c)) := by
  rw [insert_case3_counted, uncle_eval hn hnp hp hpg hg]
  cases hq : (if some p = gd.left then gd.right else gd.left) with
  | none => simp [bind, Except.bind, pure, Except.pure]
  | some ua =>
    obtain ⟨ud, hua, huc⟩ := hu ua hq
    simp [bind, Except.bind, pure, Except.pure, deref, hua, huc]

/-- C18: the fixup terminates.  With the new RED leaf `n` attached below the
context `ctx` (the rest of a tree with consistent links, distinct nodes and
a BLACK root), the mutually recursive `insert_case1` .. `insert_case5`
return for every fuel from `2 * depth + 3` on, and the number of Case 3
applications, counted by the ghost counter of `insert_case1_counted`, is at
most the depth of `n` (the number of nodes above it).  Case 1 (no parent)
and Case 2 (BLACK parent) return at once; without a RED uncle `insert_case3`
hands over to `insert_case4` and `insert_case5`, which do not recurse; with a
RED uncle it recolours and restarts `insert_case1` at the grandparent, two
levels closer to the root, with the counter incremented. -/
theorem fixup_terminates :
    (∀ (ctx : Ctx) (h : Heap) (n : Nat) (key : List Byte) (fuel : Nat),
      Rep h none (ctx.plug (leaf n key)) → (ctx.plug (leaf n key)).addrs.Nodup →
      ctx.topColor = .BLACK → 2 * ctx.depth + 3 ≤ fuel →
      ∃ h2 root2 count,
        insert_case1_counted fuel h (ctx.plug (leaf n key)).root (some n) 0
          = .ok (h2, root2, count) ∧
        insert_case1 fuel h (ctx.plug (leaf n key)).root (some n) = .ok (h2, root2) ∧
        count ≤ ctx.depth) ∧
    (∀ (h : Heap) (root : Ptr) (n : Nat) (nd : Node) (fuel c : Nat),
      h[n]? = some nd → nd.parent = none →
      insert_case1_counted (fuel + 1) h root (some n) c =
        .ok (h.set n { nd with color := .BLACK }, root, c)) ∧
    (∀ (h : Heap) (root : Ptr) (n p : Nat) (nd pd : Node) (fuel c : Nat),
      h[n]? = some nd → nd.parent = some p → h[p]? = some pd → pd.color = .BLACK →
      insert_case1_counted (fuel + 2) h root (some n) c = .ok (h, root, c)) ∧
    (∀ (h : Heap) (root : Ptr) (n p g : Nat) (nd pd gd : Node) (fuel c : Nat),
      h[n]? = some nd → nd.parent = some p → h[p]? = some pd → pd.parent = some g →
      h[g]? = some gd →
      (∀ ua, (if some p = gd.left then gd.right else gd.left) = some ua →
        ∃ ud, h[ua]? = some ud ∧ ud.color = .BLACK) →
      insert_case3_counted (fuel + 1) h root (some n) c =
        (insert_case4 h root (some n) >>= fun s => pure (s.1, s.2, c))) ∧
    (∀ (h : Heap) (root : Ptr) (n p g ua : Nat) (nd pd gd ud : Node) (fuel c : Nat),
      h[n]? = some nd → nd.parent = some p → h[p]? = some pd → pd.parent = some g →
      h[g]? = some gd → (if some p = gd.left then gd.right else gd.left) = some ua →
      h[ua]? = some ud → ud.color = .RED →
      n ≠ p → n ≠ ua → p ≠ ua → g ≠ p → g ≠ ua →
      insert_case3_counted (fuel + 1) h root (some n) c =
        insert_case1_counted fuel
          (((h.set p { pd with color := .BLACK }).set ua { ud with color := .BLACK }).set g
            { gd with color := .RED }) root (some g) (c + 1)) := by
  refine ⟨?_, ?_, ?_, ?_, ?_⟩
  · intro ctx h n key fuel hrep hnd htop hfuel
    obtain ⟨h2, e, -, -, -⟩ := insert_case1_spec ctx.depth ctx rfl h (2 * ctx.depth + 3) .RED
      .nil n key .nil hrep hnd htop (Nat.le_refl _)
    have her := (counted_erase (2 * ctx.depth + 3) h (ctx.plug (leaf n key)).root (some n)
      0).1
    cases hc : insert_case1_counted (2 * ctx.depth + 3) h (ctx.plug (leaf n key)).root
        (some n) 0 with
    | error x =>
      rw [hc] at her
      have e2 : insert_case1 (2 * ctx.depth + 3) h (ctx.plug (leaf n key)).root (some n)
          = .ok (h2, (fixup ctx (leaf n key)).root) := e
      rw [e2] at her
      cases her
    | ok s =>
      have hb := (counted_bound _ _ _ _ _ _).1 hc
      have hm := counted_mono_le hfuel hc
      have her2 := (counted_erase fuel h (ctx.plug (leaf n key)).root (some n) 0).1
      rw [hm] at her2
      refine ⟨s.1, s.2.1, s.2.2, hm, her2.symm, ?_⟩
      omega
  · intro h root n nd fuel c hn hp
    simp [insert_case1_counted, deref, store, hn, hp, bind, Except.bind, pure, Except.pure]
  · intro h root n p nd pd fuel c hn hnp hp hc
    simp [insert_case1_counted, insert_case2_counted, deref, hn, hnp, hp, hc, bind,
      Except.bind, pure, Except.pure]
  · intro h root n p g nd pd gd fuel c hn hnp hp hpg hg hu
    exact insert_case3_counted_no_red_uncle root fuel c hn hnp hp hpg hg hu
  · intro h root n p g ua nd pd gd ud fuel c hn hnp hp hpg hg hq hua huc n1 n2 n3 n4 n5
    exact insert_case3_counted_red_uncle root fuel c hn hnp hp hpg hg hq hua huc n1 n2 n3 n4 n5

/-- C18 at the tree "a", "b", "c" with the RED leaf "d" attached below "c"
(depth 2): one Case 3 application, then Case 1 at the root. -/
theorem fixup_terminates_witness :
    insert_case1_counted 7 attachedHeap (some 0) (some 3) 0 =
      .ok ([⟨1, some 1, some 2, none, .BLACK, [98]⟩, ⟨1, none, none, some 0, .BLACK, [97]⟩,
        ⟨1, none, some 3, some 0, .BLACK, [99]⟩, ⟨1, none, none, some 2, .RED, [100]⟩],
        some 0, 1) ∧
    ∃ h2 root2 count,
      insert_case1_counted 7 attachedHeap
        ((Ctx.right .RED .nil 2 [99]
          (.right .BLACK (.node .RED .nil 1 [97] .nil) 0 [98] .top)).plug
            (leaf 3 [100])).root (some 3) 0 = .ok (h2, root2, count) ∧
      insert_case1 7 attachedHeap
        ((Ctx.right .RED .nil 2 [99]
          (.right .BLACK (.node .RED .nil 1 [97] .nil) 0 [98] .top)).plug
            (leaf 3 [100])).root (some 3) = .ok (h2, root2) ∧
      count ≤ (Ctx.right .RED .nil 2 [99]
          (.right .BLACK (.node .RED .nil 1 [97] .nil) 0 [98] .top)).depth :=
  ⟨by decide,
    fixup_terminates.1
      (.right .RED .nil 2 [99] (.right .BLACK (.node .RED .nil 1 [97] .nil) 0 [98] .top))
      attachedHeap 3 [100] 7 (by simp [attachedHeap, Rep_node, Ctx.plug, leaf]) (by decide)
      rfl (by decide)⟩

/-! ## The grandparent where the fixup reads it -/

theorem deref_ok {h : Heap} {p : Ptr} {nd : Node} (e : deref h p = .ok nd) :
    ∃ a, p = some a ∧ h[a]? = some nd := by
  cases p with
  | none => simp [deref] at e
  | some a =>
    cases hx : h[a]? with
    | none => simp [deref, hx] at e
    | some x =>
      simp only [deref, hx, Except.ok.injEq] at e
      exact ⟨a, rfl, by rw [← e, hx]⟩

theorem deref_none (h : Heap) : deref h none = .error .nullDeref := rfl

/-- The value of `grandparent` at a node with a parent. -/
theorem grandparent_eval {h : Heap} {a p : Nat} {nd pd : Node} (hn : h[a]? = some nd)
    (hnp : nd.parent = some p) (hp : h[p]? = some pd) :
    grandparent h (some a) = .ok pd.parent := by
  simp [grandparent, deref, hn, hnp, hp, bind, Except.bind, pure, Except.pure]

/-- A call of `insert_case5` that returns had a parent and a grandparent at
its working node. -/
theorem insert_case5_ok {h : Heap} {root n : Ptr} {s : Heap × Ptr}
    (e : insert_case5 h root n = .ok s) :
    ∃ a nd p pd g, n = some a ∧ h[a]? = some nd ∧ nd.parent = some p ∧ h[p]? = some pd ∧
      pd.parent = some g ∧ grandparent h n = .ok (some g) := by
  simp only [insert_case5] at e
  obtain ⟨g, hg, e⟩ := bind_ok_elim e
  obtain ⟨_, hc, e⟩ := bind_ok_elim e
  obtain ⟨nd, hn, e⟩ := bind_ok_elim e
  obtain ⟨a, rfl, hna⟩ := deref_ok hn
  have hgn : g ≠ none := by
    intro hx
    simp [c_assert, hx] at hc
  cases hnp : nd.parent with
  | none =>
    simp [grandparent, deref, hna, hnp, bind, Except.bind, pure, Except.pure] at hg
    exact absurd hg.symm hgn
  | some p =>
    cases hp : h[p]? with
    | none =>
      simp [grandparent, deref, hna, hnp, hp, bind, Except.bind, pure, Except.pure] at hg
    | some pd =>
      rw [grandparent_eval hna hnp hp] at hg
      cases hg
      cases hpg : pd.parent with
      | none => exact absurd hpg hgn
      | some g =>
        exact ⟨a, nd, p, pd, g, rfl, hna, hnp, hp, hpg, by
          rw [grandparent_eval hna hnp hp, hpg]⟩

/-- A call of `insert_case4` that returns had a parent and a grandparent at
its working node. -/
theorem insert_case4_ok {h : Heap} {root n : Ptr} {s : Heap × Ptr}
    (e : insert_case4 h root n = .ok s) :
    ∃ a nd p pd g, n = some a ∧ h[a]? = some nd ∧ nd.parent = some p ∧ h[p]? = some pd ∧
      pd.parent = some g ∧ grandparent h n = .ok (some g) := by
  simp only [insert_case4] at e
  obtain ⟨g, hg, e⟩ := bind_ok_elim e
  obtain ⟨nd, hn, e⟩ := bind_ok_elim e
  obtain ⟨pd, hpd, e⟩ := bind_ok_elim e
  obtain ⟨a, rfl, hna⟩ := deref_ok hn
  obtain ⟨p, hnp, hp⟩ := deref_ok hpd
  rw [grandparent_eval hna hnp hp] at hg
  cases hg
  cases hpg : pd.parent with
  | some g =>
    exact ⟨a, nd, p, pd, g, rfl, hna, hnp, hp, hpg, by
      rw [grandparent_eval hna hnp hp, hpg]⟩
  | none =>
    exfalso
    rw [hpg] at e
    have h5 : insert_case5 h root (some a) = .error .assertFailed := by
      simp [insert_case5, grandparent_eval hna hnp hp, hpg, c_assert, bind, Except.bind]
    by_cases c1 : some a = pd.right
    · simp [c1, deref_none, bind, Except.bind] at e
    · by_cases c2 : some a = pd.left
      · simp [c1, c2, deref_none, bind, Except.bind, pure, Except.pure] at e
      · simp [c1, c2, h5, bind, Except.bind, pure, Except.pure] at e

/-- C20: the grandparent exists where the fixup reads it.  For a well-formed
tree (its root BLACK) and any key, `rbt_insert` returns without fault: no
`assert` fails and no absent node is read.  A call of `insert_case4` or of
`insert_case5` can only return when its working node has a parent and a
grandparent, and `insert_case5` stops at `assert(g != NULL)` otherwise.  With
a RED root the guarantee is lost: inserting "a" below the single RED node "b"
reaches `insert_case4` without a grandparent and reads through `NULL`. -/
theorem grandparent_exists :
    (∀ (h : Heap) (root : Ptr) (key : List Byte) (inserted : Bool) (fuel : Nat),
      WellFormed h root → 2 * h.length + 3 ≤ fuel →
      ∃ s, rbt_insert fuel h root key.length key inserted = .ok s) ∧
    (∀ (h : Heap) (root n : Ptr) (s : Heap × Ptr), insert_case4 h root n = .ok s →
      ∃ a nd p pd g, n = some a ∧ h[a]? = some nd ∧ nd.parent = some p ∧ h[p]? = some pd ∧
        pd.parent = some g ∧ grandparent h n = .ok (some g)) ∧
    (∀ (h : Heap) (root n : Ptr) (s : Heap × Ptr), insert_case5 h root n = .ok s →
      ∃ a nd p pd g, n = some a ∧ h[a]? = some nd ∧ nd.parent = some p ∧ h[p]? = some pd ∧
        pd.parent = some g ∧ grandparent h n = .ok (some g)) ∧
    (∀ (h : Heap) (root n : Ptr), grandparent h n = .ok none →
      insert_case5 h root n = .error .assertFailed) ∧
    rbt_insert 5 redRootHeap (some 0) 1 [97] false = .error .nullDeref := by
  refine ⟨?_, ?_, ?_, ?_, by decide⟩
  · intro h root key inserted fuel hwf hfuel
    obtain ⟨t, h2, -, -, -, e, -⟩ := hwf.insert key inserted fuel hfuel
    exact ⟨_, e⟩
  · intro h root n s e
    exact insert_case4_ok e
  · intro h root n s e
    exact insert_case5_ok e
  · intro h root n e
    simp [insert_case5, e, c_assert, bind, Except.bind]

/-- C20 at the three-node tree with the new key "d", at the line of three
nodes where Case 5 runs with parent "b" and grandparent "c", and at the RED
root. -/
theorem grandparent_exists_witness :
    (∃ s, rbt_insert 9 exampleHeap (some 0) ([100] : List Byte).length [100] false = .ok s) ∧
    (∃ a nd p pd g, (some 2 : Ptr) = some a ∧ lineLeftHeap[a]? = some nd ∧
      nd.parent = some p ∧ lineLeftHeap[p]? = some pd ∧ pd.parent = some g ∧
      grandparent lineLeftHeap (some 2) = .ok (some g)) ∧
    insert_case5 redRootHeap (some 0) (some 0) = .error .assertFailed ∧
    rbt_insert 5 redRootHeap (some 0) 1 [97] false = .error .nullDeref :=
  ⟨grandparent_exists.1 exampleHeap (some 0) [100] false 9 exampleHeap_wf (by decide),
    grandparent_exists.2.2.1 lineLeftHeap (some 0) (some 2)
      ([⟨1, none, none, some 1, .RED, [99]⟩, ⟨1, some 2, some 0, none, .BLACK, [98]⟩,
        ⟨1, none, none, some 1, .RED, [97]⟩], some 1) (by decide),
    grandparent_exists.2.2.2.1 redRootHeap (some 0) (some 0) (by decide),
    grandparent_exists.2.2.2.2⟩

/-! ## Soundness of the validator -/

theorem bind_ok_iff {α β : Type} {x : Except Fault α} {f : α → Except Fault β} {s : β} :
    (x >>= f) = .ok s ↔ ∃ a, x = .ok a ∧ f a = .ok s := by
  cases x with
  | error e => simp [bind, Except.bind]
  | ok a => simp [bind, Except.bind]

theorem c_assert_ok_iff {b : Bool} {u : Unit} : c_assert b = .ok u ↔ b = true := by
  cases b <;> simp [c_assert]

theorem ok_bind {α β : Type} (a : α) (f : α → Except Fault β) :
    ((Except.ok a : Except Fault α) >>= f) = f a := rfl

/-- The body of `rbt_validate_bst` at a node, block after block. -/
theorem rbt_validate_bst_node {h : Heap} {a : Nat} {k : List Byte} {lp rp par : Ptr}
    {c : Color} (fuel : Nat) (minp maxp : Ptr)
    (ha : h[a]? = some ⟨k.length, lp, rp, par, c, k⟩) :
    rbt_validate_bst (fuel + 1) h (some a) minp maxp = (do
      (if minp ≠ none then (do
        let v ← rbt_compare_nodes h minp (some a)
        c_assert (decide (v < 0))) else pure ())
      (if maxp ≠ none then (do
        let v ← rbt_compare_nodes h (some a) maxp
        c_assert (decide (v < 0))) else pure ())
      (if lp ≠ none then (do
        let ld ← deref h lp
        c_assert (decide (ld.parent = some a))
        let v ← rbt_compare_nodes h lp (some a)
        c_assert (decide (v < 0))
        rbt_validate_bst fuel h lp minp (some a)) else pure ())
      (if rp ≠ none then (do
        let rd ← deref h rp
        c_assert (decide (rd.parent = some a))
        let v ← rbt_compare_nodes h (some a) rp
        c_assert (decide (v < 0))
        rbt_validate_bst fuel h rp (some a) maxp) else pure ())) := by
  have hd : deref h (some a) = .ok ⟨k.length, lp, rp, par, c, k⟩ := deref_some ha
  cases minp <;> cases maxp <;> cases lp <;> cases rp <;>
    simp [rbt_validate_bst, hd, bind_assoc, ok_bind]

/-- What the checks of `rbt_validate_bst` establish: the keys are ordered
and lie strictly between the keys of the two bound nodes. -/
theorem rbt_validate_bst_sound {h : Heap} : ∀ (t : Tree) (fuel : Nat) (minp maxp : Ptr),
    Shape h t → rbt_validate_bst fuel h t.root minp maxp = .ok () →
    t.ordered ∧
      (∀ m md, minp = some m → h[m]? = some md → md.data_size = md.data.length →
        ∀ x ∈ t.keys, keyLt md.data x) ∧
      (∀ m md, maxp = some m → h[m]? = some md → md.data_size = md.data.length →
        ∀ x ∈ t.keys, keyLt x md.data) := by
  intro t
  induction t with
  | nil => intro fuel minp maxp _ _; simp [Tree.ordered]
  | node c l a k r ihl ihr =>
    intro fuel minp maxp hs hv
    obtain ⟨⟨par, ha⟩, hl, hr⟩ := hs
    cases fuel with
    | zero => simp [rbt_validate_bst] at hv
    | succ f =>
      rw [Tree.root_node, rbt_validate_bst_node f minp maxp ha] at hv
      obtain ⟨_, b1, hv⟩ := bind_ok_iff.mp hv
      obtain ⟨_, b2, hv⟩ := bind_ok_iff.mp hv
      obtain ⟨_, b3, b4⟩ := bind_ok_iff.mp hv
      have hmin : ∀ m md, minp = some m → h[m]? = some md →
          md.data_size = md.data.length → keyLt md.data k := by
        intro m md e hm hsz
        subst e
        unfold keyLt cmpKey
        rw [← hsz]
        simpa [rbt_compare_nodes, deref, hm, ha, bind, Except.bind, pure, Except.pure,
          c_assert] using b1
      have hmax : ∀ m md, maxp = some m → h[m]? = some md →
          md.data_size = md.data.length → keyLt k md.data := by
        intro m md e hm hsz
        subst e
        unfold keyLt cmpKey
        rw [← hsz]
        simpa [rbt_compare_nodes, deref, hm, ha, bind, Except.bind, pure, Except.pure,
          c_assert] using b2
      have hL : l.ordered ∧ (∀ x ∈ l.keys, keyLt x k) ∧
          (∀ m md, minp = some m → h[m]? = some md → md.data_size = md.data.length →
            ∀ x ∈ l.keys, keyLt md.data x) := by
        cases l with
        | nil => simp [Tree.ordered]
        | node cl ll al kl rl =>
          simp only [Tree.root_node, ne_eq, reduceCtorEq, not_false_eq_true, if_true] at b3
          obtain ⟨ld, -, b3⟩ := bind_ok_iff.mp b3
          obtain ⟨_, -, b3⟩ := bind_ok_iff.mp b3
          obtain ⟨v, -, b3⟩ := bind_ok_iff.mp b3
          obtain ⟨_, -, b3⟩ := bind_ok_iff.mp b3
          have := ihl f minp (some a) hl b3
          exact ⟨this.1, fun x hx => this.2.2 a _ rfl ha rfl x hx, this.2.1⟩
      have hR : r.ordered ∧ (∀ x ∈ r.keys, keyLt k x) ∧
          (∀ m md, maxp = some m → h[m]? = some md → md.data_size = md.data.length →
            ∀ x ∈ r.keys, keyLt x md.data) := by
        cases r with
        | nil => simp [Tree.ordered]
        | node cr lr ar kr rr =>
          simp only [Tree.root_node, ne_eq, reduceCtorEq, not_false_eq_true, if_true] at b4
          obtain ⟨rd, -, b4⟩ := bind_ok_iff.mp b4
          obtain ⟨_, -, b4⟩ := bind_ok_iff.mp b4
          obtain ⟨v, -, b4⟩ := bind_ok_iff.mp b4
          obtain ⟨_, -, b4⟩ := bind_ok_iff.mp b4
          have := ihr f (some a) maxp hr b4
          exact ⟨this.1, fun x hx => this.2.1 a _ rfl ha rfl x hx, this.2.2⟩
      refine ⟨⟨hL.2.1, hR.2.1, hL.1, hR.1⟩, ?_, ?_⟩
      · intro m md e hm hsz x hx
        simp only [Tree.keys_node, List.mem_append, List.mem_cons] at hx
        rcases hx with hx | rfl | hx
        · exact hL.2.2 m md e hm hsz x hx
        · exact hmin m md e hm hsz
        · exact keyLt_trans (hmin m md e hm hsz) (hR.2.1 x hx)
      · intro m md e hm hsz x hx
        simp only [Tree.keys_node, List.mem_append, List.mem_cons] at hx
        rcases hx with hx | rfl | hx
        · exact keyLt_trans (hL.2.1 x hx) (hmax m md e hm hsz)
        · exact hmax m md e hm hsz
        · exact hR.2.2 m md e hm hsz x hx

/-- The body of `rbt_validate_invariants` at a node, block after block. -/
theorem rbt_validate_invariants_node {h : Heap} {a : Nat} {k : List Byte} {lp rp par : Ptr}
    {c : Color} (fuel : Nat) (ha : h[a]? = some ⟨k.length, lp, rp, par, c, k⟩) :
    rbt_validate_invariants (fuel + 1) h (some a) = (do
      (if c = .RED then (do
        let left_ok ←
          (if lp = none then pure true
          else (do let ld ← deref h lp; pure (decide (ld.color = Color.BLACK))))
        c_assert left_ok
        let right_ok ←
          (if rp = none then pure true
          else (do let rd ← deref h rp; pure (decide (rd.color = Color.BLACK))))
        c_assert right_ok) else pure ())
      let n_left_black ← rbt_validate_invariants fuel h lp
      let n_right_black ← rbt_validate_invariants fuel h rp
      c_assert (decide (n_left_black = n_right_black))
      pure (n_left_black + (if c = .BLACK then 1 else 0))) := by
  have hd : deref h (some a) = .ok ⟨k.length, lp, rp, par, c, k⟩ := deref_some ha
  cases c <;> cases lp <;> cases rp <;>
    simp [rbt_validate_invariants, hd, bind_assoc, ok_bind]

theorem Shape.color_ok {h : Heap} {t : Tree} (hs : Shape h t)
    (hv : (do
        let ok ←
          (if t.root = none then (pure true : Except Fault Bool)
          else (do let d ← deref h t.root; pure (decide (d.color = Color.BLACK))))
        c_assert ok) = .ok ()) : t.color = .BLACK := by
  cases t with
  | nil => rfl
  | node c l a k r =>
    obtain ⟨⟨par, ha⟩, -, -⟩ := hs
    simpa [deref, ha, bind, Except.bind, pure, Except.pure, c_assert] using hv

/-- What the checks of `rbt_validate_invariants` establish: the value
returned is the black-height, no RED node has a RED child, and the
black-heights of the two subtrees agree at every node. -/
theorem rbt_validate_invariants_sound {h : Heap} : ∀ (t : Tree) (fuel nb : Nat),
    Shape h t → rbt_validate_invariants fuel h t.root = .ok nb →
    nb = t.bheight ∧ t.noRedRed ∧ t.balanced := by
  intro t
  induction t with
  | nil =>
    intro fuel nb _ hv
    cases fuel with
    | zero => simp [rbt_validate_invariants] at hv
    | succ f =>
      simp [rbt_validate_invariants, pure, Except.pure] at hv
      simp [Tree.bheight, Tree.noRedRed, Tree.balanced, hv]
  | node c l a k r ihl ihr =>
    intro fuel nb hs hv
    obtain ⟨⟨par, ha⟩, hl, hr⟩ := hs
    cases fuel with
    | zero => simp [rbt_validate_invariants] at hv
    | succ f =>
      rw [Tree.root_node, rbt_validate_invariants_node f ha] at hv
      obtain ⟨_, b1, hv⟩ := bind_ok_iff.mp hv
      obtain ⟨nl, b2, hv⟩ := bind_ok_iff.mp hv
      obtain ⟨nr, b3, hv⟩ := bind_ok_iff.mp hv
      obtain ⟨_, b4, hv⟩ := bind_ok_iff.mp hv
      obtain ⟨e1, n1, bl⟩ := ihl f nl hl b2
      obtain ⟨e2, n2, br⟩ := ihr f nr hr b3
      have heq : nl = nr := by simpa [c_assert] using b4
      have hnb : nb = nl + (if c = .BLACK then 1 else 0) := by
        simpa [pure, Except.pure] using hv.symm
      refine ⟨by rw [hnb, e1]; rfl, ⟨?_, n1, n2⟩, ⟨by rw [← e1, ← e2, heq], bl, br⟩⟩
      intro hc
      rw [if_pos hc] at b1
      obtain ⟨lo, c1, b1⟩ := bind_ok_iff.mp b1
      obtain ⟨_, c2, b1⟩ := bind_ok_iff.mp b1
      obtain ⟨ro, c3, c4⟩ := bind_ok_iff.mp b1
      refine ⟨hl.color_ok ?_, hr.color_ok ?_⟩
      · rw [c1]; exact c2
      · rw [c3]; exact c4

/-- What a run of `rbt_validate_tree` without fault establishes. -/
theorem rbt_validate_tree_ok {h : Heap} {t : Tree} {fuel : Nat} (hs : Shape h t)
    (hv : rbt_validate_tree fuel h t.root = .ok ()) :
    t.color = .BLACK ∧ t.ordered ∧ t.noRedRed ∧ t.pathsAgree := by
  cases t with
  | nil => simp [Tree.color, Tree.ordered, Tree.noRedRed, Tree.pathsAgree]
  | node c l a k r =>
    have hs0 := hs
    obtain ⟨⟨par, ha⟩, -, -⟩ := hs
    simp only [rbt_validate_tree, Tree.root_node, reduceCtorEq, if_false, deref_some ha,
      ok_bind] at hv
    obtain ⟨_, b1, hv⟩ := bind_ok_iff.mp hv
    obtain ⟨_, b2, hv⟩ := bind_ok_iff.mp hv
    obtain ⟨nb, b3, -⟩ := bind_ok_iff.mp hv
    have hc : c = .BLACK := by simpa [c_assert] using b1
    have h2 := rbt_validate_bst_sound _ fuel none none hs0 b2
    have h3 := rbt_validate_invariants_sound _ fuel nb hs0 b3
    exact ⟨hc, h2.1, h3.2.1, (Tree.pathsAgree_iff _).mpr h3.2.2⟩

/-! ## The validator ends in success or in a failed assertion -/

theorem bind_total {α β : Type} {x : Except Fault α} {f : α → Except Fault β}
    (hx : (∃ a, x = .ok a) ∨ x = .error .assertFailed)
    (hf : ∀ a, x = .ok a → (∃ b, f a = .ok b) ∨ f a = .error .assertFailed) :
    (∃ b, (x >>= f) = .ok b) ∨ (x >>= f) = .error .assertFailed := by
  rcases hx with ⟨a, rfl⟩ | rfl
  · exact hf a rfl
  · exact Or.inr rfl

theorem c_assert_total (b : Bool) :
    (∃ u, c_assert b = .ok u) ∨ c_assert b = .error .assertFailed := by
  cases b
  · exact Or.inr rfl
  · exact Or.inl ⟨(), rfl⟩

theorem pure_total {α : Type} (a : α) :
    (∃ b, (pure a : Except Fault α) = .ok b) ∨ (pure a : Except Fault α) = .error .assertFailed :=
  Or.inl ⟨a, rfl⟩

theorem compare_assert_total {h : Heap} {p q : Ptr} (hp : ∃ a nd, p = some a ∧ h[a]? = some nd)
    (hq : ∃ a nd, q = some a ∧ h[a]? = some nd) :
    (∃ u, (do let v ← rbt_compare_nodes h p q; c_assert (decide (v < 0))) = .ok u) ∨
      (do let v ← rbt_compare_nodes h p q; c_assert (decide (v < 0)))
        = .error .assertFailed := by
  obtain ⟨a, nd, rfl, ha⟩ := hp
  obtain ⟨b, md, rfl, hb⟩ := hq
  have hv : rbt_compare_nodes h (some a) (some b) =
      .ok (rbt_compare_data nd.data_size nd.data md.data_size md.data) := by
    simp [rbt_compare_nodes, deref, ha, hb, bind, Except.bind, pure, Except.pure]
  exact bind_total (Or.inl ⟨_, hv⟩) (fun _ _ => c_assert_total _)

theorem rbt_validate_bst_total {h : Heap} : ∀ (t : Tree) (fuel : Nat) (minp maxp : Ptr),
    Shape h t → (∀ m, minp = some m → ∃ md, h[m]? = some md) →
    (∀ m, maxp = some m → ∃ md, h[m]? = some md) → t.depth < fuel →
    (∃ u, rbt_validate_bst fuel h t.root minp maxp = .ok u) ∨
      rbt_validate_bst fuel h t.root minp maxp = .error .assertFailed := by
  intro t
  induction t with
  | nil =>
    intro fuel minp maxp _ _ _ hf
    obtain ⟨f, rfl⟩ : ∃ f, fuel = f + 1 := ⟨fuel - 1, by omega⟩
    exact Or.inl ⟨(), by simp [rbt_validate_bst, pure, Except.pure]⟩
  | node c l a k r ihl ihr =>
    intro fuel minp maxp hs hmin hmax hf
    obtain ⟨f, rfl⟩ : ∃ f, fuel = f + 1 := ⟨fuel - 1, by omega⟩
    obtain ⟨⟨par, ha⟩, hl, hr⟩ := hs
    simp only [Tree.depth] at hf
    have hself : ∃ x nd, (some a : Ptr) = some x ∧ h[x]? = some nd := ⟨a, _, rfl, ha⟩
    have hselfb : ∀ m, (some a : Ptr) = some m → ∃ md, h[m]? = some md := by
      intro m e
      cases e
      exact ⟨_, ha⟩
    rw [Tree.root_node, rbt_validate_bst_node f minp maxp ha]
    refine bind_total ?_ (fun _ _ => bind_total ?_ (fun _ _ => bind_total ?_ (fun _ _ => ?_)))
    · cases minp with
      | none => exact pure_total _
      | some m =>
        obtain ⟨md, hm⟩ := hmin m rfl
        simp only [ne_eq, reduceCtorEq, not_false_eq_true, if_true]
        exact compare_assert_total ⟨m, md, rfl, hm⟩ hself
    · cases maxp with
      | none => exact pure_total _
      | some m =>
        obtain ⟨md, hm⟩ := hmax m rfl
        simp only [ne_eq, reduceCtorEq, not_false_eq_true, if_true]
        exact compare_assert_total hself ⟨m, md, rfl, hm⟩
    · cases l with
      | nil => exact pure_total _
      | node cl ll al kl rl =>
        have hl0 := hl
        obtain ⟨⟨parl, hal⟩, -, -⟩ := hl
        simp only [Tree.root_node, ne_eq, reduceCtorEq, not_false_eq_true, if_true]
        refine bind_total (Or.inl ⟨_, deref_some hal⟩) (fun _ _ =>
          bind_total (c_assert_total _) (fun _ _ => ?_))
        have hcmp := compare_assert_total (h := h) ⟨al, _, rfl, hal⟩ hself
        have hrec := ihl f minp (some a) hl0 hmin hselfb (by omega)
        rcases hcmp with ⟨u, hu⟩ | hu
        · obtain ⟨v, hv, hc⟩ := bind_ok_iff.mp hu
          rw [hv]
          simp only [ok_bind, hc]
          exact hrec
        · right
          cases hx : rbt_compare_nodes h (some al) (some a) with
          | error e => rw [hx] at hu; exact hu
          | ok v =>
            rw [hx] at hu
            simp only [ok_bind] at hu ⊢
            rw [hu]
            rfl
    · cases r with
      | nil => exact pure_total _
      | node cr lr ar kr rr =>
        have hr0 := hr
        obtain ⟨⟨parr, har⟩, -, -⟩ := hr
        simp only [Tree.root_node, ne_eq, reduceCtorEq, not_false_eq_true, if_true]
        refine bind_total (Or.inl ⟨_, deref_some har⟩) (fun _ _ =>
          bind_total (c_assert_total _) (fun _ _ => ?_))
        have hcmp := compare_assert_total (h := h) hself ⟨ar, _, rfl, har⟩
        have hrec := ihr f (some a) maxp hr0 hselfb hmax (by omega)
        rcases hcmp with ⟨u, hu⟩ | hu
        · obtain ⟨v, hv, hc⟩ := bind_ok_iff.mp hu
          rw [hv]
          simp only [ok_bind, hc]
          exact hrec
        · right
          cases hx : rbt_compare_nodes h (some a) (some ar) with
          | error e => rw [hx] at hu; exact hu
          | ok v =>
            rw [hx] at hu
            simp only [ok_bind] at hu ⊢
            rw [hu]
            rfl

theorem Shape.color_total {h : Heap} {t : Tree} (hs : Shape h t) :
    (∃ b, (if t.root = none then (pure true : Except Fault Bool)
        else (do let d ← deref h t.root; pure (decide (d.color = Color.BLACK)))) = .ok b) ∨
      (if t.root = none then (pure true : Except Fault Bool)
        else (do let d ← deref h t.root; pure (decide (d.color = Color.BLACK))))
        = .error .assertFailed := by
  cases t with
  | nil => exact Or.inl ⟨true, rfl⟩
  | node c l a k r =>
    obtain ⟨⟨par, ha⟩, -, -⟩ := hs
    refine Or.inl ⟨decide (c = .BLACK), ?_⟩
    simp [deref, ha, bind, Except.bind, pure, Except.pure]

theorem rbt_validate_invariants_total {h : Heap} : ∀ (t : Tree) (fuel : Nat),
    Shape h t → t.depth < fuel →
    (∃ nb, rbt_validate_invariants fuel h t.root = .ok nb) ∨
      rbt_validate_invariants fuel h t.root = .error .assertFailed := by
  intro t
  induction t with
  | nil =>
    intro fuel _ hf
    obtain ⟨f, rfl⟩ : ∃ f, fuel = f + 1 := ⟨fuel - 1, by omega⟩
    exact Or.inl ⟨0, by simp [rbt_validate_invariants, pure, Except.pure]⟩
  | node c l a k r ihl ihr =>
    intro fuel hs hf
    obtain ⟨f, rfl⟩ : ∃ f, fuel = f + 1 := ⟨fuel - 1, by omega⟩
    obtain ⟨⟨par, ha⟩, hl, hr⟩ := hs
    simp only [Tree.depth] at hf
    rw [Tree.root_node, rbt_validate_invariants_node f ha]
    refine bind_total ?_ (fun _ _ => bind_total (ihl f hl (by omega)) (fun _ _ =>
      bind_total (ihr f hr (by omega)) (fun _ _ =>
        bind_total (c_assert_total _) (fun _ _ => pure_total _))))
    split
    · exact bind_total hl.color_total (fun _ _ => bind_total (c_assert_total _) (fun _ _ =>
        bind_total hr.color_total (fun _ _ => c_assert_total _)))
    · exact pure_total _

/-- On a finite tree, with fuel beyond its height, `rbt_validate_tree` ends
in success or in a failed assertion. -/
theorem rbt_validate_tree_total {h : Heap} {t : Tree} {fuel : Nat} (hs : Shape h t)
    (hf : t.depth < fuel) :
    rbt_validate_tree fuel h t.root = .ok () ∨
      rbt_validate_tree fuel h t.root = .error .assertFailed := by
  have key : (∃ u, rbt_validate_tree fuel h t.root = .ok u) ∨
      rbt_validate_tree fuel h t.root = .error .assertFailed := by
    cases t with
    | nil => exact Or.inl ⟨(), by simp [rbt_validate_tree, pure, Except.pure]⟩
    | node c l a k r =>
      have hs0 := hs
      obtain ⟨⟨par, ha⟩, -, -⟩ := hs
      simp only [rbt_validate_tree, Tree.root_node, reduceCtorEq, if_false, deref_some ha,
        ok_bind]
      exact bind_total (c_assert_total _) (fun _ _ =>
        bind_total (rbt_validate_bst_total _ fuel none none hs0 (fun m e => by cases e)
          (fun m e => by cases e) hf) (fun _ _ =>
          bind_total (rbt_validate_invariants_total _ fuel hs0 hf) (fun _ _ => pure_total _)))
  rcases key with ⟨u, hu⟩ | hu
  · exact Or.inl hu
  · exact Or.inr hu

/-- C14: the validator is sound.  For a finite tree `t` held by the heap
along its child links (nothing assumed of colours, keys or parent links), a
run of `rbt_validate_tree` that completes with no assertion failing
establishes invariants 1 to 4: the root is BLACK, at every node the keys of
the left subtree compare less and those of the right subtree greater than
the node's key, no RED node has a RED child, and from every node all paths
down to a null leaf hold the same number of BLACK nodes.  Contrapositively,
on a tree that breaks one of them the run, given fuel beyond the height,
ends in a failed assertion. -/
theorem rbt_validate_tree_sound (h : Heap) (t : Tree) (fuel : Nat) (hs : Shape h t) :
    (rbt_validate_tree fuel h t.root = .ok () →
      t.color = .BLACK ∧ t.ordered ∧ t.noRedRed ∧ t.pathsAgree) ∧
    (t.depth < fuel → ¬ (t.color = .BLACK ∧ t.ordered ∧ t.noRedRed ∧ t.pathsAgree) →
      rbt_validate_tree fuel h t.root = .error .assertFailed) := by
  refine ⟨fun hv => rbt_validate_tree_ok hs hv, ?_⟩
  intro hf hbad
  rcases rbt_validate_tree_total hs hf with hv | hv
  · exact absurd (rbt_validate_tree_ok hs hv) hbad
  · exact hv

/-- C14 at the single RED node "b": the tree breaks invariant 2 and the
validator ends in a failed assertion. -/
theorem rbt_validate_tree_sound_witness :
    Shape redRootHeap (.node .RED .nil 0 [98] .nil) ∧
    rbt_validate_tree 2 redRootHeap (some 0) = .error .assertFailed ∧
    ((rbt_validate_tree 2 redRootHeap (Tree.node .RED .nil 0 [98] .nil).root = .ok () →
      (Tree.node .RED .nil 0 [98] .nil).color = .BLACK ∧
        (Tree.node .RED .nil 0 [98] .nil).ordered ∧
        (Tree.node .RED .nil 0 [98] .nil).noRedRed ∧
        (Tree.node .RED .nil 0 [98] .nil).pathsAgree) ∧
    ((Tree.node .RED .nil 0 [98] .nil).depth < 2 →
      ¬ ((Tree.node .RED .nil 0 [98] .nil).color = .BLACK ∧
        (Tree.node .RED .nil 0 [98] .nil).ordered ∧
        (Tree.node .RED .nil 0 [98] .nil).noRedRed ∧
        (Tree.node .RED .nil 0 [98] .nil).pathsAgree) →
      rbt_validate_tree 2 redRootHeap (Tree.node .RED .nil 0 [98] .nil).root
        = .error .assertFailed)) :=
  ⟨by simp [Shape, redRootHeap], by decide,
    rbt_validate_tree_sound redRootHeap (.node .RED .nil 0 [98] .nil) 2
      (by simp [Shape, redRootHeap])⟩

end Rbt
